import Mathlib

/-!
# Verification of the FAM_backend data-ingestion and candle-aggregation pipeline

Shallow embedding of the core pipeline of the repository:

* `Gate`  — `Provider.make_request` from `datafeed/provider.py`;
* `Daily` — `CurrencyUpdaterDaily.sync_asset` from `datafeed/assetclass.py`
  (the stock variant `StockUpdaterDaily.sync_asset` is line-for-line identical
  in all behaviour relevant here, except that it also stores a volume field);
* `Agg`   — `AssetUpdaterAggregation.aggregate_candles`, `sync_asset_weekly`
  and `sync_asset_monthly` from `datafeed/assetclass.py`, together with the
  store queries of `models/candle.py` and `models/asset.py` that they use.

Conventions used throughout:

* Python floats are modelled as `ℚ`; nullable fields as `Option`.
* In the `Daily` model a UTC timestamp is an integer number of seconds and
  `datetime.date()` is floor division by 86400 (a day ordinal).
* In the `Agg` model a calendar date is a pair of an absolute Gregorian month
  index `month = 12*year + (monthOfYear - 1)` and a day-of-month; this is a
  transparent re-coding of a `(year, month, day)` triple (accessors below),
  chosen so that `relativedelta(months=1)` is `month + 1`.
* Uncaught Python exceptions (`TypeError` from ordering `None`,
  `AttributeError` from calling a method on `None`) are modelled by
  `Except Unit` with `.error ()` standing for the raised exception.
-/

/-! ## The request gate: `Provider.make_request` (datafeed/provider.py, lines 45-67)

The body of the `while` loop of `make_request` holds `self.lock`, so the
check-and-update on `(self.time, self.count)` is a single atomic step; the
model makes that critical section a pure step function from the gate state
and the current wall-clock minute to a new state plus a grant/block outcome.
A blocked attempt leaves the state unchanged and the thread sleeps and
retries (the retry is a fresh step at a possibly later minute). -/

namespace Gate

/-- State of a `Provider`: the request count and the stored minute bucket,
with the provider's per-minute ceiling (`self.count`, `self.time`,
`self.max_requests`). -/
structure State where
  count : ℕ
  time : ℤ
  max_requests : ℕ
deriving DecidableEq, Repr

/-- Outcome of one pass through the locked section of `make_request`:
either the request is granted (`can_continue = True`) or the thread is
blocked and will sleep and retry. -/
inductive StepResult where
  | granted (s : State)
  | blocked (s : State)
deriving DecidableEq, Repr

/-- One pass through the critical section of `make_request`, given the
current wall-clock minute `curr = int(time()/60)`. -/
def make_request_step (s : State) (curr : ℤ) : StepResult :=
  if curr = s.time then
    if s.count ≥ s.max_requests then
      .blocked s
    else
      .granted { s with count := s.count + 1 }
  else
    .granted { count := 1, time := curr, max_requests := s.max_requests }

/-- Run a sequence of lock acquisitions (one per listed wall-clock minute),
returning the final state and how many of them were granted. -/
def runGate : State → List ℤ → State × ℕ
  | s, [] => (s, 0)
  | s, m :: ms =>
    match make_request_step s m with
    | .granted s' => ((runGate s' ms).1, (runGate s' ms).2 + 1)
    | .blocked s' => runGate s' ms

theorem runGate_nil (s : State) : runGate s [] = (s, 0) := rfl

lemma step_same_full {s : State} {curr : ℤ} (h : curr = s.time)
    (hf : s.count ≥ s.max_requests) : make_request_step s curr = .blocked s := by
  unfold make_request_step
  rw [if_pos h, if_pos hf]

lemma step_same_ok {s : State} {curr : ℤ} (h : curr = s.time)
    (hf : ¬s.count ≥ s.max_requests) :
    make_request_step s curr = .granted { s with count := s.count + 1 } := by
  unfold make_request_step
  rw [if_pos h, if_neg hf]

lemma step_same_minute_grant {s : State} {curr : ℤ} {s' : State}
    (h : make_request_step s curr = .granted s') (ht : s'.time = s.time) :
    s'.count = s.count + 1 ∧ s'.count ≤ s.max_requests := by
  by_cases hc : curr = s.time
  · by_cases hm : s.count ≥ s.max_requests
    · rw [step_same_full hc hm] at h
      exact absurd h (by simp)
    · rw [step_same_ok hc hm] at h
      cases h
      refine ⟨rfl, ?_⟩
      show s.count + 1 ≤ s.max_requests
      omega
  · unfold make_request_step at h
    rw [if_neg hc] at h
    cases h
    exact absurd ht hc

lemma step_new_minute {s : State} {curr : ℤ} (h : curr ≠ s.time) :
    make_request_step s curr =
      .granted { count := 1, time := curr, max_requests := s.max_requests } := by
  unfold make_request_step
  rw [if_neg h]

/-- Along any run whose attempts all fall in the stored minute bucket, the
count never passes the ceiling and the number of grants is bounded by the
remaining quota. -/
lemma runGate_same_bucket {s : State} (ms : List ℤ)
    (hm : ∀ m ∈ ms, m = s.time) (hc : s.count ≤ s.max_requests) :
    (runGate s ms).1.count ≤ s.max_requests ∧
      (runGate s ms).2 ≤ s.max_requests - s.count := by
  induction ms generalizing s with
  | nil => exact ⟨hc, by simp [runGate]⟩
  | cons m ms ih =>
    have hms : m = s.time := hm m (by simp)
    by_cases hfull : s.count ≥ s.max_requests
    · have hstep := step_same_full hms hfull
      simp only [runGate, hstep]
      exact ih (fun x hx => hm x (by simp [hx])) hc
    · have hstep := step_same_ok hms hfull
      simp only [runGate, hstep]
      have hc' : ({ s with count := s.count + 1 } : State).count ≤
          ({ s with count := s.count + 1 } : State).max_requests := by
        show s.count + 1 ≤ s.max_requests
        omega
      have := ih (s := { s with count := s.count + 1 })
        (fun x hx => hm x (by simp [hx])) hc'
      refine ⟨this.1, ?_⟩
      have h2 := this.2
      simp only at h2 ⊢
      omega

end Gate

/-- **C4.** The rate limiter never grants more than `max_requests`
acquisitions within a single stored-minute bucket: a `make_request` that
returns with the stored minute unchanged incremented the count under the
lock and leaves `count ≤ max_requests`; any run of attempts inside one
bucket is granted at most the remaining quota; and the first attempt that
observes a new wall-clock minute resets the stored minute, sets
`count = 1`, and is granted without blocking. -/
theorem claim4_gate_bucket_bound (s : Gate.State) (curr : ℤ) :
    (∀ s', Gate.make_request_step s curr = .granted s' → s'.time = s.time →
      s'.count = s.count + 1 ∧ s'.count ≤ s.max_requests) ∧
    (∀ ms : List ℤ, (∀ m ∈ ms, m = s.time) → s.count ≤ s.max_requests →
      (Gate.runGate s ms).2 ≤ s.max_requests - s.count) ∧
    (curr ≠ s.time →
      Gate.make_request_step s curr =
        .granted { count := 1, time := curr, max_requests := s.max_requests }) := by
  refine ⟨fun s' h ht => Gate.step_same_minute_grant h ht, ?_, ?_⟩
  · intro ms hm hc
    exact (Gate.runGate_same_bucket ms hm hc).2
  · intro h
    exact Gate.step_new_minute h

/-- Witness for C4 at a concrete state: ceiling 2, count 1, minute 7;
two same-minute attempts yield at most one further grant, and an attempt
at minute 8 resets the bucket. -/
theorem claim4_gate_bucket_bound_witness :
    (Gate.runGate ⟨1, 7, 2⟩ [7, 7]).2 ≤ 2 - 1 ∧
      Gate.make_request_step ⟨1, 7, 2⟩ 8 = .granted ⟨1, 8, 2⟩ := by
  have h := claim4_gate_bucket_bound ⟨1, 7, 2⟩ 8
  refine ⟨h.2.1 [7, 7] (by decide) (by decide), h.2.2 (by decide)⟩

/-! ## The daily syncer: `CurrencyUpdaterDaily.sync_asset`
(datafeed/assetclass.py, lines 145-279)

Timestamps are integer seconds (UTC); `datetime.date()` is the day ordinal
`t.fdiv 86400`.  The provider response `data[0]` is an ordered mapping from
date strings to per-day payloads; an `Entry` models one key/value pair after
the attempted parses: `pdate = none` stands for a date string on which
`dateutil.parser.parse` raises (or returns `None`), `EntryData.missing` for
a `None` payload, `EntryData.bad` for a payload on which building the
`Candle` raises (a `float(...)` failure), and `EntryData.ok o h l c` for a
well-formed payload.  Daily date keys are plain dates, so a parsed stamp is
the midnight `86400 * d` of its day ordinal `d`.

The constant `INTERVAL_DAY = 86400` is taken from the spec (models/constants.py
is not part of the source tree; the spec fixes day = 86400 seconds). -/

namespace Daily

/-- `models/candle.py`: one OHLCV bar.  `open` is a Lean keyword, hence the
field name `open_`.  Currency bars never carry volume but the field exists
on the document. -/
structure Candle where
  open_ : Option ℚ
  high : Option ℚ
  low : Option ℚ
  close : Option ℚ
  volume : Option ℚ
  open_time : ℤ
  interval : ℤ
deriving DecidableEq, Repr

/-- `datetime.date()` as a day ordinal: floor division of the UTC second
count by 86400. -/
def dateOf (t : ℤ) : ℤ := t.fdiv 86400

/-- Day ordinal of a candle's `open_time`. -/
def Candle.date (c : Candle) : ℤ := dateOf c.open_time

/-- One comparison step of the maximum-`open_time` scan backing
`get_last_candle`. -/
def lastStep : Option Candle → Candle → Option Candle
  | none, c => some c
  | some b, c => if b.open_time < c.open_time then some c else some b

/-- `Candle.get_asset_last_candle` / `asset.get_last_candle()`
(models/candle.py line 94): the stored daily candle with the greatest
`open_time` (Mongo default ordering `-open_time`, `first()`), `none` on an
empty series.  The model store is the asset's list of daily candles. -/
def lastCandle (S : List Candle) : Option Candle := S.foldl lastStep none

/-- Result of parsing one per-day payload of the provider response. -/
inductive EntryData where
  | missing
  | bad
  | ok (o h l c : ℚ)
deriving DecidableEq, Repr

/-- One key/value pair of the provider's daily response, after parsing. -/
structure Entry where
  pdate : Option ℤ
  pdata : EntryData
deriving DecidableEq, Repr

/-- The candle built at line 240 for an accepted real bar on day `d`
(the parsed stamp is the midnight of `d`; currencies carry no volume). -/
def mkReal (o h l c : ℚ) (d : ℤ) : Candle :=
  ⟨some o, some h, some l, some c, none, 86400 * d, 86400⟩

/-- A synthetic filler candle (lines 260 and 273): only `close` and
`open_time` are set; `open`, `high`, `low` and `volume` stay absent. -/
def mkFiller (closeV : Option ℚ) (t : ℤ) : Candle :=
  ⟨none, none, none, closeV, none, t, 86400⟩

/-- The filler run of lines 256-261 (also 271-274): starting from
`src.open_time + 1 day`, add a filler per day while the day differs from
`target`, each carrying `src`'s close.  The Python loop diverges when
`src.date + 1 > target`; in that case the model returns `[]`, and every
theorem below adds the hypotheses (provider entries newest-first, dated
not after today) under which the divergent case is unreachable. -/
def fillersBetween (src : Candle) (target : ℤ) : List Candle :=
  (List.range (target - (src.date + 1)).toNat).map
    (fun k : ℕ => mkFiller src.close (src.open_time + 86400 * ((k : ℤ) + 1)))

/-- The early-stop test of line 236: the parsed day is on or before the
date of the latest stored candle. -/
def breakAt (latest : Option Candle) (d : ℤ) : Bool :=
  match latest with
  | some lc => d ≤ lc.date
  | none => false

/-- The `target_day` of lines 248-254: the date of the last candle already
in the batch (`candles[-1]`), or today's date when the batch is empty. -/
def tgtOf (acc : List Candle) (today : ℤ) : ℤ :=
  match acc.getLast? with
  | some prev => prev.date
  | none => today

/-- The response-parsing loop of lines 205-263, accumulating the batch
`acc` (`candles` in the source).  `none` models the `(False, 0)` aborts of
lines 216, 223, 230 and 247: a missing payload, an unparsable date, and a
failed candle construction. -/
def parseLoop (latest : Option Candle) (today : ℤ) :
    List Entry → List Candle → Option (List Candle)
  | [], acc => some acc
  | e :: rest, acc =>
    if e.pdata = .missing then none
    else
      match e.pdate with
      | none => none
      | some d =>
        if d = today then parseLoop latest today rest acc
        else if breakAt latest d then some acc
        else
          match e.pdata with
          | .ok o h l c =>
            let candle := mkReal o h l c d
            parseLoop latest today rest
              (acc ++ fillersBetween candle (tgtOf acc today) ++ [candle])
          | _ => none

/-- Outcome of one attempt of the fetch at lines 185-187: the API call
raises, or returns (possibly `None`). -/
inductive FetchOutcome where
  | raise
  | ret (d : Option (List Entry))

/-- Outcome of the retry loop: data fetched after `sleeps` error backoffs,
or `os._exit(1)` at line 201 after the retry ceiling. -/
inductive RetryResult where
  | fetched (sleeps : ℕ) (d : Option (List Entry))
  | fatal
deriving Repr

/-- The retry loop of lines 180-201 (`DAILY_MAX_RETRIES = 5`): `f k` is
the outcome of attempt number `k`; each raise sleeps `ERROR_WAIT_TIME` and
increments the counter; reaching the ceiling calls `os._exit(1)`. -/
def retryGo (f : ℕ → FetchOutcome) : ℕ → ℕ → RetryResult
  | 0, _ => .fatal
  | r + 1, counter =>
    match f counter with
    | .ret d => .fetched counter d
    | .raise => retryGo f r (counter + 1)

/-- The whole retry loop, entered with `counter = 0`. -/
def retryLoop (f : ℕ → FetchOutcome) : RetryResult := retryGo f 5 0

/-- The sync-type decision of lines 156-175: skip (`none`) when a latest
candle exists and is at most `DAILY_UPDATE_INTERVAL = 2` days old, full
when none exists or it is at least `DAILY_COMPACT_THRESHOLD = 99` days
old, compact otherwise.  `diff` is the age in (fractional) days. -/
inductive SyncType where
  | full
  | compact
deriving DecidableEq, Repr

def syncDecision (latest : Option Candle) (now : ℤ) : Option SyncType :=
  match latest with
  | none => some .full
  | some lc =>
    if 2 < ((now - lc.open_time : ℤ) : ℚ) / 86400 then
      (if 99 ≤ ((now - lc.open_time : ℤ) : ℚ) / 86400 then some .full
       else some .compact)
    else none

/-- Result of one `sync_asset` call: the returned `[success, count]` pair
together with the batch handed to `Candle.objects.insert` (empty when
nothing is inserted); `fatal` is `os._exit(1)` on exhausted retries;
`crash` is the uncaught `AttributeError` of line 271 (`latest_candle` is
`None` and the parsed batch is empty). -/
inductive SyncOutcome where
  | result (success : Bool) (count : ℕ) (inserted : List Candle)
  | fatal
  | crash
deriving DecidableEq, Repr

/-- Lines 264-279: the end of `sync_asset` once the batch is parsed.  A
non-empty batch is inserted wholesale; an empty one triggers the
forward-fill from `latest_candle` to today (lines 269-276), which is an
uncaught `AttributeError` (`crash`) when `latest_candle` is `None`. -/
def finishBatch (latest : Option Candle) (today : ℤ)
    (candles : List Candle) : SyncOutcome :=
  if candles.isEmpty then
    match latest with
    | none => .crash
    | some lc =>
      let fcs := fillersBetween lc today
      .result true fcs.length fcs
  else .result true candles.length candles

/-- Lines 205-279: parse the day entries and finish the batch. -/
def parseEntries (latest : Option Candle) (today : ℤ)
    (entries : List Entry) : SyncOutcome :=
  match parseLoop latest today entries [] with
  | none => .result false 0 []
  | some candles => finishBatch latest today candles

/-- Lines 203-279: handling of the fetched data after the retry loop
(`data is None` is a failure). -/
def parsePhase (latest : Option Candle) (today : ℤ)
    (d : Option (List Entry)) : SyncOutcome :=
  match d with
  | none => .result false 0 []
  | some entries => parseEntries latest today entries

/-- `CurrencyUpdaterDaily.sync_asset` as a function of the latest stored
daily candle, the current UTC time `now` in seconds (the source calls
`datetime.utcnow()` several times during one sync; the model assumes the
calls fall on one date), and the per-attempt fetch outcomes `f`. -/
def syncAsset (latest : Option Candle) (now : ℤ)
    (f : ℕ → FetchOutcome) : SyncOutcome :=
  match syncDecision latest now with
  | none => .result true 0 []
  | some _ =>
    match retryLoop f with
    | .fatal => .fatal
    | .fetched _ d => parsePhase latest (dateOf now) d

lemma syncDecision_none_iff (latest : Option Candle) (now : ℤ) :
    syncDecision latest now = none ↔
      ∃ lc, latest = some lc ∧ ((now - lc.open_time : ℤ) : ℚ) / 86400 ≤ 2 := by
  cases latest with
  | none => simp [syncDecision]
  | some lc =>
    show (if 2 < ((now - lc.open_time : ℤ) : ℚ) / 86400 then _ else none) = none ↔ _
    by_cases h : (2 : ℚ) < ((now - lc.open_time : ℤ) : ℚ) / 86400
    · rw [if_pos h]
      constructor
      · intro hc
        split at hc <;> exact absurd hc (by simp)
      · rintro ⟨lc', hlc, hle⟩
        cases hlc
        exact absurd h (not_lt.mpr hle)
    · rw [if_neg h]
      exact ⟨fun _ => ⟨lc, rfl, not_lt.mp h⟩, fun _ => rfl⟩

lemma syncDecision_full_iff (latest : Option Candle) (now : ℤ) :
    syncDecision latest now = some .full ↔
      latest = none ∨
        ∃ lc, latest = some lc ∧
          (99 : ℚ) ≤ ((now - lc.open_time : ℤ) : ℚ) / 86400 := by
  cases latest with
  | none => simp [syncDecision]
  | some lc =>
    show (if 2 < ((now - lc.open_time : ℤ) : ℚ) / 86400 then _ else none)
        = some SyncType.full ↔ _
    constructor
    · intro hc
      by_cases h : (2 : ℚ) < ((now - lc.open_time : ℤ) : ℚ) / 86400
      · rw [if_pos h] at hc
        by_cases h99 : (99 : ℚ) ≤ ((now - lc.open_time : ℤ) : ℚ) / 86400
        · exact Or.inr ⟨lc, rfl, h99⟩
        · rw [if_neg h99] at hc
          exact absurd hc (by simp)
      · rw [if_neg h] at hc
        exact absurd hc (by simp)
    · rintro (hnone | ⟨lc2, hlc, h99⟩)
      · exact absurd hnone (by simp)
      · injection hlc with hh
        subst hh
        have h2 : (2 : ℚ) < ((now - lc.open_time : ℤ) : ℚ) / 86400 :=
          lt_of_lt_of_le (by norm_num) h99
        rw [if_pos h2, if_pos h99]

lemma syncDecision_compact_iff (latest : Option Candle) (now : ℤ) :
    syncDecision latest now = some .compact ↔
      ∃ lc, latest = some lc ∧
        (2 : ℚ) < ((now - lc.open_time : ℤ) : ℚ) / 86400 ∧
          ((now - lc.open_time : ℤ) : ℚ) / 86400 < 99 := by
  cases latest with
  | none => simp [syncDecision]
  | some lc =>
    show (if 2 < ((now - lc.open_time : ℤ) : ℚ) / 86400 then _ else none)
        = some SyncType.compact ↔ _
    constructor
    · intro hc
      by_cases h : (2 : ℚ) < ((now - lc.open_time : ℤ) : ℚ) / 86400
      · rw [if_pos h] at hc
        by_cases h99 : (99 : ℚ) ≤ ((now - lc.open_time : ℤ) : ℚ) / 86400
        · rw [if_pos h99] at hc
          exact absurd hc (by simp)
        · exact ⟨lc, rfl, h, not_le.mp h99⟩
      · rw [if_neg h] at hc
        exact absurd hc (by simp)
    · rintro ⟨lc', hlc, h2, h99⟩
      cases hlc
      rw [if_pos h2, if_neg (not_le.mpr h99)]

lemma syncAsset_skip {latest : Option Candle} {now : ℤ}
    (h : syncDecision latest now = none) (f : ℕ → FetchOutcome) :
    syncAsset latest now f = .result true 0 [] := by
  unfold syncAsset
  rw [h]

lemma syncAsset_of_decision_some {latest : Option Candle} {now : ℤ}
    {st : SyncType} (h : syncDecision latest now = some st)
    (f : ℕ → FetchOutcome) :
    syncAsset latest now f =
      (match retryLoop f with
       | .fatal => .fatal
       | .fetched _ d => parsePhase latest (dateOf now) d) := by
  unfold syncAsset
  rw [h]

lemma retryGo_success (f : ℕ → FetchOutcome) :
    ∀ (r counter k : ℕ) (d : Option (List Entry)), counter ≤ k →
      k < counter + r → f k = .ret d →
      (∀ j, counter ≤ j → j < k → f j = .raise) →
      retryGo f r counter = .fetched k d := by
  intro r
  induction r with
  | zero => intro counter k d h1 h2 _ _; omega
  | succ r ih =>
    intro counter k d h1 h2 hk hbef
    rcases eq_or_lt_of_le h1 with heq | hlt
    · subst heq
      unfold retryGo
      rw [hk]
    · have hr : f counter = .raise := hbef counter le_rfl hlt
      unfold retryGo
      rw [hr]
      exact ih (counter + 1) k d hlt (by omega) hk
        (fun j hj1 hj2 => hbef j (by omega) hj2)

lemma retryGo_allraise (f : ℕ → FetchOutcome) :
    ∀ (r counter : ℕ), (∀ j, counter ≤ j → j < counter + r → f j = .raise) →
      retryGo f r counter = .fatal := by
  intro r
  induction r with
  | zero => intro counter _; rfl
  | succ r ih =>
    intro counter h
    have hr : f counter = .raise := h counter le_rfl (by omega)
    unfold retryGo
    rw [hr]
    exact ih (counter + 1) (fun j hj1 hj2 => h j (by omega) (by omega))

end Daily

/-- **C6.** `sync_asset` selects no sync — returning `(True, 0)` without
contacting the provider and without writing any candle — exactly when a
latest daily candle exists whose age in days is at most 2; it selects a
full sync exactly when no candle exists or the age is at least 99 days;
otherwise it selects a compact sync.  (`INTERVAL_DAY = 86400` is the
spec's value; `models/constants.py` is absent from the source tree.) -/
theorem claim6_sync_type_selection (latest : Option Daily.Candle) (now : ℤ)
    (f : ℕ → Daily.FetchOutcome) :
    (Daily.syncDecision latest now = none ↔
      ∃ lc, latest = some lc ∧
        ((now - lc.open_time : ℤ) : ℚ) / 86400 ≤ 2) ∧
    (Daily.syncDecision latest now = some .full ↔
      latest = none ∨
        ∃ lc, latest = some lc ∧
          (99 : ℚ) ≤ ((now - lc.open_time : ℤ) : ℚ) / 86400) ∧
    (Daily.syncDecision latest now = some .compact ↔
      ∃ lc, latest = some lc ∧
        (2 : ℚ) < ((now - lc.open_time : ℤ) : ℚ) / 86400 ∧
          ((now - lc.open_time : ℤ) : ℚ) / 86400 < 99) ∧
    (Daily.syncDecision latest now = none →
      Daily.syncAsset latest now f = .result true 0 []) :=
  ⟨Daily.syncDecision_none_iff latest now,
   Daily.syncDecision_full_iff latest now,
   Daily.syncDecision_compact_iff latest now,
   fun h => Daily.syncAsset_skip h f⟩

/-- Witness for C6: a candle exactly 2 days old is skipped even though the
fetch function would fail on any contact, and a candle 4.04 days old gets a
compact sync. -/
theorem claim6_sync_type_selection_witness :
    Daily.syncAsset (some (Daily.mkReal 1 1 1 1 12)) (86400 * 14)
        (fun _ => .raise) = .result true 0 [] ∧
      Daily.syncDecision (some (Daily.mkReal 1 1 1 1 12)) (86400 * 16 + 3600) =
        some .compact := by
  constructor
  · refine (claim6_sync_type_selection (some (Daily.mkReal 1 1 1 1 12))
      (86400 * 14) (fun _ => .raise)).2.2.2 ?_
    refine (Daily.syncDecision_none_iff _ _).mpr ⟨Daily.mkReal 1 1 1 1 12, rfl, ?_⟩
    norm_num [Daily.mkReal]
  · refine (claim6_sync_type_selection (some (Daily.mkReal 1 1 1 1 12))
      (86400 * 16 + 3600) (fun _ => .raise)).2.2.1.mpr
      ⟨Daily.mkReal 1 1 1 1 12, rfl, ?_, ?_⟩ <;> norm_num [Daily.mkReal]

/-- **C7.** When the provider request inside `sync_asset` raises, the
syncer sleeps a fixed backoff and retries up to a ceiling of 5 attempts:
a success on attempt `k < 5` after `k` failures proceeds to parsing with
the fetched data (having slept `k` times), and 5 straight failures are
fatal — `sync_asset` ends in `os._exit(1)` instead of returning. -/
theorem claim7_retry_ceiling_fatal :
    (∀ (f : ℕ → Daily.FetchOutcome) (k : ℕ) (d : Option (List Daily.Entry)),
      k < 5 → f k = .ret d → (∀ j, j < k → f j = .raise) →
      Daily.retryLoop f = .fetched k d ∧
        ∀ (latest : Option Daily.Candle) (now : ℤ) (st : Daily.SyncType),
          Daily.syncDecision latest now = some st →
          Daily.syncAsset latest now f =
            Daily.parsePhase latest (Daily.dateOf now) d) ∧
    (∀ f : ℕ → Daily.FetchOutcome, (∀ k, k < 5 → f k = .raise) →
      Daily.retryLoop f = .fatal ∧
        ∀ (latest : Option Daily.Candle) (now : ℤ) (st : Daily.SyncType),
          Daily.syncDecision latest now = some st →
          Daily.syncAsset latest now f = .fatal) := by
  constructor
  · intro f k d hk hfk hbef
    have hloop : Daily.retryLoop f = .fetched k d :=
      Daily.retryGo_success f 5 0 k d (Nat.zero_le k) (by omega) hfk
        (fun j _ hj => hbef j hj)
    refine ⟨hloop, fun latest now st hst => ?_⟩
    rw [Daily.syncAsset_of_decision_some hst, hloop]
  · intro f hall
    have hloop : Daily.retryLoop f = .fatal :=
      Daily.retryGo_allraise f 5 0 (fun j _ hj => hall j (by omega))
    refine ⟨hloop, fun latest now st hst => ?_⟩
    rw [Daily.syncAsset_of_decision_some hst, hloop]

/-- Witness for C7: two failures then a success fetch the data with two
sleeps; five failures are fatal for a sync that is due. -/
theorem claim7_retry_ceiling_fatal_witness :
    Daily.retryLoop
        (fun k => if k = 2 then .ret (some []) else .raise) =
      .fetched 2 (some []) ∧
    Daily.syncAsset none 0 (fun _ => .raise) = .fatal := by
  constructor
  · exact ((claim7_retry_ceiling_fatal.1
      (fun k => if k = 2 then .ret (some []) else .raise) 2 (some [])
      (by omega) (by simp) (by intro j hj; interval_cases j <;> simp)).1)
  · exact (claim7_retry_ceiling_fatal.2 (fun _ => .raise)
      (fun k _ => rfl)).2 none 0 .full rfl

namespace Daily

/-- Day ordinals of a batch of candles. -/
def datesOf (cs : List Candle) : List ℤ := cs.map Candle.date

lemma dateOf_eq_ediv (t : ℤ) : dateOf t = t / 86400 :=
  Int.fdiv_eq_ediv t (by norm_num)

@[simp] lemma mkReal_date (o h l c : ℚ) (d : ℤ) : (mkReal o h l c d).date = d := by
  show dateOf (86400 * d) = d
  rw [dateOf_eq_ediv]
  omega

@[simp] lemma mkFiller_date (cv : Option ℚ) (t : ℤ) :
    (mkFiller cv t).date = dateOf t := rfl

lemma dateOf_add_days (t : ℤ) (m : ℤ) : dateOf (t + 86400 * m) = dateOf t + m := by
  rw [dateOf_eq_ediv, dateOf_eq_ediv]
  omega

lemma dateOf_mono {a b : ℤ} (h : a ≤ b) : dateOf a ≤ dateOf b := by
  rw [dateOf_eq_ediv, dateOf_eq_ediv]
  omega

lemma filler_date_in_run (src : Candle) (k : ℕ) :
    (mkFiller src.close (src.open_time + 86400 * ((k : ℤ) + 1))).date =
      src.date + ((k : ℤ) + 1) := by
  rw [mkFiller_date, dateOf_add_days]
  rfl

lemma fillersBetween_dates (src : Candle) (target : ℤ) (z : ℤ) :
    z ∈ datesOf (fillersBetween src target) ↔
      src.date + 1 ≤ z ∧ z ≤ target - 1 := by
  simp only [fillersBetween, datesOf, List.mem_map, List.mem_range]
  constructor
  · rintro ⟨a, ⟨k, hk, rfl⟩, hz⟩
    rw [filler_date_in_run] at hz
    omega
  · rintro ⟨h1, h2⟩
    refine ⟨_, ⟨(z - src.date - 1).toNat, by omega, rfl⟩, ?_⟩
    rw [filler_date_in_run]
    omega

lemma fillersBetween_dates_nodup (src : Candle) (target : ℤ) :
    (datesOf (fillersBetween src target)).Nodup := by
  unfold fillersBetween datesOf
  rw [List.map_map]
  refine List.Nodup.map ?_ (List.nodup_range _)
  intro a b hab
  simp only [Function.comp_apply] at hab
  rw [filler_date_in_run, filler_date_in_run] at hab
  omega

/-- `parseLoop` with the `target_day` bookkeeping made explicit: returns
only the candles appended after the point where the accumulator held the
candle giving `target`. -/
def parseGo (latest : Option Candle) (today : ℤ) :
    ℤ → List Entry → Option (List Candle)
  | _, [] => some []
  | target, e :: rest =>
    if e.pdata = .missing then none
    else
      match e.pdate with
      | none => none
      | some d =>
        if d = today then parseGo latest today target rest
        else if breakAt latest d then some []
        else
          match e.pdata with
          | .ok o h l c =>
            (parseGo latest today d rest).map
              (fun res =>
                fillersBetween (mkReal o h l c d) target ++ [mkReal o h l c d] ++ res)
          | _ => none

lemma parseLoop_eq_parseGo (latest : Option Candle) (today : ℤ) :
    ∀ (entries : List Entry) (acc : List Candle),
      parseLoop latest today entries acc =
        (parseGo latest today (tgtOf acc today) entries).map (acc ++ ·) := by
  intro entries
  induction entries with
  | nil => intro acc; simp [parseLoop, parseGo]
  | cons e rest ih =>
    intro acc
    by_cases hm : e.pdata = .missing
    · simp [parseLoop, parseGo, hm]
    · cases hd : e.pdate with
      | none => simp [parseLoop, parseGo, hm, hd]
      | some d =>
        by_cases ht : d = today
        · simp only [parseLoop, parseGo, if_neg hm, hd, if_pos ht]
          exact ih acc
        · by_cases hb : breakAt latest d
          · simp [parseLoop, parseGo, hm, hd, ht, hb]
          · cases hk : e.pdata with
            | missing => exact absurd hk hm
            | bad => simp [parseLoop, parseGo, hm, hd, ht, hb, hk]
            | ok o h l c =>
              have hacc : tgtOf
                  (acc ++ fillersBetween (mkReal o h l c d) (tgtOf acc today) ++
                    [mkReal o h l c d]) today = d := by
                unfold tgtOf
                rw [List.getLast?_concat]
                simp
              simp only [parseLoop, parseGo, if_neg hm, hd, if_neg ht, hb,
                Bool.false_eq_true, if_false, hk, reduceCtorEq]
              rw [ih, hacc]
              cases parseGo latest today d rest with
              | none => rfl
              | some res => simp [List.append_assoc]

@[simp] lemma datesOf_append (a b : List Candle) :
    datesOf (a ++ b) = datesOf a ++ datesOf b := List.map_append _ a b

@[simp] lemma datesOf_cons (c : Candle) (l : List Candle) :
    datesOf (c :: l) = c.date :: datesOf l := rfl

@[simp] lemma datesOf_nil : datesOf [] = [] := rfl

/-- Characterization of the batch produced by the parsing loop under the
provider contract (dates strictly newest-first, none after today): the
dates of the produced candles are pairwise distinct and form exactly the
integer interval from the oldest accepted bar's date `m` up to
`target - 1`, where `m` is accepted (it is not today's date and does not
trigger the early stop). -/
lemma parseGo_spec (latest : Option Candle) (today : ℤ) :
    ∀ (entries : List Entry) (target : ℤ) (res : List Candle),
      target ≤ today →
      (entries.filterMap Entry.pdate).Pairwise (· > ·) →
      (∀ d ∈ entries.filterMap Entry.pdate, d ≤ today) →
      (∀ d ∈ entries.filterMap Entry.pdate, d < target ∨ d = today) →
      parseGo latest today target entries = some res →
      (datesOf res).Nodup ∧
        (res = [] ∨
          ∃ m, m < target ∧ breakAt latest m = false ∧ m ≠ today ∧
            (∀ z, z ∈ datesOf res ↔ m ≤ z ∧ z ≤ target - 1)) := by
  intro entries
  induction entries with
  | nil =>
    intro target res _ _ _ _ hrun
    cases hrun
    exact ⟨List.nodup_nil, Or.inl rfl⟩
  | cons e rest ih =>
    intro target res htt hpair hle hlt hrun
    by_cases hm : e.pdata = .missing
    · simp [parseGo, hm] at hrun
    · cases hd : e.pdate with
      | none => simp [parseGo, hm, hd] at hrun
      | some d =>
        have hfm : (e :: rest).filterMap Entry.pdate =
            d :: rest.filterMap Entry.pdate := by
          simp [List.filterMap_cons, hd]
        rw [hfm] at hpair hle hlt
        have hpair' := (List.pairwise_cons.mp hpair).2
        have hgt := (List.pairwise_cons.mp hpair).1
        have hle' : ∀ x ∈ rest.filterMap Entry.pdate, x ≤ today :=
          fun x hx => hle x (List.mem_cons_of_mem _ hx)
        by_cases ht : d = today
        · simp only [parseGo, if_neg hm, hd, if_pos ht] at hrun
          exact ih target res htt hpair' hle' (fun x hx =>
            hlt x (List.mem_cons_of_mem _ hx)) hrun
        · by_cases hb : breakAt latest d
          · simp only [parseGo, if_neg hm, hd, if_neg ht, hb, if_true] at hrun
            cases hrun
            exact ⟨List.nodup_nil, Or.inl rfl⟩
          · cases hk : e.pdata with
            | missing => exact absurd hk hm
            | bad => simp [parseGo, hm, hd, ht, hb, hk] at hrun
            | ok o h l c =>
              simp only [parseGo, if_neg hm, hd, if_neg ht, hb,
                Bool.false_eq_true, if_false, hk] at hrun
              cases hres' : parseGo latest today d rest with
              | none =>
                rw [hres'] at hrun
                exact absurd hrun (by simp)
              | some res' =>
              rw [hres'] at hrun
              have hreq : fillersBetween (mkReal o h l c d) target ++
                  [mkReal o h l c d] ++ res' = res := by
                injection hrun
              subst hreq
              have hdt : d < target := by
                rcases hlt d (by simp) with h1 | h1
                · exact h1
                · exact absurd h1 ht
              have hdtoday : d ≤ today := hle d (by simp)
              have hlt' : ∀ x ∈ rest.filterMap Entry.pdate,
                  x < d ∨ x = today := fun x hx => Or.inl (hgt x hx)
              obtain ⟨hnd', hspec'⟩ :=
                ih d res' hdtoday hpair' hle' hlt' hres'
              have hfil := fillersBetween_dates (mkReal o h l c d) target
              simp only [mkReal_date] at hfil
              have hfilnd := fillersBetween_dates_nodup (mkReal o h l c d) target
              have hdates : datesOf
                  (fillersBetween (mkReal o h l c d) target ++ [mkReal o h l c d]
                    ++ res') =
                  datesOf (fillersBetween (mkReal o h l c d) target) ++
                    (d :: datesOf res') := by
                simp [List.append_assoc]
              rw [hdates]
              have hmem : ∀ z, z ∈ datesOf (fillersBetween (mkReal o h l c d)
                  target) ++ (d :: datesOf res') ↔
                  (d + 1 ≤ z ∧ z ≤ target - 1) ∨ z = d ∨ z ∈ datesOf res' := by
                intro z
                simp only [List.mem_append, List.mem_cons]
                rw [hfil]
              rcases hspec' with hnil | ⟨m, hm1, hm2, hm3, hiff⟩
              · subst hnil
                constructor
                · rw [List.nodup_append]
                  refine ⟨hfilnd, by simp, ?_⟩
                  intro z hz
                  rw [hfil] at hz
                  simp only [datesOf_nil, List.mem_singleton, List.mem_cons,
                    List.not_mem_nil, or_false]
                  omega
                · refine Or.inr ⟨d, hdt, by simpa using hb, ht, ?_⟩
                  intro z
                  rw [hmem z]
                  simp only [datesOf_nil, List.not_mem_nil, or_false]
                  constructor
                  · rintro (hz | rfl) <;> omega
                  · intro hz
                    rcases eq_or_lt_of_le hz.1 with h1 | h1
                    · exact Or.inr h1.symm
                    · exact Or.inl ⟨by omega, hz.2⟩
              · constructor
                · rw [List.nodup_append]
                  refine ⟨hfilnd, ?_, ?_⟩
                  · rw [List.nodup_cons]
                    refine ⟨?_, hnd'⟩
                    intro hc
                    have := (hiff d).mp hc
                    omega
                  · intro z hz
                    rw [hfil] at hz
                    simp only [List.mem_cons]
                    rintro (rfl | hz')
                    · omega
                    · have := (hiff z).mp hz'
                      omega
                · refine Or.inr ⟨m, by omega, hm2, hm3, ?_⟩
                  intro z
                  rw [hmem z]
                  constructor
                  · rintro (hz | rfl | hz)
                    · omega
                    · omega
                    · have := (hiff z).mp hz
                      omega
                  · intro hz
                    by_cases h1 : d + 1 ≤ z
                    · exact Or.inl ⟨h1, hz.2⟩
                    · by_cases h2 : z = d
                      · exact Or.inr (Or.inl h2)
                      · refine Or.inr (Or.inr ((hiff z).mpr ?_))
                        omega

lemma lastStep_none (c : Candle) : lastStep none c = some c := rfl

lemma lastStep_lt {b c : Candle} (h : b.open_time < c.open_time) :
    lastStep (some b) c = some c := by
  show (if b.open_time < c.open_time then some c else some b) = some c
  rw [if_pos h]

lemma lastStep_ge {b c : Candle} (h : ¬b.open_time < c.open_time) :
    lastStep (some b) c = some b := by
  show (if b.open_time < c.open_time then some c else some b) = some b
  rw [if_neg h]

lemma lastCandle_go (S : List Candle) :
    ∀ (acc : Option Candle) (lc : Candle),
      S.foldl lastStep acc = some lc →
      (acc = some lc ∨ lc ∈ S) ∧ (∀ c ∈ S, c.open_time ≤ lc.open_time) ∧
        (∀ b, acc = some b → b.open_time ≤ lc.open_time) := by
  induction S with
  | nil =>
    intro acc lc h
    refine ⟨Or.inl h, by simp, ?_⟩
    intro b hb
    rw [hb] at h
    cases h
    exact le_refl _
  | cons c S ih =>
    intro acc lc h
    rw [List.foldl_cons] at h
    cases acc with
    | none =>
      rw [lastStep_none] at h
      obtain ⟨h1, h2, h3⟩ := ih (some c) lc h
      have hcle : c.open_time ≤ lc.open_time := h3 c rfl
      rcases h1 with h1 | h1
      · cases h1
        exact ⟨Or.inr (by simp), by
          intro x hx
          rcases List.mem_cons.mp hx with rfl | hx
          · exact le_refl _
          · exact h2 x hx, by simp⟩
      · exact ⟨Or.inr (List.mem_cons_of_mem _ h1), by
          intro x hx
          rcases List.mem_cons.mp hx with rfl | hx
          · exact hcle
          · exact h2 x hx, by simp⟩
    | some b =>
      by_cases hbc : b.open_time < c.open_time
      · rw [lastStep_lt hbc] at h
        obtain ⟨h1, h2, h3⟩ := ih (some c) lc h
        have hcle : c.open_time ≤ lc.open_time := h3 c rfl
        refine ⟨?_, ?_, ?_⟩
        · rcases h1 with h1 | h1
          · cases h1
            exact Or.inr (by simp)
          · exact Or.inr (List.mem_cons_of_mem _ h1)
        · intro x hx
          rcases List.mem_cons.mp hx with rfl | hx
          · exact hcle
          · exact h2 x hx
        · intro b2 hb2
          cases hb2
          exact le_trans (le_of_lt hbc) hcle
      · rw [lastStep_ge hbc] at h
        obtain ⟨h1, h2, h3⟩ := ih (some b) lc h
        have hble : b.open_time ≤ lc.open_time := h3 b rfl
        refine ⟨?_, ?_, ?_⟩
        · rcases h1 with h1 | h1
          · exact Or.inl h1
          · exact Or.inr (List.mem_cons_of_mem _ h1)
        · intro x hx
          rcases List.mem_cons.mp hx with rfl | hx
          · exact le_trans (not_lt.mp hbc) hble
          · exact h2 x hx
        · intro b2 hb2
          cases hb2
          exact hble


lemma lastCandle_mem {S : List Candle} {lc : Candle}
    (h : lastCandle S = some lc) : lc ∈ S := by
  have := lastCandle_go S none lc h
  rcases this.1 with h1 | h1
  · exact absurd h1 (by simp)
  · exact h1

lemma lastCandle_max {S : List Candle} {lc : Candle}
    (h : lastCandle S = some lc) : ∀ c ∈ S, c.open_time ≤ lc.open_time :=
  (lastCandle_go S none lc h).2.1

lemma lastCandle_max_date {S : List Candle} {lc : Candle}
    (h : lastCandle S = some lc) : ∀ c ∈ S, c.date ≤ lc.date :=
  fun c hc => dateOf_mono (lastCandle_max h c hc)

lemma lastCandle_go_ne_none (S : List Candle) :
    ∀ b : Candle, S.foldl lastStep (some b) ≠ none := by
  induction S with
  | nil => intro b; simp
  | cons c S ih =>
    intro b
    rw [List.foldl_cons]
    by_cases hbc : b.open_time < c.open_time
    · rw [lastStep_lt hbc]
      exact ih c
    · rw [lastStep_ge hbc]
      exact ih b

lemma lastCandle_eq_none {S : List Candle} (h : lastCandle S = none) :
    S = [] := by
  cases S with
  | nil => rfl
  | cons c S =>
    unfold lastCandle at h
    rw [List.foldl_cons, lastStep_none] at h
    exact absurd h (lastCandle_go_ne_none S c)

/-- The per-instrument no-gap property: every day ordinal between the date
of some stored candle below it and the date of some stored candle above it
carries a candle. -/
def noGap (S : List Candle) : Prop :=
  ∀ z : ℤ, (∃ a ∈ S, a.date ≤ z) → (∃ b ∈ S, z ≤ b.date) →
    ∃ c ∈ S, c.date = z

lemma noGap_of_interval {ins : List Candle} {m U : ℤ}
    (hiff : ∀ z, z ∈ datesOf ins ↔ m ≤ z ∧ z ≤ U) : noGap ins := by
  intro z ⟨a, ha, haz⟩ ⟨b, hb, hbz⟩
  have hain : a.date ∈ datesOf ins := List.mem_map_of_mem _ ha
  have hbin : b.date ∈ datesOf ins := List.mem_map_of_mem _ hb
  have h1 := (hiff a.date).mp hain
  have h2 := (hiff b.date).mp hbin
  have : z ∈ datesOf ins := (hiff z).mpr ⟨by omega, by omega⟩
  obtain ⟨c, hc, hcz⟩ := List.mem_map.mp this
  exact ⟨c, hc, hcz⟩

lemma noGap_append {S ins : List Candle} {L U : ℤ}
    (hSmax : ∀ c ∈ S, c.date ≤ L) (hSL : ∃ c ∈ S, c.date = L)
    (hSnogap : noGap S)
    (hins : ∀ z, z ∈ datesOf ins ↔ L + 1 ≤ z ∧ z ≤ U) :
    noGap (S ++ ins) := by
  intro z ⟨a, ha, haz⟩ ⟨b, hb, hbz⟩
  by_cases hzL : z ≤ L
  · have haS : a ∈ S := by
      rcases List.mem_append.mp ha with h | h
      · exact h
      · have : a.date ∈ datesOf ins := List.mem_map_of_mem _ h
        have := (hins a.date).mp this
        omega
    obtain ⟨w, hw, hwL⟩ := hSL
    obtain ⟨c, hc, hcz⟩ :=
      hSnogap z ⟨a, haS, haz⟩ ⟨w, hw, by omega⟩
    exact ⟨c, List.mem_append_left _ hc, hcz⟩
  · have hbins : b ∈ ins := by
      rcases List.mem_append.mp hb with h | h
      · have := hSmax b h
        omega
      · exact h
    have hbU := (hins b.date).mp (List.mem_map_of_mem _ hbins)
    have : z ∈ datesOf ins := (hins z).mpr ⟨by omega, by omega⟩
    obtain ⟨c, hc, hcz⟩ := List.mem_map.mp this
    exact ⟨c, List.mem_append_right _ hc, hcz⟩

lemma retryGo_fetched (f : ℕ → FetchOutcome) :
    ∀ (r c k : ℕ) (d : Option (List Entry)),
      retryGo f r c = .fetched k d → f k = .ret d := by
  intro r
  induction r with
  | zero => intro c k d h; exact absurd h (by simp [retryGo])
  | succ r ih =>
    intro c k d h
    unfold retryGo at h
    cases hf : f c with
    | ret d2 =>
      rw [hf] at h
      cases h
      exact hf
    | raise =>
      rw [hf] at h
      exact ih (c + 1) k d h

/-- The inserted batch of one successful `sync_asset` call: its dates are
pairwise distinct, strictly between the latest stored candle's date and
today, and when non-empty they form exactly an integer interval ending the
day before today. -/
lemma syncAsset_inserted_spec (latest : Option Candle) (now : ℤ)
    (f : ℕ → FetchOutcome) (n : ℕ) (ins : List Candle)
    (hf : ∀ k es, f k = .ret (some es) →
      (es.filterMap Entry.pdate).Pairwise (· > ·) ∧
        ∀ d ∈ es.filterMap Entry.pdate, d ≤ dateOf now)
    (hrun : syncAsset latest now f = .result true n ins) :
    (datesOf ins).Nodup ∧
    (∀ lc, latest = some lc → ∀ c ∈ ins, lc.date < c.date) ∧
    (∀ c ∈ ins, c.date ≤ dateOf now - 1) ∧
    (ins = [] ∨
      ∃ m, (∃ c ∈ ins, c.date = m) ∧
        ∀ z, z ∈ datesOf ins ↔ m ≤ z ∧ z ≤ dateOf now - 1) := by
  cases hdec : syncDecision latest now with
  | none =>
    rw [syncAsset_skip hdec] at hrun
    cases hrun
    exact ⟨by simp [datesOf], by simp, by simp, Or.inl rfl⟩
  | some st =>
    rw [syncAsset_of_decision_some hdec] at hrun
    cases hret : retryLoop f with
    | fatal => rw [hret] at hrun; exact absurd hrun (by simp)
    | fetched k d =>
      rw [hret] at hrun
      replace hrun : parsePhase latest (dateOf now) d = .result true n ins := hrun
      cases d with
      | none => exact absurd hrun (by simp [parsePhase])
      | some es =>
        have hes := hf k es (retryGo_fetched f 5 0 k (some es) hret)
        replace hrun : parseEntries latest (dateOf now) es =
          .result true n ins := hrun
        unfold parseEntries at hrun
        cases hp : parseLoop latest (dateOf now) es [] with
        | none => rw [hp] at hrun; exact absurd hrun (by simp)
        | some candles =>
          rw [hp] at hrun
          replace hrun : finishBatch latest (dateOf now) candles =
            .result true n ins := hrun
          unfold finishBatch at hrun
          by_cases hemp : candles.isEmpty
          · rw [if_pos hemp] at hrun
            cases latest with
            | none => exact absurd hrun (by simp)
            | some lc =>
              replace hrun :
                  SyncOutcome.result true (fillersBetween lc (dateOf now)).length
                    (fillersBetween lc (dateOf now)) = .result true n ins := hrun
              have hreq : fillersBetween lc (dateOf now) = ins := by
                injection hrun
              subst hreq
              have hfil := fillersBetween_dates lc (dateOf now)
              refine ⟨fillersBetween_dates_nodup lc (dateOf now), ?_, ?_, ?_⟩
              · intro lc2 hlc2 c hc
                injection hlc2 with hlc2
                subst hlc2
                have := (hfil c.date).mp (List.mem_map_of_mem _ hc)
                omega
              · intro c hc
                have := (hfil c.date).mp (List.mem_map_of_mem _ hc)
                omega
              · by_cases hne : fillersBetween lc (dateOf now) = []
                · exact Or.inl hne
                · obtain ⟨c0, hc0⟩ := List.exists_mem_of_ne_nil _ hne
                  refine Or.inr ⟨lc.date + 1, ?_, fun z => hfil z⟩
                  have hb := (hfil c0.date).mp (List.mem_map_of_mem _ hc0)
                  have : lc.date + 1 ∈ datesOf (fillersBetween lc (dateOf now)) :=
                    (hfil _).mpr ⟨le_refl _, by omega⟩
                  obtain ⟨c, hc, hcz⟩ := List.mem_map.mp this
                  exact ⟨c, hc, hcz⟩
          · rw [if_neg hemp] at hrun
            have hreq : candles = ins := by injection hrun
            rw [← hreq]
            clear hreq hrun
            rw [parseLoop_eq_parseGo] at hp
            cases hg : parseGo latest (dateOf now) (tgtOf [] (dateOf now)) es with
            | none => rw [hg] at hp; exact absurd hp (by simp)
            | some res =>
              rw [hg] at hp
              have hres : res = candles := by
                have h2 : (some ([] ++ res) : Option (List Candle)) =
                  some candles := hp
                simpa using h2
              subst hres
              have htgt : tgtOf [] (dateOf now) = dateOf now := rfl
              rw [htgt] at hg
              obtain ⟨hnd, hspec⟩ := parseGo_spec latest (dateOf now) es
                (dateOf now) res (le_refl _) hes.1 hes.2
                (fun x hx => by
                  rcases lt_or_eq_of_le (hes.2 x hx) with h1 | h1
                  · exact Or.inl h1
                  · exact Or.inr h1) hg
              refine ⟨hnd, ?_, ?_, ?_⟩
              · intro lc hlc c hc
                rcases hspec with rfl | ⟨m, hm1, hm2, hm3, hiff⟩
                · exact absurd hc (by simp)
                · have := (hiff c.date).mp (List.mem_map_of_mem _ hc)
                  unfold breakAt at hm2
                  rw [hlc] at hm2
                  simp only [decide_eq_false_iff_not, not_le] at hm2
                  omega
              · intro c hc
                rcases hspec with rfl | ⟨m, hm1, hm2, hm3, hiff⟩
                · exact absurd hc (by simp)
                · have := (hiff c.date).mp (List.mem_map_of_mem _ hc)
                  omega
              · rcases hspec with rfl | ⟨m, hm1, hm2, hm3, hiff⟩
                · exact Or.inl rfl
                · refine Or.inr ⟨m, ?_, hiff⟩
                  have : m ∈ datesOf res := (hiff m).mpr ⟨le_refl _, by omega⟩
                  obtain ⟨c, hc, hcz⟩ := List.mem_map.mp this
                  exact ⟨c, hc, hcz⟩

/-- A response entry that the parsing loop passes over without aborting:
either it is dated today (skipped), or it is accepted (well-formed, newer
than the latest stored candle). -/
def survives (latest : Option Candle) (today : ℤ) (e : Entry) : Prop :=
  e.pdata ≠ .missing ∧ ∃ d, e.pdate = some d ∧
    (d = today ∨ (breakAt latest d = false ∧ e.pdata ≠ .bad))

/-- A response entry on which the parsing loop aborts the sync: a missing
payload, an unparsable date, or (for an entry that would be accepted) a
failed candle construction. -/
def aborts (latest : Option Candle) (today : ℤ) (e : Entry) : Prop :=
  e.pdata = .missing ∨ e.pdate = none ∨
    ∃ d, e.pdate = some d ∧ d ≠ today ∧ breakAt latest d = false ∧
      e.pdata = .bad

lemma parseLoop_abort (latest : Option Candle) (today : ℤ) :
    ∀ (pre : List Entry), (∀ x ∈ pre, survives latest today x) →
      ∀ (e : Entry), aborts latest today e → ∀ (rest : List Entry)
        (acc : List Candle),
        parseLoop latest today (pre ++ e :: rest) acc = none := by
  intro pre
  induction pre with
  | nil =>
    intro _ e habort rest acc
    rw [List.nil_append]
    rcases habort with hm | hd | ⟨d, hd, ht, hb, hk⟩
    · simp [parseLoop, hm]
    · by_cases hm : e.pdata = .missing
      · simp [parseLoop, hm]
      · simp [parseLoop, hm, hd]
    · have hm : e.pdata ≠ .missing := by rw [hk]; simp
      simp [parseLoop, hm, hd, ht, hb, hk]
  | cons x pre ih =>
    intro hpre e habort rest acc
    obtain ⟨hm, d, hd, hsurv⟩ := hpre x (by simp)
    have hpre' : ∀ y ∈ pre, survives latest today y :=
      fun y hy => hpre y (List.mem_cons_of_mem _ hy)
    rw [List.cons_append]
    rcases hsurv with rfl | ⟨hb, hnb⟩
    · simp only [parseLoop, if_neg hm, hd, if_pos rfl]
      exact ih hpre' e habort rest acc
    · have ht : d ≠ today ∨ d = today := em _ |>.symm
      by_cases htd : d = today
      · simp only [parseLoop, if_neg hm, hd, if_pos htd]
        exact ih hpre' e habort rest acc
      · cases hk : x.pdata with
        | missing => exact absurd hk hm
        | bad => exact absurd hk hnb
        | ok o h l c =>
          simp only [parseLoop, if_neg hm, hd, if_neg htd, hb,
            Bool.false_eq_true, if_false, hk]
          exact ih hpre' e habort rest _

/-- Every failing return of `sync_asset` reports zero entries and inserts
nothing: the in-memory batch is discarded, never partially written. -/
lemma syncAsset_false_empty {latest : Option Candle} {now : ℤ}
    {f : ℕ → FetchOutcome} {n : ℕ} {ins : List Candle}
    (h : syncAsset latest now f = .result false n ins) :
    n = 0 ∧ ins = [] := by
  cases hdec : syncDecision latest now with
  | none =>
    rw [syncAsset_skip hdec] at h
    exact absurd h (by simp)
  | some st =>
    rw [syncAsset_of_decision_some hdec] at h
    cases hret : retryLoop f with
    | fatal => rw [hret] at h; exact absurd h (by simp)
    | fetched k d =>
      rw [hret] at h
      replace h : parsePhase latest (dateOf now) d = .result false n ins := h
      cases d with
      | none =>
        replace h : SyncOutcome.result false 0 [] = .result false n ins := h
        injection h with h1 h2 h3
        exact ⟨h2.symm, h3.symm⟩
      | some es =>
        replace h : parseEntries latest (dateOf now) es =
          .result false n ins := h
        unfold parseEntries at h
        cases hp : parseLoop latest (dateOf now) es [] with
        | none =>
          rw [hp] at h
          replace h : SyncOutcome.result false 0 [] = .result false n ins := h
          injection h with h1 h2 h3
          exact ⟨h2.symm, h3.symm⟩
        | some candles =>
          rw [hp] at h
          replace h : finishBatch latest (dateOf now) candles =
            .result false n ins := h
          unfold finishBatch at h
          by_cases hemp : candles.isEmpty
          · rw [if_pos hemp] at h
            cases latest with
            | none => exact absurd h (by simp)
            | some lc =>
              replace h : SyncOutcome.result true
                  (fillersBetween lc (dateOf now)).length
                  (fillersBetween lc (dateOf now)) = .result false n ins := h
              exact absurd h (by simp)
          · rw [if_neg hemp] at h
            exact absurd h (by simp)

end Daily

/-- **C1 (counterexample).** The no-gap invariant fails after a completed
`sync_asset` call: with a gapless store covering days 10-12 (latest
candle dated day 12, so the sync is due), today = day 16, and a provider
response whose bars are day 15 (new) and day 12 (triggering the early
stop), the call succeeds and inserts only the day-15 candle — days 13 and
14 end up with no candle between the stored day-12 and day-15 candles. -/
theorem claim1_no_gap_counterexample :
    Daily.syncAsset
        (Daily.lastCandle
          [Daily.mkReal 2 2 2 2 10, Daily.mkReal 3 3 3 3 11,
            Daily.mkReal 4 4 4 4 12])
        (86400 * 16 + 3600)
        (fun _ => .ret (some [⟨some 15, .ok 5 5 5 5⟩, ⟨some 12, .ok 4 4 4 4⟩])) =
      .result true 1 [Daily.mkReal 5 5 5 5 15] ∧
    ¬Daily.noGap
        ([Daily.mkReal 2 2 2 2 10, Daily.mkReal 3 3 3 3 11,
          Daily.mkReal 4 4 4 4 12] ++ [Daily.mkReal 5 5 5 5 15]) := by
  have hlast : Daily.lastCandle
      [Daily.mkReal 2 2 2 2 10, Daily.mkReal 3 3 3 3 11,
        Daily.mkReal 4 4 4 4 12] = some (Daily.mkReal 4 4 4 4 12) := rfl
  constructor
  · rw [hlast]
    have hdec : Daily.syncDecision (some (Daily.mkReal 4 4 4 4 12))
        (86400 * 16 + 3600) = some .compact := by
      refine (Daily.syncDecision_compact_iff _ _).mpr ⟨_, rfl, ?_, ?_⟩ <;>
        norm_num [Daily.mkReal]
    rw [Daily.syncAsset_of_decision_some hdec]
    rfl
  · intro h
    obtain ⟨c, hc, hcd⟩ := h 13
      ⟨Daily.mkReal 2 2 2 2 10, by simp, by simp [Daily.mkReal_date]⟩
      ⟨Daily.mkReal 5 5 5 5 15, by simp, by simp [Daily.mkReal_date]⟩
    simp only [List.mem_append, List.mem_cons, List.mem_singleton,
      List.not_mem_nil, or_false] at hc
    rcases hc with (rfl | rfl | rfl) | rfl <;> simp [Daily.mkReal_date] at hcd

/-- **C1 (amended).** What one completed `sync_asset` call actually
guarantees: the inserted batch has pairwise-distinct dates, all strictly
after the latest stored candle's date and strictly before today, and a
non-empty batch covers exactly a contiguous run of dates ending the day
before today.  The whole daily series is gapless after the call when the
sync was the initial full sync, when the batch is empty, or when the batch
reaches down to the day after the latest stored candle (which covers the
zero-new-real-bars forward-fill); days strictly between the latest stored
candle and the oldest accepted bar are otherwise left uncovered. -/
theorem claim1_no_gap_amended (S : List Daily.Candle) (now : ℤ)
    (f : ℕ → Daily.FetchOutcome) (n : ℕ) (ins : List Daily.Candle)
    (hf : ∀ k es, f k = .ret (some es) →
      (es.filterMap Daily.Entry.pdate).Pairwise (· > ·) ∧
        ∀ d ∈ es.filterMap Daily.Entry.pdate, d ≤ Daily.dateOf now)
    (hrun : Daily.syncAsset (Daily.lastCandle S) now f = .result true n ins) :
    (Daily.datesOf ins).Nodup ∧
    (∀ lc, Daily.lastCandle S = some lc → ∀ c ∈ ins, lc.date < c.date) ∧
    (∀ c ∈ ins, c.date ≤ Daily.dateOf now - 1) ∧
    (ins = [] ∨ ∃ m, (∃ c ∈ ins, c.date = m) ∧
      ∀ z, z ∈ Daily.datesOf ins ↔ m ≤ z ∧ z ≤ Daily.dateOf now - 1) ∧
    (S = [] → Daily.noGap ins) ∧
    (Daily.noGap S →
      (∃ lc, Daily.lastCandle S = some lc ∧ ∃ c ∈ ins, c.date = lc.date + 1) →
      Daily.noGap (S ++ ins)) ∧
    (ins = [] → Daily.noGap S → Daily.noGap (S ++ ins)) := by
  obtain ⟨h1, h2, h3, h4⟩ :=
    Daily.syncAsset_inserted_spec (Daily.lastCandle S) now f n ins hf hrun
  refine ⟨h1, h2, h3, h4, ?_, ?_, ?_⟩
  · intro hS
    rcases h4 with rfl | ⟨m, _, hiff⟩
    · intro z ⟨a, ha, _⟩ _
      exact absurd ha (by simp)
    · exact Daily.noGap_of_interval hiff
  · rintro hnog ⟨lc, hlc, c, hc, hcd⟩
    rcases h4 with rfl | ⟨m, ⟨cm, hcm, hcmd⟩, hiff⟩
    · exact absurd hc (by simp)
    · have hmle : m ≤ lc.date + 1 := by
        have := (hiff c.date).mp (List.mem_map_of_mem _ hc)
        omega
      have hmgt : lc.date < m := by
        have := h2 lc hlc cm hcm
        omega
      have hm_eq : m = lc.date + 1 := by omega
      subst hm_eq
      exact Daily.noGap_append (Daily.lastCandle_max_date hlc)
        ⟨lc, Daily.lastCandle_mem hlc, rfl⟩ hnog hiff
  · rintro rfl hnog
    rw [List.append_nil]
    exact hnog

/-- Witness for C1 (amended) on a concrete run: store days 10-12, today
day 16, provider returns bars for days 15 and 12; the inserted batch is
the single day-15 candle, whose dates are distinct, after day 12 and
before day 16. -/
theorem claim1_no_gap_amended_witness :
    (Daily.datesOf [Daily.mkReal 5 5 5 5 15]).Nodup ∧
      ∀ c ∈ [Daily.mkReal 5 5 5 5 15],
        c.date ≤ Daily.dateOf (86400 * 16 + 3600) - 1 := by
  have hlast : Daily.lastCandle
      [Daily.mkReal 2 2 2 2 10, Daily.mkReal 3 3 3 3 11,
        Daily.mkReal 4 4 4 4 12] = some (Daily.mkReal 4 4 4 4 12) := rfl
  have hdec : Daily.syncDecision (some (Daily.mkReal 4 4 4 4 12))
      (86400 * 16 + 3600) = some .compact := by
    refine (Daily.syncDecision_compact_iff _ _).mpr ⟨_, rfl, ?_, ?_⟩ <;>
      norm_num [Daily.mkReal]
  have hrun : Daily.syncAsset
      (Daily.lastCandle
        [Daily.mkReal 2 2 2 2 10, Daily.mkReal 3 3 3 3 11,
          Daily.mkReal 4 4 4 4 12])
      (86400 * 16 + 3600)
      (fun _ => .ret (some [⟨some 15, .ok 5 5 5 5⟩, ⟨some 12, .ok 4 4 4 4⟩])) =
      .result true 1 [Daily.mkReal 5 5 5 5 15] := by
    rw [hlast, Daily.syncAsset_of_decision_some hdec]
    rfl
  have h := claim1_no_gap_amended
    [Daily.mkReal 2 2 2 2 10, Daily.mkReal 3 3 3 3 11, Daily.mkReal 4 4 4 4 12]
    (86400 * 16 + 3600)
    (fun _ => .ret (some [⟨some 15, .ok 5 5 5 5⟩, ⟨some 12, .ok 4 4 4 4⟩]))
    1 [Daily.mkReal 5 5 5 5 15]
    (by
      intro k es hes
      injection hes with hes
      injection hes with hes
      subst hes
      constructor
      · decide
      · decide)
    hrun
  exact ⟨h.1, h.2.2.1⟩

/-- **C2 (counterexample).** The filler candles written between a real
day-1 bar (close 100) and a real day-5 bar (close 110) carry only a close
price: the day-2 filler has `open = high = low = None`, not 100 as the
claim states. -/
theorem claim2_filler_semantics_counterexample :
    Daily.syncAsset none (86400 * 6 + 3600)
        (fun _ => .ret (some
          [⟨some 5, .ok 110 110 110 110⟩, ⟨some 1, .ok 100 100 100 100⟩])) =
      .result true 5
        [Daily.mkReal 110 110 110 110 5, Daily.mkFiller (some 100) (86400 * 2),
         Daily.mkFiller (some 100) (86400 * 3),
         Daily.mkFiller (some 100) (86400 * 4),
         Daily.mkReal 100 100 100 100 1] ∧
    ∃ c ∈ [Daily.mkReal 110 110 110 110 5,
           Daily.mkFiller (some 100) (86400 * 2),
           Daily.mkFiller (some 100) (86400 * 3),
           Daily.mkFiller (some 100) (86400 * 4),
           Daily.mkReal 100 100 100 100 1],
      Daily.dateOf c.open_time = 2 ∧ c.close = some 100 ∧
        ¬(c.open_ = some 100 ∧ c.high = some 100 ∧ c.low = some 100) := by
  refine ⟨rfl, Daily.mkFiller (some 100) (86400 * 2), by simp, ?_⟩
  refine ⟨by decide, rfl, ?_⟩
  rintro ⟨ho, _, _⟩
  exact absurd ho (by simp [Daily.mkFiller])

/-- **C2 (amended).** In the day-1-close-100 / day-5-close-110 scenario,
each filler created for days 2-4 carries `close = 100` — the earlier real
candle's close propagated forward, not 110 — while its `open`, `high`,
`low` and `volume` are absent (`None`). -/
theorem claim2_filler_semantics_amended :
    Daily.syncAsset none (86400 * 6 + 3600)
        (fun _ => .ret (some
          [⟨some 5, .ok 110 110 110 110⟩, ⟨some 1, .ok 100 100 100 100⟩])) =
      .result true 5
        [Daily.mkReal 110 110 110 110 5, Daily.mkFiller (some 100) (86400 * 2),
         Daily.mkFiller (some 100) (86400 * 3),
         Daily.mkFiller (some 100) (86400 * 4),
         Daily.mkReal 100 100 100 100 1] ∧
    ∀ c ∈ [Daily.mkReal 110 110 110 110 5,
           Daily.mkFiller (some 100) (86400 * 2),
           Daily.mkFiller (some 100) (86400 * 3),
           Daily.mkFiller (some 100) (86400 * 4),
           Daily.mkReal 100 100 100 100 1],
      2 ≤ Daily.dateOf c.open_time → Daily.dateOf c.open_time ≤ 4 →
        c.close = some 100 ∧ c.close ≠ some 110 ∧ c.open_ = none ∧
          c.high = none ∧ c.low = none ∧ c.volume = none := by
  refine ⟨rfl, ?_⟩
  intro c hc
  simp only [List.mem_cons, List.mem_singleton, List.not_mem_nil,
    or_false] at hc
  rcases hc with rfl | rfl | rfl | rfl | rfl <;> decide

/-- **C8 (counterexample).** A malformed per-day payload in the provider
response does not force `(False, 0)`: with the latest stored candle on
day 12 and today = day 16, a response listing day 12 first (triggering the
early stop) and then an entry with a missing payload still returns
successfully — `(True, 3)` — and inserts three forward-fill candles. -/
theorem claim8_atomicity_counterexample :
    (∃ e ∈ [(⟨some 12, .ok 4 4 4 4⟩ : Daily.Entry), ⟨some 14, .missing⟩],
      e.pdata = Daily.EntryData.missing) ∧
    Daily.syncAsset (some (Daily.mkReal 4 4 4 4 12)) (86400 * 16 + 3600)
        (fun _ => .ret (some [⟨some 12, .ok 4 4 4 4⟩, ⟨some 14, .missing⟩])) =
      .result true 3
        [Daily.mkFiller (some 4) ((86400 * 12) + 86400 * 1),
         Daily.mkFiller (some 4) ((86400 * 12) + 86400 * 2),
         Daily.mkFiller (some 4) ((86400 * 12) + 86400 * 3)] := by
  constructor
  · exact ⟨⟨some 14, .missing⟩, by simp, rfl⟩
  · have hdec : Daily.syncDecision (some (Daily.mkReal 4 4 4 4 12))
        (86400 * 16 + 3600) = some .compact := by
      refine (Daily.syncDecision_compact_iff _ _).mpr ⟨_, rfl, ?_, ?_⟩ <;>
        norm_num [Daily.mkReal]
    rw [Daily.syncAsset_of_decision_some hdec]
    rfl

/-- **C8 (amended).** Atomicity of a daily batch: (a) any failing
`sync_asset` returns `(False, 0)` and inserts nothing — the in-memory
batch is never partially written; (b) if any entry *examined before the
early stop* has a missing payload, an unparsable date, or a failing candle
construction, the parsing loop aborts; and (c) such an abort makes
`sync_asset` return `(False, 0)` with no inserts.  (Entries positioned
after the early-stop entry are never examined, as the counterexample
shows.) -/
theorem claim8_atomicity_amended :
    (∀ (latest : Option Daily.Candle) (now : ℤ) (f : ℕ → Daily.FetchOutcome)
        (n : ℕ) (ins : List Daily.Candle),
      Daily.syncAsset latest now f = .result false n ins →
        n = 0 ∧ ins = []) ∧
    (∀ (latest : Option Daily.Candle) (today : ℤ) (pre : List Daily.Entry)
        (e : Daily.Entry) (rest : List Daily.Entry) (acc : List Daily.Candle),
      (∀ x ∈ pre, Daily.survives latest today x) →
        Daily.aborts latest today e →
        Daily.parseLoop latest today (pre ++ e :: rest) acc = none) ∧
    (∀ (latest : Option Daily.Candle) (now : ℤ) (f : ℕ → Daily.FetchOutcome)
        (st : Daily.SyncType) (k : ℕ) (es : List Daily.Entry),
      Daily.syncDecision latest now = some st →
        Daily.retryLoop f = .fetched k (some es) →
        Daily.parseLoop latest (Daily.dateOf now) es [] = none →
        Daily.syncAsset latest now f = .result false 0 []) := by
  refine ⟨fun _ _ _ _ _ h => Daily.syncAsset_false_empty h, ?_, ?_⟩
  · intro latest today pre e rest acc hpre habort
    exact Daily.parseLoop_abort latest today pre hpre e habort rest acc
  · intro latest now f st k es hdec hret hp
    rw [Daily.syncAsset_of_decision_some hdec, hret]
    show Daily.parseEntries latest (Daily.dateOf now) es = .result false 0 []
    unfold Daily.parseEntries
    rw [hp]

/-- Witness for C8 (amended): a response whose very first entry has an
unparsable date aborts the sync of an instrument that was due for a full
sync, returning `(False, 0)` with no inserts. -/
theorem claim8_atomicity_amended_witness :
    Daily.parseLoop none 6 [⟨none, .ok 1 1 1 1⟩] [] = none ∧
    Daily.syncAsset none (86400 * 6)
        (fun _ => .ret (some [⟨none, .ok 1 1 1 1⟩])) = .result false 0 [] := by
  have h := claim8_atomicity_amended
  have hp : Daily.parseLoop none 6 ([] ++ (⟨none, .ok 1 1 1 1⟩ : Daily.Entry)
      :: []) [] = none :=
    h.2.1 none 6 [] ⟨none, .ok 1 1 1 1⟩ [] [] (by simp)
      (Or.inr (Or.inl rfl))
  refine ⟨hp, ?_⟩
  refine h.2.2 none (86400 * 6)
    (fun _ => .ret (some [⟨none, .ok 1 1 1 1⟩])) .full 0 [⟨none, .ok 1 1 1 1⟩]
    rfl rfl ?_
  have : Daily.dateOf (86400 * 6) = 6 := by
    rw [Daily.dateOf_eq_ediv]
    norm_num
  exact this ▸ hp

/-! ## The aggregation syncer: `AssetUpdaterAggregation`
(datafeed/assetclass.py, lines 631-796)

Daily, weekly and monthly candles carry calendar-date stamps (the daily
parse stores midnights, so day resolution is exact here).  A `Date` is a
pair of an absolute Gregorian month index `month = 12*year + (m - 1)`
(with `m ∈ 1..12` the month-of-year) and a day-of-month — a transparent
recoding of the `(year, month, day)` triple that makes
`relativedelta(months=1)` the successor on the `month` field.  `ordinal`
is `datetime.date.toordinal` (day 1 = 0001-01-01, a Monday) and `weekday`
is Python's Monday-is-0 weekday. -/

namespace Agg

/-- A calendar date: absolute month index and day of month. -/
structure Date where
  month : ℤ
  day : ℤ
deriving DecidableEq, Repr

/-- Gregorian leap-year test (`calendar.isleap`). -/
def isLeap (y : ℤ) : Bool :=
  decide (y % 4 = 0 ∧ (y % 100 ≠ 0 ∨ y % 400 = 0))

/-- Length of month-of-year `m` (1-12) in a leap/non-leap year. -/
def monthLength (leap : Bool) (m : ℤ) : ℤ :=
  if m = 2 then (if leap then 29 else 28)
  else if m = 4 ∨ m = 6 ∨ m = 9 ∨ m = 11 then 30
  else 31

/-- Length of the month with absolute index `M`. -/
def daysInMonth (M : ℤ) : ℤ := monthLength (isLeap (M / 12)) (M % 12 + 1)

/-- Days before month-of-year `m` within its year. -/
def daysBefore (leap : Bool) (m : ℤ) : ℤ :=
  (if m ≤ 1 then 0 else if m = 2 then 31 else if m = 3 then 59
   else if m = 4 then 90 else if m = 5 then 120 else if m = 6 then 151
   else if m = 7 then 181 else if m = 8 then 212 else if m = 9 then 243
   else if m = 10 then 273 else if m = 11 then 304 else 334) +
  (if leap = true ∧ 3 ≤ m then 1 else 0)

namespace Date

/-- The calendar year of a date. -/
def year (x : Date) : ℤ := x.month / 12

/-- The month-of-year (1-12) of a date. -/
def monthOfYear (x : Date) : ℤ := x.month % 12 + 1

/-- `datetime.date.toordinal`: day number 1 is 0001-01-01. -/
def ordinal (x : Date) : ℤ :=
  365 * (x.year - 1) + (x.year - 1) / 4 - (x.year - 1) / 100 +
    (x.year - 1) / 400 + daysBefore (isLeap x.year) x.monthOfYear + x.day

/-- Python's `date.weekday()`: Monday is 0. -/
def weekday (x : Date) : ℤ := (x.ordinal + 6) % 7

/-- Date order (`<` on `datetime.date`). -/
def lt (a b : Date) : Prop :=
  a.month < b.month ∨ (a.month = b.month ∧ a.day < b.day)

/-- Date order (`<=` on `datetime.date`). -/
def le (a b : Date) : Prop :=
  a.month < b.month ∨ (a.month = b.month ∧ a.day ≤ b.day)

instance (a b : Date) : Decidable (a.lt b) :=
  inferInstanceAs (Decidable (_ ∨ _))

instance (a b : Date) : Decidable (a.le b) :=
  inferInstanceAs (Decidable (_ ∨ _))

/-- A calendar-valid date. -/
def Valid (x : Date) : Prop := 1 ≤ x.day ∧ x.day ≤ daysInMonth x.month

instance (x : Date) : Decidable x.Valid := inferInstanceAs (Decidable (_ ∧ _))

/-- `+ timedelta(days=1)`. -/
def nextDay (x : Date) : Date :=
  if x.day < daysInMonth x.month then ⟨x.month, x.day + 1⟩
  else ⟨x.month + 1, 1⟩

/-- `- timedelta(days=1)`. -/
def prevDay (x : Date) : Date :=
  if 1 < x.day then ⟨x.month, x.day - 1⟩
  else ⟨x.month - 1, daysInMonth (x.month - 1)⟩

/-- `+ timedelta(days=k)` for `k ≥ 0`. -/
def addDays (k : ℤ) (x : Date) : Date := nextDay^[k.toNat] x

/-- `+ relativedelta(months=1)` (day clamped to the target month's
length, as `dateutil` does). -/
def addMonths1 (x : Date) : Date :=
  ⟨x.month + 1, min x.day (daysInMonth (x.month + 1))⟩

/-- `.replace(day=1)`. -/
def replaceDay1 (x : Date) : Date := ⟨x.month, 1⟩

end Date

lemma monthLength_bounds (leap : Bool) (m : ℤ) :
    28 ≤ monthLength leap m ∧ monthLength leap m ≤ 31 := by
  unfold monthLength
  split_ifs <;> omega

lemma daysInMonth_bounds (M : ℤ) :
    28 ≤ daysInMonth M ∧ daysInMonth M ≤ 31 :=
  monthLength_bounds _ _

lemma daysBefore_one (leap : Bool) : daysBefore leap 1 = 0 := by
  cases leap <;> rfl

lemma daysBefore_twelve (leap : Bool) :
    daysBefore leap 12 = 334 + (if leap = true then 1 else 0) := by
  cases leap <;> rfl

lemma daysBefore_succ (leap : Bool) (m : ℤ) (h1 : 1 ≤ m) (h2 : m ≤ 11) :
    daysBefore leap (m + 1) = daysBefore leap m + monthLength leap m := by
  have h12 : m = 1 ∨ m = 2 ∨ m = 3 ∨ m = 4 ∨ m = 5 ∨ m = 6 ∨ m = 7 ∨
      m = 8 ∨ m = 9 ∨ m = 10 ∨ m = 11 := by omega
  cases leap <;>
    (rcases h12 with rfl | rfl | rfl | rfl | rfl | rfl | rfl | rfl | rfl |
      rfl | rfl <;> rfl)

namespace Date

/-- Unfolding of `ordinal` to raw month-index arithmetic. -/
lemma ordinal_def (x : Date) : x.ordinal =
    365 * (x.month / 12 - 1) + (x.month / 12 - 1) / 4 -
      (x.month / 12 - 1) / 100 + (x.month / 12 - 1) / 400 +
      daysBefore (isLeap (x.month / 12)) (x.month % 12 + 1) + x.day := rfl

/-- Unfolding of `ordinal` on an explicit month/day pair. -/
lemma ordinal_mk (M d : ℤ) : (Date.mk M d).ordinal =
    365 * (M / 12 - 1) + (M / 12 - 1) / 4 - (M / 12 - 1) / 100 +
      (M / 12 - 1) / 400 + daysBefore (isLeap (M / 12)) (M % 12 + 1) + d := rfl

lemma valid_mk (M d : ℤ) :
    (Date.mk M d).Valid ↔ 1 ≤ d ∧ d ≤ daysInMonth M := Iff.rfl

lemma nextDay_valid {x : Date} (h : x.Valid) : (nextDay x).Valid := by
  obtain ⟨h1, h2⟩ := h
  have hb1 := daysInMonth_bounds x.month
  have hb2 := daysInMonth_bounds (x.month + 1)
  unfold nextDay
  split_ifs with hd
  · rw [valid_mk]
    omega
  · rw [valid_mk]
    omega

/-- The per-year leap bit equals the change in the leap-day count. -/
lemma leapBit_eq (y : ℤ) :
    (if isLeap y = true then (1 : ℤ) else 0) =
      (y / 4 - (y - 1) / 4) - (y / 100 - (y - 1) / 100) +
        (y / 400 - (y - 1) / 400) := by
  unfold isLeap
  by_cases h4 : y % 4 = 0
  · by_cases h100 : y % 100 = 0
    · by_cases h400 : y % 400 = 0
      · rw [if_pos]
        · omega
        · simp [h4, h100, h400]
      · rw [if_neg]
        · omega
        · simp [h4, h100, h400]
    · rw [if_pos]
      · omega
      · simp [h4, h100]
  · rw [if_neg]
    · omega
    · simp [h4]

lemma ordinal_nextDay {x : Date} (h : x.Valid) :
    (nextDay x).ordinal = x.ordinal + 1 := by
  obtain ⟨h1, h2⟩ := h
  unfold nextDay
  split_ifs with hd
  · rw [ordinal_mk, ordinal_def]
    omega
  · have hday : x.day = daysInMonth x.month := by omega
    unfold daysInMonth monthLength at hday
    rw [ordinal_mk, ordinal_def]
    by_cases hm : x.month % 12 ≤ 10
    · have hy : (x.month + 1) / 12 = x.month / 12 := by omega
      have hmy : (x.month + 1) % 12 = x.month % 12 + 1 := by omega
      rw [hy, hmy]
      have hsucc := daysBefore_succ (isLeap (x.month / 12)) (x.month % 12 + 1)
        (by omega) (by omega)
      unfold monthLength at hsucc
      split_ifs at hday hsucc <;> omega
    · have hm12 : x.month % 12 = 11 := by omega
      have hy : (x.month + 1) / 12 = x.month / 12 + 1 := by omega
      have hmy : (x.month + 1) % 12 = 0 := by omega
      rw [hy, hmy, hm12]
      rw [hm12] at hday
      have hday31 : x.day = 31 := by
        rw [hday]
        norm_num
      have h01 : (0 : ℤ) + 1 = 1 := by norm_num
      have h112 : (11 : ℤ) + 1 = 12 := by norm_num
      rw [h01, h112, daysBefore_one, daysBefore_twelve]
      have hsim : x.month / 12 + 1 - 1 = x.month / 12 := by omega
      rw [hsim, hday31, leapBit_eq (x.month / 12)]
      omega

lemma lt_trichotomy_date (a b : Date) : a.lt b ∨ a = b ∨ b.lt a := by
  unfold Date.lt
  rcases Int.lt_trichotomy a.month b.month with h | h | h
  · exact Or.inl (Or.inl h)
  · rcases Int.lt_trichotomy a.day b.day with h2 | h2 | h2
    · exact Or.inl (Or.inr ⟨h, h2⟩)
    · refine Or.inr (Or.inl ?_)
      cases a
      cases b
      simp only [Date.mk.injEq]
      exact ⟨h, h2⟩
    · exact Or.inr (Or.inr (Or.inr ⟨h.symm, h2⟩))
  · exact Or.inr (Or.inr (Or.inl h))

lemma not_lt_self {a : Date} : ¬a.lt a := by
  unfold Date.lt
  omega

lemma le_iff_lt_or_eq {a b : Date} : a.le b ↔ a.lt b ∨ a = b := by
  unfold Date.le Date.lt
  constructor
  · rintro (h | ⟨h1, h2⟩)
    · exact Or.inl (Or.inl h)
    · rcases lt_or_eq_of_le h2 with h3 | h3
      · exact Or.inl (Or.inr ⟨h1, h3⟩)
      · refine Or.inr ?_
        cases a
        cases b
        simp only [Date.mk.injEq]
        exact ⟨h1, h3⟩
  · rintro ((h | ⟨h1, h2⟩) | rfl)
    · exact Or.inl h
    · exact Or.inr ⟨h1, le_of_lt h2⟩
    · exact Or.inr ⟨rfl, le_refl _⟩

lemma ordFirst_succ (M : ℤ) :
    (Date.mk (M + 1) 1).ordinal = (Date.mk M 1).ordinal + daysInMonth M := by
  have hv : (Date.mk M (daysInMonth M)).Valid := by
    rw [Date.valid_mk]
    have := daysInMonth_bounds M
    omega
  have hn : Date.nextDay (Date.mk M (daysInMonth M)) = Date.mk (M + 1) 1 := by
    unfold Date.nextDay
    rw [if_neg (lt_irrefl _)]
  have h1 := Date.ordinal_nextDay hv
  rw [hn] at h1
  rw [h1, Date.ordinal_mk, Date.ordinal_mk]
  omega

lemma ordFirst_mono {M N : ℤ} (h : M ≤ N) :
    (Date.mk M 1).ordinal ≤ (Date.mk N 1).ordinal := by
  refine @Int.le_induction
    (fun N => (Date.mk M 1).ordinal ≤ (Date.mk N 1).ordinal) M
    (le_refl _) ?_ N h
  intro n hn ih
  have := ordFirst_succ n
  have := (daysInMonth_bounds n).1
  omega

lemma ordinal_lt_of_lt {a b : Date} (ha : a.Valid) (hb : b.Valid)
    (h : a.lt b) : a.ordinal < b.ordinal := by
  obtain ⟨ha1, ha2⟩ := ha
  obtain ⟨hb1, hb2⟩ := hb
  unfold Date.lt at h
  rcases h with h | ⟨h1, h2⟩
  · have e1 : a.ordinal = (Date.mk a.month 1).ordinal + a.day - 1 := by
      rw [Date.ordinal_def, Date.ordinal_mk]
      omega
    have e2 : b.ordinal = (Date.mk b.month 1).ordinal + b.day - 1 := by
      rw [Date.ordinal_def, Date.ordinal_mk]
      omega
    have e3 := ordFirst_succ a.month
    have e4 : a.month + 1 ≤ b.month := by omega
    have e5 := ordFirst_mono e4
    omega
  · rw [Date.ordinal_def, Date.ordinal_def, h1]
    omega

lemma ordinal_le_of_le {a b : Date} (ha : a.Valid) (hb : b.Valid)
    (h : a.le b) : a.ordinal ≤ b.ordinal := by
  rcases le_iff_lt_or_eq.mp h with h | rfl
  · exact le_of_lt (ordinal_lt_of_lt ha hb h)
  · exact le_refl _

lemma ordinal_inj {a b : Date} (ha : a.Valid) (hb : b.Valid)
    (h : a.ordinal = b.ordinal) : a = b := by
  rcases lt_trichotomy_date a b with h1 | h1 | h1
  · exact absurd h (ne_of_lt (ordinal_lt_of_lt ha hb h1))
  · exact h1
  · exact absurd h.symm (ne_of_lt (ordinal_lt_of_lt hb ha h1))

lemma lt_iff_ordinal_lt {a b : Date} (ha : a.Valid) (hb : b.Valid) :
    a.lt b ↔ a.ordinal < b.ordinal := by
  constructor
  · exact ordinal_lt_of_lt ha hb
  · intro h
    rcases lt_trichotomy_date a b with h1 | rfl | h1
    · exact h1
    · exact absurd h (lt_irrefl _)
    · exact absurd (lt_trans h (ordinal_lt_of_lt hb ha h1)) (lt_irrefl _)

lemma le_iff_ordinal_le {a b : Date} (ha : a.Valid) (hb : b.Valid) :
    a.le b ↔ a.ordinal ≤ b.ordinal := by
  constructor
  · exact ordinal_le_of_le ha hb
  · intro h
    rcases lt_trichotomy_date a b with h1 | rfl | h1
    · exact le_iff_lt_or_eq.mpr (Or.inl h1)
    · exact le_iff_lt_or_eq.mpr (Or.inr rfl)
    · exact absurd (ordinal_lt_of_lt hb ha h1) (not_lt.mpr h)

lemma iterate_nextDay_spec {x : Date} (hx : x.Valid) (k : ℕ) :
    (Date.nextDay^[k] x).Valid ∧
      (Date.nextDay^[k] x).ordinal = x.ordinal + k := by
  induction k with
  | zero => exact ⟨hx, by simp⟩
  | succ k ih =>
    rw [Function.iterate_succ_apply']
    obtain ⟨ihv, iho⟩ := ih
    refine ⟨Date.nextDay_valid ihv, ?_⟩
    rw [Date.ordinal_nextDay ihv, iho]
    push_cast
    ring

lemma addDays_valid {x : Date} (hx : x.Valid) (k : ℤ) :
    (Date.addDays k x).Valid := (iterate_nextDay_spec hx k.toNat).1

lemma addDays_ordinal {x : Date} (hx : x.Valid) {k : ℤ} (hk : 0 ≤ k) :
    (Date.addDays k x).ordinal = x.ordinal + k := by
  have := (iterate_nextDay_spec hx k.toNat).2
  unfold Date.addDays
  omega

/-- Stepping a date forward to the next Monday boundary: for a
Monday-aligned week `[ws, ws + 7)`, any date `t` inside it satisfies
`t + (7 - weekday t) days = ws + 7 days`; a Monday inside it is `ws`
itself. -/
lemma next_monday_eq {ws t : Date} (hws : ws.Valid) (ht : t.Valid)
    (hmon : ws.weekday = 0) (h1 : ws.ordinal ≤ t.ordinal)
    (h2 : t.ordinal < ws.ordinal + 7) :
    Date.addDays (7 - t.weekday) t = Date.addDays 7 ws ∧
      (t.weekday = 0 → t = ws) := by
  have hwd : t.weekday = t.ordinal - ws.ordinal := by
    unfold Date.weekday at hmon ⊢
    omega
  constructor
  · have hb : (0 : ℤ) ≤ 7 - t.weekday := by
      unfold Date.weekday at hwd ⊢
      omega
    apply ordinal_inj (addDays_valid ht _) (addDays_valid hws _)
    rw [addDays_ordinal ht hb, addDays_ordinal hws (by norm_num)]
    omega
  · intro h0
    apply ordinal_inj ht hws
    omega

end Date

/-- Interval tags (seconds), from the spec (`models/constants.py` is not
part of the source tree): day = 86400, week = 604800.  `INTERVAL_MONTH` is
modelled from the spec: the spec describes the month interval only as a
"variable-length calendar month" tag; the code uses the constant purely as
a query tag, so any value distinct from the day and week tags is faithful
— 30 days is used here. -/
def INTERVAL_DAY : ℤ := 86400

/-- Week tag (7 * 86400). -/
def INTERVAL_WEEK : ℤ := 604800

/-- Modelled from the spec: month tag; see `INTERVAL_DAY`. -/
def INTERVAL_MONTH : ℤ := 2592000

/-- A stored candle, at calendar-date resolution (daily bars are stored
at midnight, so nothing is lost for aggregation).  `open` is a Lean
keyword, hence `open_`.  The aggregation of an all-filler window stores
`open_time = none`, so the stamp is optional. -/
structure Candle where
  open_ : Option ℚ
  high : Option ℚ
  low : Option ℚ
  close : Option ℚ
  volume : Option ℚ
  open_time : Option Date
  interval : ℤ
deriving DecidableEq, Repr

/-- MongoDB descending `open_time` comparison on nullable stamps: null
sorts below every value. -/
def tLtOpt : Option Date → Option Date → Bool
  | none, some _ => true
  | none, none => false
  | some _, none => false
  | some a, some b => decide (a.lt b)

/-- One step of the maximum-stamp scan backing `first()` under the
`-open_time` default ordering. -/
def maxStep : Option Candle → Candle → Option Candle
  | none, c => some c
  | some b, c => if tLtOpt b.open_time c.open_time then some c else some b

/-- `asset.get_last_candle(interval=iv)` (models/candle.py line 94): the
candle of the given interval with the greatest `open_time`; candles with a
null stamp sort last in the `-open_time` ordering. -/
def get_last_candle (S : List Candle) (iv : ℤ) : Option Candle :=
  (S.filter (fun c => decide (c.interval = iv))).foldl maxStep none

/-- One step of the minimum-stamp scan backing
`order_by('open_time').first()`. -/
def minStep : Option Candle → Candle → Option Candle
  | none, c => some c
  | some b, c => if tLtOpt c.open_time b.open_time then some c else some b

/-- `asset.get_first_candle()` (models/candle.py line 81): the daily
candle with the least `open_time`. -/
def get_first_candle (S : List Candle) (iv : ℤ) : Option Candle :=
  (S.filter (fun c => decide (c.interval = iv))).foldl minStep none

/-- `Candle.get_asset_within` (models/candle.py lines 55-78) as used by
both aggregation call sites.  The weekly site passes `exclude_finish=True`
and the monthly site passes the defaults; by lines 74-78 both reduce to
the same `open_time__gte start & open_time__lt finish` filter.  A Mongo
range query never matches a null `open_time`. -/
def get_asset_within (S : List Candle) (iv : ℤ)
    (start finish : Date) : List Candle :=
  S.filter (fun c =>
    decide (c.interval = iv) &&
      match c.open_time with
      | some t => decide (start.le t) && decide (t.lt finish)
      | none => false)

/-- `asset.get_daily_candle(date)` (models/asset.py lines 147-159): the
daily candle in `[date, date + 1 day)`. -/
def get_daily_candle (S : List Candle) (dt : Date) : Option Candle :=
  (get_asset_within S INTERVAL_DAY dt dt.nextDay).head?

/-- The running state of `aggregate_candles` (lines 651-657): Python
initializes `volume`, `open_price`, `close_price` to the int `0` and the
rest to `None`; `0` is a present float, hence `some 0`. -/
structure AggState where
  low_price : Option ℚ
  high_price : Option ℚ
  volume : ℚ
  open_price : Option ℚ
  open_stamp : Option Date
  close_price : Option ℚ
  close_stamp : Option Date
deriving DecidableEq, Repr

/-- Python `<` on two optional floats: comparing `None` raises
`TypeError`. -/
def pyLtQ (a b : Option ℚ) : Except Unit Bool :=
  match a, b with
  | some x, some y => .ok (decide (x < y))
  | _, _ => .error ()

/-- Python `>` on two optional floats. -/
def pyGtQ (a b : Option ℚ) : Except Unit Bool :=
  match a, b with
  | some x, some y => .ok (decide (y < x))
  | _, _ => .error ()

/-- Python `<` on two optional dates. -/
def pyLtD (a b : Option Date) : Except Unit Bool :=
  match a, b with
  | some x, some y => .ok (decide (x.lt y))
  | _, _ => .error ()

/-- Python `>` on two optional dates. -/
def pyGtD (a b : Option Date) : Except Unit Bool :=
  match a, b with
  | some x, some y => .ok (decide (y.lt x))
  | _, _ => .error ()

/-- One iteration of the `for candle in candles` loop of
`aggregate_candles` (lines 658-678): members with an absent open are
skipped; otherwise low/high run min/max (first assignment unconditional),
volume accumulates present volumes, and open/close follow the
least/greatest stamp seen so far (the `or` short-circuits, so the stamp
comparison only runs — and can only raise — when a stamp was already
assigned). -/
def aggStep (s : AggState) (c : Candle) : Except Unit AggState := do
  if c.open_ = none then
    pure s
  else do
    let lowp ←
      match s.low_price with
      | none => pure c.low
      | some lp => do
          let b ← pyLtQ c.low (some lp)
          pure (if b then c.low else some lp)
    let highp ←
      match s.high_price with
      | none => pure c.high
      | some hp => do
          let b ← pyGtQ c.high (some hp)
          pure (if b then c.high else some hp)
    let vol :=
      match c.volume with
      | none => s.volume
      | some v => s.volume + v
    let op ←
      match s.open_stamp with
      | none => pure (c.open_, c.open_time)
      | some os => do
          let b ← pyLtD c.open_time (some os)
          pure (if b then (c.open_, c.open_time)
                else (s.open_price, s.open_stamp))
    let cl ←
      match s.close_stamp with
      | none => pure (c.close, c.open_time)
      | some cs => do
          let b ← pyGtD c.open_time (some cs)
          pure (if b then (c.close, c.open_time)
                else (s.close_price, s.close_stamp))
    pure ⟨lowp, highp, vol, op.1, op.2, cl.1, cl.2⟩

/-- The loop of `aggregate_candles` over the member list. -/
def aggFold : AggState → List Candle → Except Unit AggState
  | s, [] => .ok s
  | s, c :: cs =>
    match aggStep s c with
    | .error e => .error e
    | .ok s' => aggFold s' cs

namespace Date

lemma le_of_not_lt {a b : Date} (h : ¬a.lt b) : b.le a := by
  unfold Date.lt at h
  unfold Date.le
  omega

lemma le_trans_date {a b c : Date} (h1 : a.le b) (h2 : b.le c) : a.le c := by
  unfold Date.le at *
  omega

lemma lt_le_date {a b : Date} (h : a.lt b) : a.le b := by
  unfold Date.lt at h
  unfold Date.le
  omega

lemma lt_of_lt_of_le_date {a b c : Date} (h1 : a.lt b) (h2 : b.le c) :
    a.lt c := by
  unfold Date.lt at *
  unfold Date.le at h2
  omega

lemma le_mk {m1 d1 m2 d2 : ℤ} :
    (Date.mk m1 d1).le (Date.mk m2 d2) ↔
      m1 < m2 ∨ (m1 = m2 ∧ d1 ≤ d2) := Iff.rfl

lemma le_antisymm_date {a b : Date} (h1 : a.le b) (h2 : b.le a) : a = b := by
  cases a with
  | mk m1 d1 =>
    cases b with
    | mk m2 d2 =>
      rw [le_mk] at h1 h2
      simp only [Date.mk.injEq]
      omega

end Date

/-- The initial state of lines 651-657. -/
def initAgg : AggState := ⟨none, none, 0, some 0, none, some 0, none⟩

/-- `AssetUpdaterAggregation.aggregate_candles` (lines 640-681): fold the
members, then build the aggregate candle; a zero volume sum is stored as
`None` (line 679-680). -/
def aggregate_candles (iv : ℤ) (candles : List Candle) :
    Except Unit Candle := do
  let s ← aggFold initAgg candles
  pure ⟨s.open_price, s.high_price, s.low_price, s.close_price,
        if s.volume = 0 then none else some s.volume,
        s.open_stamp, iv⟩

/-- The members with a present `open` — the ones `aggregate_candles` does
not skip. -/
def reals (cs : List Candle) : List Candle :=
  cs.filter (fun c => c.open_.isSome)

/-- Sum of the present member volumes. -/
def volSum (R : List Candle) : ℚ := (R.filterMap Candle.volume).sum

/-- A member candle as stored by the pipeline: if its open is present, so
are its low, high, close and stamp. -/
def wfMember (c : Candle) : Prop :=
  c.open_ ≠ none →
    c.low ≠ none ∧ c.high ≠ none ∧ c.close ≠ none ∧ c.open_time ≠ none

/-- Invariant of the `aggregate_candles` loop state after the real
members `R` have been processed. -/
def Inv (R : List Candle) (s : AggState) : Prop :=
  s.volume = volSum R ∧
  ((R = [] ∧ s.low_price = none ∧ s.high_price = none ∧
      s.open_price = some 0 ∧ s.open_stamp = none ∧
      s.close_price = some 0 ∧ s.close_stamp = none) ∨
   (R ≠ [] ∧
    (∃ lv, s.low_price = some lv ∧ (∃ c ∈ R, c.low = some lv) ∧
      ∀ c ∈ R, ∀ v, c.low = some v → lv ≤ v) ∧
    (∃ hv, s.high_price = some hv ∧ (∃ c ∈ R, c.high = some hv) ∧
      ∀ c ∈ R, ∀ v, c.high = some v → v ≤ hv) ∧
    (∃ c ∈ R, ∃ t, c.open_time = some t ∧ s.open_price = c.open_ ∧
      s.open_stamp = some t ∧
      ∀ c' ∈ R, ∀ t', c'.open_time = some t' → t.le t') ∧
    (∃ c ∈ R, ∃ t, c.open_time = some t ∧ s.close_price = c.close ∧
      s.close_stamp = some t ∧
      ∀ c' ∈ R, ∀ t', c'.open_time = some t' → t'.le t)))

lemma volSum_append_one (R : List Candle) (c : Candle) :
    volSum (R ++ [c]) =
      volSum R + (match c.volume with | none => 0 | some v => v) := by
  unfold volSum
  rw [List.filterMap_append]
  cases hv : c.volume with
  | none => simp [hv]
  | some v => simp [hv]

lemma aggStep_skip {s : AggState} {c : Candle} (h : c.open_ = none) :
    aggStep s c = .ok s := by
  unfold aggStep
  rw [if_pos h]
  rfl

lemma aggStep_real_spec {s : AggState} {c : Candle} {R : List Candle}
    (hwf : wfMember c) (hreal : c.open_ ≠ none) (hinv : Inv R s) :
    ∃ s', aggStep s c = .ok s' ∧ Inv (R ++ [c]) s' := by
  obtain ⟨hlo, hhi, hcl, hst⟩ := hwf hreal
  obtain ⟨o, ho⟩ := Option.ne_none_iff_exists'.mp hreal
  obtain ⟨lv, hl⟩ := Option.ne_none_iff_exists'.mp hlo
  obtain ⟨hv, hh⟩ := Option.ne_none_iff_exists'.mp hhi
  obtain ⟨cv, hc⟩ := Option.ne_none_iff_exists'.mp hcl
  obtain ⟨t, ht⟩ := Option.ne_none_iff_exists'.mp hst
  obtain ⟨hvol, hcase⟩ := hinv
  rcases hcase with ⟨hR, h1, h2, h3, h4, h5, h6⟩ |
    ⟨hR, ⟨lp, hlp, ⟨cl0, hcl0, hcl0e⟩, hlpmin⟩,
      ⟨hp, hhp, ⟨ch0, hch0, hch0e⟩, hhpmax⟩,
      ⟨co, hco, t0, hto, hopv, hosv, homin⟩,
      ⟨cc, hcc, tc, htc, hcpv, hcsv, hcmax⟩⟩
  · -- first real member: every field is assigned from it
    subst hR
    refine ⟨⟨c.low, c.high, s.volume +
        (match c.volume with | none => 0 | some v => v),
        c.open_, c.open_time, c.close, c.open_time⟩, ?_, ?_⟩
    · unfold aggStep
      rw [if_neg hreal, h1, h2, h4, h6]
      cases hcv : c.volume <;> simp [hcv, pure, Except.pure, Bind.bind, Except.bind]
    · refine ⟨?_, Or.inr ⟨by simp, ?_, ?_, ?_, ?_⟩⟩
      · show s.volume + _ = volSum ([] ++ [c])
        rw [List.nil_append]
        unfold volSum at hvol ⊢
        cases hcv : c.volume <;> simp [hcv, hvol]
      · exact ⟨lv, by simp [hl], ⟨c, by simp, hl⟩, by
          intro c2 hc2 v hv2
          simp only [List.nil_append, List.mem_singleton] at hc2
          subst hc2
          rw [hl] at hv2
          injection hv2 with hv2
          exact le_of_eq hv2⟩
      · exact ⟨hv, by simp [hh], ⟨c, by simp, hh⟩, by
          intro c2 hc2 v hv2
          simp only [List.nil_append, List.mem_singleton] at hc2
          subst hc2
          rw [hh] at hv2
          injection hv2 with hv2
          exact le_of_eq hv2.symm⟩
      · refine ⟨c, by simp, t, ht, rfl, by simp [ht], ?_⟩
        intro c2 hc2 t2 ht2
        simp only [List.nil_append, List.mem_singleton] at hc2
        subst hc2
        rw [ht] at ht2
        injection ht2 with ht2
        subst ht2
        exact Or.inr ⟨rfl, le_refl _⟩
      · refine ⟨c, by simp, t, ht, rfl, by simp [ht], ?_⟩
        intro c2 hc2 t2 ht2
        simp only [List.nil_append, List.mem_singleton] at hc2
        subst hc2
        rw [ht] at ht2
        injection ht2 with ht2
        subst ht2
        exact Or.inr ⟨rfl, le_refl _⟩
  · -- later real member: running min/max/earliest/latest updates
    refine ⟨⟨if lv < lp then c.low else some lp,
        if hp < hv then c.high else some hp,
        s.volume + (match c.volume with | none => 0 | some v => v),
        if t.lt t0 then c.open_ else s.open_price,
        if t.lt t0 then c.open_time else s.open_stamp,
        if tc.lt t then c.close else s.close_price,
        if tc.lt t then c.open_time else s.close_stamp⟩, ?_, ?_⟩
    · unfold aggStep
      rw [if_neg hreal, hlp, hhp, hosv, hcsv]
      unfold pyLtQ pyGtQ pyLtD pyGtD
      rw [hl, hh, ht]
      cases hcv : c.volume <;>
        (by_cases hb1 : lv < lp <;> by_cases hb2 : hp < hv <;>
          by_cases hb3 : t.lt t0 <;> by_cases hb4 : tc.lt t <;>
            simp [hcv, hb1, hb2, hb3, hb4, pure, Except.pure, Bind.bind,
              Except.bind])
    · have hmemR : ∀ x ∈ R, x ∈ R ++ [c] := fun x hx =>
        List.mem_append_left _ hx
      have hmemc : c ∈ R ++ [c] := List.mem_append_right _ (by simp)
      refine ⟨?_, Or.inr ⟨by simp, ?_, ?_, ?_, ?_⟩⟩
      · show s.volume + _ = volSum (R ++ [c])
        rw [volSum_append_one, hvol]
      · by_cases hb1 : lv < lp
        · rw [if_pos hb1]
          refine ⟨lv, by simp [hl], ⟨c, hmemc, hl⟩, ?_⟩
          intro c2 hc2 v hv2
          rcases List.mem_append.mp hc2 with h | h
          · have := hlpmin c2 h v hv2
            linarith
          · simp only [List.mem_singleton] at h
            subst h
            rw [hl] at hv2
            injection hv2 with hv2
            linarith
        · rw [if_neg hb1]
          refine ⟨lp, rfl, ⟨cl0, hmemR _ hcl0, hcl0e⟩, ?_⟩
          intro c2 hc2 v hv2
          rcases List.mem_append.mp hc2 with h | h
          · exact hlpmin c2 h v hv2
          · simp only [List.mem_singleton] at h
            subst h
            rw [hl] at hv2
            injection hv2 with hv2
            linarith
      · by_cases hb2 : hp < hv
        · rw [if_pos hb2]
          refine ⟨hv, by simp [hh], ⟨c, hmemc, hh⟩, ?_⟩
          intro c2 hc2 v hv2
          rcases List.mem_append.mp hc2 with h | h
          · have := hhpmax c2 h v hv2
            linarith
          · simp only [List.mem_singleton] at h
            subst h
            rw [hh] at hv2
            injection hv2 with hv2
            linarith
        · rw [if_neg hb2]
          refine ⟨hp, rfl, ⟨ch0, hmemR _ hch0, hch0e⟩, ?_⟩
          intro c2 hc2 v hv2
          rcases List.mem_append.mp hc2 with h | h
          · exact hhpmax c2 h v hv2
          · simp only [List.mem_singleton] at h
            subst h
            rw [hh] at hv2
            injection hv2 with hv2
            linarith
      · by_cases hb3 : t.lt t0
        · rw [if_pos hb3, if_pos hb3]
          refine ⟨c, hmemc, t, ht, rfl, ht, ?_⟩
          intro c2 hc2 t2 ht2
          rcases List.mem_append.mp hc2 with h | h
          · exact Date.lt_le_date
              (Date.lt_of_lt_of_le_date hb3 (homin c2 h t2 ht2))
          · simp only [List.mem_singleton] at h
            subst h
            rw [ht] at ht2
            injection ht2 with ht2
            subst ht2
            exact Or.inr ⟨rfl, le_refl _⟩
        · rw [if_neg hb3, if_neg hb3]
          refine ⟨co, hmemR _ hco, t0, hto, hopv, hosv, ?_⟩
          intro c2 hc2 t2 ht2
          rcases List.mem_append.mp hc2 with h | h
          · exact homin c2 h t2 ht2
          · simp only [List.mem_singleton] at h
            subst h
            rw [ht] at ht2
            injection ht2 with ht2
            subst ht2
            exact Date.le_of_not_lt hb3
      · by_cases hb4 : tc.lt t
        · rw [if_pos hb4, if_pos hb4]
          refine ⟨c, hmemc, t, ht, rfl, ht, ?_⟩
          intro c2 hc2 t2 ht2
          rcases List.mem_append.mp hc2 with h | h
          · exact Date.le_trans_date (hcmax c2 h t2 ht2)
              (Date.lt_le_date hb4)
          · simp only [List.mem_singleton] at h
            subst h
            rw [ht] at ht2
            injection ht2 with ht2
            subst ht2
            exact Or.inr ⟨rfl, le_refl _⟩
        · rw [if_neg hb4, if_neg hb4]
          refine ⟨cc, hmemR _ hcc, tc, htc, hcpv, hcsv, ?_⟩
          intro c2 hc2 t2 ht2
          rcases List.mem_append.mp hc2 with h | h
          · exact hcmax c2 h t2 ht2
          · simp only [List.mem_singleton] at h
            subst h
            rw [ht] at ht2
            injection ht2 with ht2
            subst ht2
            exact Date.le_of_not_lt hb4

lemma aggFold_spec :
    ∀ (cs : List Candle) (s : AggState) (R : List Candle),
      (∀ c ∈ cs, wfMember c) → Inv R s →
      ∃ s', aggFold s cs = .ok s' ∧ Inv (R ++ reals cs) s' := by
  intro cs
  induction cs with
  | nil =>
    intro s R _ hinv
    exact ⟨s, rfl, by simpa [reals] using hinv⟩
  | cons c cs ih =>
    intro s R hwf hinv
    by_cases hreal : c.open_ = none
    · have hsk := aggStep_skip (s := s) hreal
      have hr : reals (c :: cs) = reals cs := by
        unfold reals
        rw [List.filter_cons]
        simp [hreal]
      obtain ⟨s', hs', hinv'⟩ :=
        ih s R (fun x hx => hwf x (List.mem_cons_of_mem _ hx)) hinv
      refine ⟨s', ?_, by rwa [hr]⟩
      unfold aggFold
      rw [hsk]
      exact hs'
    · obtain ⟨s1, hs1, hinv1⟩ :=
        aggStep_real_spec (hwf c (by simp)) hreal hinv
      have hr : reals (c :: cs) = c :: reals cs := by
        unfold reals
        rw [List.filter_cons]
        simp [Option.isSome_iff_ne_none.mpr hreal]
      obtain ⟨s', hs', hinv'⟩ :=
        ih s1 (R ++ [c]) (fun x hx => hwf x (List.mem_cons_of_mem _ hx)) hinv1
      refine ⟨s', ?_, ?_⟩
      · unfold aggFold
        rw [hs1]
        exact hs'
      · rw [hr]
        rwa [List.append_assoc, List.singleton_append] at hinv'

/-- `Inv` for the empty prefix and the initial state. -/
lemma Inv_init : Inv [] initAgg :=
  ⟨by simp [initAgg, volSum], Or.inl ⟨rfl, rfl, rfl, rfl, rfl, rfl, rfl⟩⟩

/-- Well-formed members make `aggregate_candles` succeed, with the final
state characterized by `Inv` over the real members. -/
lemma aggregate_ok (iv : ℤ) (cs : List Candle)
    (hwf : ∀ c ∈ cs, wfMember c) :
    ∃ s, aggFold initAgg cs = .ok s ∧ Inv (reals cs) s ∧
      aggregate_candles iv cs =
        .ok ⟨s.open_price, s.high_price, s.low_price, s.close_price,
             if s.volume = 0 then none else some s.volume,
             s.open_stamp, iv⟩ := by
  obtain ⟨s, hs, hinv⟩ := aggFold_spec cs initAgg [] hwf Inv_init
  rw [List.nil_append] at hinv
  refine ⟨s, hs, hinv, ?_⟩
  unfold aggregate_candles
  rw [hs]
  rfl

/-- The week starts processed by the loop of lines 788-792: Monday-aligned
weeks whose end has already elapsed before today. -/
def weekWindows (today : Date) : ℕ → Date → List Date
  | 0, _ => []
  | fuel + 1, ws =>
    if (Date.addDays 7 ws).lt today then
      ws :: weekWindows today fuel (Date.addDays 7 ws)
    else []

/-- The `while week_end < today` loop of `sync_asset_weekly` (lines
788-792).  `fuel` bounds the number of iterations; the caller passes
`today.ordinal - ws.ordinal + 1`, which the loop lemmas show is never
exhausted on calendar-valid inputs (each iteration moves `ws` 7 days
forward, and the guard keeps it below `today`). -/
def weeklyLoop (S : List Candle) (today : Date) :
    ℕ → Date → Except Unit (List Candle)
  | 0, _ => .error ()
  | fuel + 1, ws =>
    if (Date.addDays 7 ws).lt today then
      match aggregate_candles INTERVAL_WEEK
          (get_asset_within S INTERVAL_DAY ws (Date.addDays 7 ws)) with
      | .error e => .error e
      | .ok agg =>
        match weeklyLoop S today fuel (Date.addDays 7 ws) with
        | .error e => .error e
        | .ok rest => .ok (agg :: rest)
    else .ok []

/-- Lines 758-787 of `sync_asset_weekly`: compute the starting week.
`.ok none` models the `(False, 0)` early returns (no daily candles, or the
Monday-alignment lookup finds no candle); `.error ()` models the uncaught
`AttributeError` of calling `.weekday()`/`.date()` on a `None` stamp. -/
def weekly_start (S : List Candle) : Except Unit (Option Date) :=
  match get_last_candle S INTERVAL_WEEK with
  | none =>
    match get_first_candle S INTERVAL_DAY with
    | none => .ok none
    | some f =>
      match f.open_time with
      | none => .error ()
      | some t =>
        if t.weekday ≠ 0 then
          match get_daily_candle S (Date.addDays (7 - t.weekday) t) with
          | none => .ok none
          | some f2 =>
            match f2.open_time with
            | none => .error ()
            | some t2 => .ok (some t2)
        else .ok (some t)
  | some lw =>
    match lw.open_time with
    | none => .error ()
    | some T =>
      if T.weekday ≠ 0 then .ok (some (Date.addDays (7 - T.weekday) T))
      else .ok (some (Date.addDays 7 T))

/-- `AssetUpdaterAggregation.sync_asset_weekly` (lines 747-796). -/
def sync_asset_weekly (S : List Candle) (today : Date) :
    Except Unit (Bool × ℕ × List Candle) :=
  match weekly_start S with
  | .error e => .error e
  | .ok none => .ok (false, 0, [])
  | .ok (some ws) =>
    match weeklyLoop S today ((today.ordinal - ws.ordinal).toNat + 1) ws with
    | .error e => .error e
    | .ok cs => .ok (true, cs.length, cs)

/-- The month starts processed by the loop of lines 736-740. -/
def monthWindows (today : Date) : ℕ → Date → List Date
  | 0, _ => []
  | fuel + 1, ms =>
    if (Date.prevDay (Date.addMonths1 ms)).lt today then
      ms :: monthWindows today fuel (Date.addMonths1 ms)
    else []

/-- The `while month_end < today` loop of `sync_asset_monthly` (lines
736-740); `month_end` is the last day of the month, and the range query
`[month_start, month_end)` therefore excludes it (the source passes
`finish=month_end` with the default `exclude_finish=False`, which per
models/candle.py line 78 is still an exclusive upper bound). -/
def monthlyLoop (S : List Candle) (today : Date) :
    ℕ → Date → Except Unit (List Candle)
  | 0, _ => .error ()
  | fuel + 1, ms =>
    if (Date.prevDay (Date.addMonths1 ms)).lt today then
      match aggregate_candles INTERVAL_MONTH
          (get_asset_within S INTERVAL_DAY ms
            (Date.prevDay (Date.addMonths1 ms))) with
      | .error e => .error e
      | .ok agg =>
        match monthlyLoop S today fuel (Date.addMonths1 ms) with
        | .error e => .error e
        | .ok rest => .ok (agg :: rest)
    else .ok []

/-- Lines 712-735 of `sync_asset_monthly`: compute the starting month. -/
def monthly_start (S : List Candle) : Except Unit (Option Date) :=
  match get_last_candle S INTERVAL_MONTH with
  | none =>
    match get_first_candle S INTERVAL_DAY with
    | none => .ok none
    | some f =>
      match f.open_time with
      | none => .error ()
      | some t =>
        if t.day ≠ 1 then
          match get_daily_candle S (Date.addMonths1 t.replaceDay1) with
          | none => .ok none
          | some f2 =>
            match f2.open_time with
            | none => .error ()
            | some t2 => .ok (some t2)
        else .ok (some t)
  | some lm =>
    match lm.open_time with
    | none => .error ()
    | some T => .ok (some (Date.addMonths1 T.replaceDay1))

/-- `AssetUpdaterAggregation.sync_asset_monthly` (lines 701-744). -/
def sync_asset_monthly (S : List Candle) (today : Date) :
    Except Unit (Bool × ℕ × List Candle) :=
  match monthly_start S with
  | .error e => .error e
  | .ok none => .ok (false, 0, [])
  | .ok (some ms) =>
    match monthlyLoop S today ((today.ordinal - ms.ordinal).toNat + 1) ms with
    | .error e => .error e
    | .ok cs => .ok (true, cs.length, cs)

lemma tLtOpt_self (a : Option Date) : tLtOpt a a = false := by
  cases a with
  | none => rfl
  | some t =>
    unfold tLtOpt
    simp [Date.not_lt_self]

lemma date_lt_trans {a b c : Date} (h1 : a.lt b) (h2 : b.lt c) : a.lt c := by
  unfold Date.lt at *
  omega

lemma tLtOpt_trans {a b c : Option Date} (h1 : tLtOpt a b = true)
    (h2 : tLtOpt b c = true) : tLtOpt a c = true := by
  cases a with
  | none =>
    cases c with
    | some _ => rfl
    | none =>
      cases b with
      | none => exact absurd h1 (by simp [tLtOpt])
      | some _ => exact absurd h2 (by simp [tLtOpt])
  | some x =>
    cases b with
    | none => exact absurd h1 (by simp [tLtOpt])
    | some y =>
      cases c with
      | none => exact absurd h2 (by simp [tLtOpt])
      | some z =>
        unfold tLtOpt at h1 h2 ⊢
        exact decide_eq_true
          (date_lt_trans (of_decide_eq_true h1) (of_decide_eq_true h2))

lemma tLtOpt_ge_trans {a b c : Option Date} (h1 : tLtOpt a b = false)
    (h2 : tLtOpt b c = false) : tLtOpt a c = false := by
  cases c with
  | none => cases a <;> rfl
  | some z =>
    cases b with
    | none => exact absurd h2 (by simp [tLtOpt])
    | some y =>
      cases a with
      | none => exact absurd h1 (by simp [tLtOpt])
      | some x =>
        simp only [tLtOpt, decide_eq_false_iff_not] at h1 h2 ⊢
        intro hac
        rcases Date.lt_trichotomy_date x y with hxy | rfl | hyx
        · exact h1 hxy
        · exact h2 hac
        · exact h2 (date_lt_trans hyx hac)

lemma maxStep_some (b c : Candle) :
    maxStep (some b) c =
      if tLtOpt b.open_time c.open_time then some c else some b := rfl

lemma minStep_some (b c : Candle) :
    minStep (some b) c =
      if tLtOpt c.open_time b.open_time then some c else some b := rfl

/-- The maximum-stamp fold starting from a seed candle lands on a member
(or the seed) not strictly below any member or the seed. -/
lemma maxfold_go (L : List Candle) :
    ∀ b : Candle, ∃ r, L.foldl maxStep (some b) = some r ∧
      (r ∈ L ∨ r = b) ∧
      (∀ c ∈ L, tLtOpt r.open_time c.open_time = false) ∧
      tLtOpt r.open_time b.open_time = false := by
  induction L with
  | nil =>
    intro b
    exact ⟨b, rfl, Or.inr rfl, by simp, tLtOpt_self _⟩
  | cons c L ih =>
    intro b
    rw [List.foldl_cons]
    cases hbc : tLtOpt b.open_time c.open_time with
    | true =>
      rw [maxStep_some, if_pos hbc]
      obtain ⟨r, hr, hmem, hall, hrb⟩ := ih c
      refine ⟨r, hr, ?_, ?_, ?_⟩
      · rcases hmem with h | rfl
        · exact Or.inl (List.mem_cons_of_mem _ h)
        · exact Or.inl (List.mem_cons_self _ _)
      · intro x hx
        rcases List.mem_cons.mp hx with rfl | hx
        · exact hrb
        · exact hall x hx
      · cases hrbv : tLtOpt r.open_time b.open_time with
        | false => rfl
        | true => exact absurd (tLtOpt_trans hrbv hbc) (by simp [hrb])
    | false =>
      rw [maxStep_some, if_neg (by simp [hbc])]
      obtain ⟨r, hr, hmem, hall, hrb⟩ := ih b
      refine ⟨r, hr, ?_, ?_, hrb⟩
      · rcases hmem with h | rfl
        · exact Or.inl (List.mem_cons_of_mem _ h)
        · exact Or.inr rfl
      · intro x hx
        rcases List.mem_cons.mp hx with rfl | hx
        · exact tLtOpt_ge_trans hrb hbc
        · exact hall x hx

/-- What `get_last_candle` returns, when it returns a candle: a stored
candle of the interval, not strictly below any stored candle of the
interval. -/
lemma get_last_candle_spec {S : List Candle} {iv : ℤ} {lw : Candle}
    (h : get_last_candle S iv = some lw) :
    lw ∈ S ∧ lw.interval = iv ∧
      ∀ c ∈ S, c.interval = iv → tLtOpt lw.open_time c.open_time = false := by
  unfold get_last_candle at h
  cases hF : S.filter (fun c => decide (c.interval = iv)) with
  | nil => rw [hF] at h; exact absurd h (by simp)
  | cons c0 tl =>
    rw [hF, List.foldl_cons] at h
    obtain ⟨r, hr, hmem, hall, hrb⟩ := maxfold_go tl c0
    rw [show maxStep none c0 = some c0 from rfl, hr] at h
    have hrl : r = lw := by injection h
    rw [hrl] at hmem hall hrb
    have hlwf : lw ∈ S.filter (fun c => decide (c.interval = iv)) := by
      rw [hF]
      rcases hmem with hm | rfl
      · exact List.mem_cons_of_mem _ hm
      · exact List.mem_cons_self _ _
    have hp1 := List.mem_of_mem_filter hlwf
    have hp2 := List.of_mem_filter hlwf
    refine ⟨hp1, of_decide_eq_true hp2, ?_⟩
    intro c hc hci
    have hcf : c ∈ S.filter (fun x => decide (x.interval = iv)) :=
      List.mem_filter.mpr ⟨hc, decide_eq_true hci⟩
    rw [hF] at hcf
    rcases List.mem_cons.mp hcf with rfl | hm
    · exact hrb
    · exact hall c hm

/-- `get_last_candle` returns `None` only when the store has no candle of
the interval. -/
lemma get_last_candle_none {S : List Candle} {iv : ℤ}
    (h : get_last_candle S iv = none) : ∀ c ∈ S, c.interval ≠ iv := by
  unfold get_last_candle at h
  cases hF : S.filter (fun c => decide (c.interval = iv)) with
  | nil =>
    intro c hc hci
    have hcf : c ∈ S.filter (fun x => decide (x.interval = iv)) :=
      List.mem_filter.mpr ⟨hc, decide_eq_true hci⟩
    rw [hF] at hcf
    exact absurd hcf (List.not_mem_nil c)
  | cons c0 tl =>
    rw [hF, List.foldl_cons] at h
    obtain ⟨r, hr, _, _, _⟩ := maxfold_go tl c0
    rw [show maxStep none c0 = some c0 from rfl, hr] at h
    exact absurd h (by simp)

/-- The minimum-stamp fold lands on a member or its seed. -/
lemma minfold_go (L : List Candle) :
    ∀ b : Candle, ∃ r, L.foldl minStep (some b) = some r ∧
      (r ∈ L ∨ r = b) := by
  induction L with
  | nil => intro b; exact ⟨b, rfl, Or.inr rfl⟩
  | cons c L ih =>
    intro b
    rw [List.foldl_cons]
    cases hcb : tLtOpt c.open_time b.open_time with
    | true =>
      rw [minStep_some, if_pos hcb]
      obtain ⟨r, hr, hmem⟩ := ih c
      refine ⟨r, hr, ?_⟩
      rcases hmem with h | rfl
      · exact Or.inl (List.mem_cons_of_mem _ h)
      · exact Or.inl (List.mem_cons_self _ _)
    | false =>
      rw [minStep_some, if_neg (by simp [hcb])]
      obtain ⟨r, hr, hmem⟩ := ih b
      refine ⟨r, hr, ?_⟩
      rcases hmem with h | rfl
      · exact Or.inl (List.mem_cons_of_mem _ h)
      · exact Or.inr rfl

/-- What `get_first_candle` returns is a stored candle of the interval. -/
lemma get_first_candle_mem {S : List Candle} {iv : ℤ} {f : Candle}
    (h : get_first_candle S iv = some f) : f ∈ S ∧ f.interval = iv := by
  unfold get_first_candle at h
  cases hF : S.filter (fun c => decide (c.interval = iv)) with
  | nil => rw [hF] at h; exact absurd h (by simp)
  | cons c0 tl =>
    rw [hF, List.foldl_cons] at h
    obtain ⟨r, hr, hmem⟩ := minfold_go tl c0
    rw [show minStep none c0 = some c0 from rfl, hr] at h
    have hrl : r = f := by injection h
    rw [hrl] at hmem
    have hlwf : f ∈ S.filter (fun c => decide (c.interval = iv)) := by
      rw [hF]
      rcases hmem with hm | rfl
      · exact List.mem_cons_of_mem _ hm
      · exact List.mem_cons_self _ _
    have hp1 := List.mem_of_mem_filter hlwf
    have hp2 := List.of_mem_filter hlwf
    exact ⟨hp1, of_decide_eq_true hp2⟩

lemma filter_interval_nil {X : List Candle} {iv : ℤ}
    (h : ∀ c ∈ X, c.interval ≠ iv) :
    X.filter (fun c => decide (c.interval = iv)) = [] := by
  rw [List.filter_eq_nil_iff]
  intro c hc
  simp [h c hc]

/-- Appending candles of other intervals does not change
`get_last_candle`. -/
lemma get_last_candle_append_nil {X : List Candle} {iv : ℤ}
    (h : ∀ c ∈ X, c.interval ≠ iv) :
    ∀ S, get_last_candle (S ++ X) iv = get_last_candle S iv := by
  intro S
  unfold get_last_candle
  rw [List.filter_append, filter_interval_nil h, List.append_nil]

/-- Appending candles of other intervals does not change
`get_first_candle`. -/
lemma get_first_candle_append_nil {X : List Candle} {iv : ℤ}
    (h : ∀ c ∈ X, c.interval ≠ iv) :
    ∀ S, get_first_candle (S ++ X) iv = get_first_candle S iv := by
  intro S
  unfold get_first_candle
  rw [List.filter_append, filter_interval_nil h, List.append_nil]

lemma within_append (S X : List Candle) (iv : ℤ) (a b : Date) :
    get_asset_within (S ++ X) iv a b =
      get_asset_within S iv a b ++ get_asset_within X iv a b := by
  unfold get_asset_within
  rw [List.filter_append]

lemma within_nil_of {X : List Candle} {iv : ℤ}
    (h : ∀ c ∈ X, c.interval ≠ iv) (a b : Date) :
    get_asset_within X iv a b = [] := by
  unfold get_asset_within
  rw [List.filter_eq_nil_iff]
  intro c hc
  simp [h c hc]

/-- Appending candles of other intervals does not change the range
query. -/
lemma within_append_nil {X : List Candle} {iv : ℤ}
    (h : ∀ c ∈ X, c.interval ≠ iv) :
    ∀ (S : List Candle) (a b : Date),
      get_asset_within (S ++ X) iv a b = get_asset_within S iv a b := by
  intro S a b
  rw [within_append, within_nil_of h, List.append_nil]

/-- Appending non-daily candles does not change `get_daily_candle`. -/
lemma get_daily_candle_append_nil {X : List Candle}
    (h : ∀ c ∈ X, c.interval ≠ INTERVAL_DAY) :
    ∀ (S : List Candle) (dt : Date),
      get_daily_candle (S ++ X) dt = get_daily_candle S dt := by
  intro S dt
  unfold get_daily_candle
  rw [within_append_nil h]

/-- Membership in a range query: a stored candle of the interval with a
present stamp inside `[a, b)`. -/
lemma within_mem {S : List Candle} {iv : ℤ} {a b : Date} {c : Candle}
    (h : c ∈ get_asset_within S iv a b) :
    c ∈ S ∧ c.interval = iv ∧
      ∃ t, c.open_time = some t ∧ a.le t ∧ t.lt b := by
  unfold get_asset_within at h
  refine ⟨List.mem_of_mem_filter h, ?_⟩
  have hp := List.of_mem_filter h
  rw [Bool.and_eq_true] at hp
  obtain ⟨h1, h2⟩ := hp
  refine ⟨of_decide_eq_true h1, ?_⟩
  cases ht : c.open_time with
  | none => rw [ht] at h2; exact absurd h2 (by simp)
  | some t =>
    rw [ht] at h2
    rw [Bool.and_eq_true] at h2
    exact ⟨t, rfl, of_decide_eq_true h2.1, of_decide_eq_true h2.2⟩

/-- The converse: such a candle is in the query result. -/
lemma within_mem_of {S : List Candle} {iv : ℤ} {a b : Date} {c : Candle}
    {t : Date} (hc : c ∈ S) (hiv : c.interval = iv)
    (ht : c.open_time = some t) (h1 : a.le t) (h2 : t.lt b) :
    c ∈ get_asset_within S iv a b := by
  unfold get_asset_within
  refine List.mem_filter.mpr ⟨hc, ?_⟩
  rw [Bool.and_eq_true, ht]
  exact ⟨decide_eq_true hiv,
    by rw [Bool.and_eq_true]; exact ⟨decide_eq_true h1, decide_eq_true h2⟩⟩

/-- A one-day range `[dt, dt+1)` pins the stamp to `dt` itself (for
calendar-valid stamps). -/
lemma day_range_stamp {dt t : Date} (hdt : dt.Valid) (ht : t.Valid)
    (h1 : dt.le t) (h2 : t.lt dt.nextDay) : t = dt := by
  cases dt with
  | mk m d =>
    cases t with
    | mk tm td =>
      rw [Date.valid_mk] at hdt ht
      unfold Date.nextDay at h2
      unfold Date.le at h1
      have pm : ∀ A B : ℤ, (Date.mk A B).month = A := fun A B => rfl
      have pd : ∀ A B : ℤ, (Date.mk A B).day = B := fun A B => rfl
      by_cases hroll : d < daysInMonth m
      · rw [if_pos hroll] at h2
        unfold Date.lt at h2
        simp only [pm, pd] at h1 h2 hroll
        simp only [Date.mk.injEq]
        omega
      · rw [if_neg hroll] at h2
        unfold Date.lt at h2
        simp only [pm, pd] at h1 h2 hroll
        have hm : tm = m := by omega
        subst hm
        simp only [Date.mk.injEq]
        refine ⟨trivial, ?_⟩
        omega

/-- What `get_daily_candle` returns, when it returns a candle: a stored
daily candle stamped exactly on the requested date. -/
lemma get_daily_candle_stamp {S : List Candle} {dt : Date} {c : Candle}
    (hdt : dt.Valid)
    (hval : ∀ x ∈ S, ∀ t, x.open_time = some t → t.Valid)
    (h : get_daily_candle S dt = some c) :
    c ∈ S ∧ c.interval = INTERVAL_DAY ∧ c.open_time = some dt := by
  unfold get_daily_candle at h
  cases hw : get_asset_within S INTERVAL_DAY dt dt.nextDay with
  | nil => rw [hw] at h; exact absurd h (by simp)
  | cons a tl =>
    rw [hw] at h
    have hac : a = c := by injection h
    have hcm : c ∈ get_asset_within S INTERVAL_DAY dt dt.nextDay := by
      rw [hw, ← hac]; exact List.mem_cons_self _ _
    obtain ⟨h1, h2, t, h3, h4, h5⟩ := within_mem hcm
    have := day_range_stamp hdt (hval c h1 t h3) h4 h5
    subst this
    exact ⟨h1, h2, h3⟩

/-- Shifting a valid date by a nonnegative number of days rotates the
weekday. -/
lemma weekday_addDays {x : Date} (hx : x.Valid) {k : ℤ} (hk : 0 ≤ k) :
    (Date.addDays k x).weekday = (x.weekday + k) % 7 := by
  unfold Date.weekday
  rw [Date.addDays_ordinal hx hk]
  omega

lemma weekWindows_elapsed (today : Date) :
    ∀ fuel ws, ∀ w ∈ weekWindows today fuel ws,
      (Date.addDays 7 w).lt today := by
  intro fuel
  induction fuel with
  | zero => intro ws w hw; exact absurd hw (List.not_mem_nil w)
  | succ n ih =>
    intro ws w hw
    unfold weekWindows at hw
    by_cases hg : (Date.addDays 7 ws).lt today
    · rw [if_pos hg] at hw
      rcases List.mem_cons.mp hw with rfl | hw
      · exact hg
      · exact ih _ w hw
    · rw [if_neg hg] at hw
      exact absurd hw (List.not_mem_nil w)

lemma monthWindows_elapsed (today : Date) :
    ∀ fuel ms, ∀ w ∈ monthWindows today fuel ms,
      (Date.prevDay (Date.addMonths1 w)).lt today := by
  intro fuel
  induction fuel with
  | zero => intro ms w hw; exact absurd hw (List.not_mem_nil w)
  | succ n ih =>
    intro ms w hw
    unfold monthWindows at hw
    by_cases hg : (Date.prevDay (Date.addMonths1 ms)).lt today
    · rw [if_pos hg] at hw
      rcases List.mem_cons.mp hw with rfl | hw
      · exact hg
      · exact ih _ w hw
    · rw [if_neg hg] at hw
      exact absurd hw (List.not_mem_nil w)

lemma weeklyLoop_stop {S : List Candle} {today : Date} {ws : Date}
    (hg : ¬(Date.addDays 7 ws).lt today) (fuel : ℕ) :
    weeklyLoop S today (fuel + 1) ws = .ok [] := by
  unfold weeklyLoop
  rw [if_neg hg]

lemma weeklyLoop_step_ok {S : List Candle} {today : Date} {ws : Date}
    {fuel : ℕ} {agg : Candle} {rest : List Candle}
    (hg : (Date.addDays 7 ws).lt today)
    (ha : aggregate_candles INTERVAL_WEEK
      (get_asset_within S INTERVAL_DAY ws (Date.addDays 7 ws)) = .ok agg)
    (hr : weeklyLoop S today fuel (Date.addDays 7 ws) = .ok rest) :
    weeklyLoop S today (fuel + 1) ws = .ok (agg :: rest) := by
  unfold weeklyLoop
  rw [if_pos hg, ha, hr]

lemma weekWindows_pos {today ws : Date} {fuel : ℕ}
    (hg : (Date.addDays 7 ws).lt today) :
    weekWindows today (fuel + 1) ws =
      ws :: weekWindows today fuel (Date.addDays 7 ws) := by
  rw [show weekWindows today (fuel + 1) ws =
      if (Date.addDays 7 ws).lt today then
        ws :: weekWindows today fuel (Date.addDays 7 ws)
      else [] from rfl]
  rw [if_pos hg]

lemma weekWindows_neg {today ws : Date} {fuel : ℕ}
    (hg : ¬(Date.addDays 7 ws).lt today) :
    weekWindows today (fuel + 1) ws = [] := by
  unfold weekWindows
  rw [if_neg hg]

lemma monthlyLoop_stop {S : List Candle} {today : Date} {ms : Date}
    (hg : ¬(Date.prevDay (Date.addMonths1 ms)).lt today) (fuel : ℕ) :
    monthlyLoop S today (fuel + 1) ms = .ok [] := by
  unfold monthlyLoop
  rw [if_neg hg]

lemma monthlyLoop_step_ok {S : List Candle} {today : Date} {ms : Date}
    {fuel : ℕ} {agg : Candle} {rest : List Candle}
    (hg : (Date.prevDay (Date.addMonths1 ms)).lt today)
    (ha : aggregate_candles INTERVAL_MONTH
      (get_asset_within S INTERVAL_DAY ms
        (Date.prevDay (Date.addMonths1 ms))) = .ok agg)
    (hr : monthlyLoop S today fuel (Date.addMonths1 ms) = .ok rest) :
    monthlyLoop S today (fuel + 1) ms = .ok (agg :: rest) := by
  unfold monthlyLoop
  rw [if_pos hg, ha, hr]

lemma monthWindows_pos {today ms : Date} {fuel : ℕ}
    (hg : (Date.prevDay (Date.addMonths1 ms)).lt today) :
    monthWindows today (fuel + 1) ms =
      ms :: monthWindows today fuel (Date.addMonths1 ms) := by
  rw [show monthWindows today (fuel + 1) ms =
      if (Date.prevDay (Date.addMonths1 ms)).lt today then
        ms :: monthWindows today fuel (Date.addMonths1 ms)
      else [] from rfl]
  rw [if_pos hg]

lemma monthWindows_neg {today ms : Date} {fuel : ℕ}
    (hg : ¬(Date.prevDay (Date.addMonths1 ms)).lt today) :
    monthWindows today (fuel + 1) ms = [] := by
  unfold monthWindows
  rw [if_neg hg]

lemma le_addDays {x : Date} (hx : x.Valid) {k : ℤ} (hk : 0 ≤ k) :
    x.le (Date.addDays k x) :=
  (Date.le_iff_ordinal_le hx (Date.addDays_valid hx k)).mpr
    (by rw [Date.addDays_ordinal hx hk]; omega)

/-- `+ relativedelta(months=1)` on a first-of-month. -/
lemma addMonths1_first (M : ℤ) :
    Date.addMonths1 ⟨M, 1⟩ = ⟨M + 1, 1⟩ := by
  show (⟨M + 1, min 1 (daysInMonth (M + 1))⟩ : Date) = ⟨M + 1, 1⟩
  rw [Date.mk.injEq]
  have := (daysInMonth_bounds (M + 1)).1
  omega

/-- `- timedelta(days=1)` on a first-of-month: the last day of the
preceding month. -/
lemma prevDay_first (M : ℤ) :
    Date.prevDay ⟨M + 1, 1⟩ = ⟨M, daysInMonth M⟩ := by
  unfold Date.prevDay
  rw [if_neg (by norm_num : ¬(1 : ℤ) < 1)]
  show (⟨M + 1 - 1, daysInMonth (M + 1 - 1)⟩ : Date) = _
  rw [show M + 1 - 1 = M from by omega]

/-- A stamp inside a month window `[⟨M,1⟩, ⟨M, len M⟩)` lies in month
`M`. -/
lemma month_window_stamp {M : ℤ} {t : Date}
    (h1 : (⟨M, 1⟩ : Date).le t) (h2 : t.lt ⟨M, daysInMonth M⟩) :
    t.month = M := by
  cases t with
  | mk tm td =>
    unfold Date.le at h1
    unfold Date.lt at h2
    have pm : ∀ A B : ℤ, (Date.mk A B).month = A := fun A B => rfl
    have pd : ∀ A B : ℤ, (Date.mk A B).day = B := fun A B => rfl
    simp only [pm, pd] at h1 h2 ⊢
    omega

/-- The `while week_end < today` loop, fully characterized on a
well-formed store under the proviso that every processed window holds at
least one market-open daily bar: it terminates without raising, produces
exactly one aggregate per elapsed Monday-aligned window (in order), every
aggregate is week-tagged and stamped inside `[ws, today)` with strictly
increasing stamps, and a non-empty batch ends with a candle stamped in
the final processed window `[wsP, wsP + 7)`, the loop stopping right
after at `wsP + 7`. -/
lemma weeklyLoop_spec (S : List Candle) (today : Date) (htoday : today.Valid)
    (hwf : ∀ c ∈ S, c.interval = INTERVAL_DAY → wfMember c)
    (hval : ∀ c ∈ S, ∀ t, c.open_time = some t → t.Valid) :
    ∀ (fuel : ℕ) (ws : Date), ws.Valid → 0 < fuel →
      today.ordinal - ws.ordinal < (fuel : ℤ) →
      (∀ w ∈ weekWindows today fuel ws, ∃ c ∈ S,
        c.interval = INTERVAL_DAY ∧ c.open_ ≠ none ∧
        ∃ t, c.open_time = some t ∧ w.le t ∧ t.lt (Date.addDays 7 w)) →
      ∃ cs, weeklyLoop S today fuel ws = .ok cs ∧
        List.Forall₂ (fun w c =>
          aggregate_candles INTERVAL_WEEK
            (get_asset_within S INTERVAL_DAY w (Date.addDays 7 w)) = .ok c)
          (weekWindows today fuel ws) cs ∧
        (∀ c ∈ cs, c.interval = INTERVAL_WEEK ∧
          ∃ t, c.open_time = some t ∧ t.Valid ∧ ws.le t ∧ t.lt today) ∧
        cs.Pairwise (fun a b => ∀ ta tb, a.open_time = some ta →
          b.open_time = some tb → ta.lt tb) ∧
        ((cs = [] ∧ ¬(Date.addDays 7 ws).lt today) ∨
         (∃ front cK tK wsP, cs = front ++ [cK] ∧
           cK.open_time = some tK ∧ tK.Valid ∧ wsP.Valid ∧
           wsP.weekday = ws.weekday ∧ ws.ordinal ≤ wsP.ordinal ∧
           wsP.le tK ∧ tK.lt (Date.addDays 7 wsP) ∧
           ¬(Date.addDays 7 (Date.addDays 7 wsP)).lt today ∧
           (∀ x ∈ front, ∀ tx, x.open_time = some tx → tx.lt wsP))) := by
  intro fuel
  induction fuel with
  | zero => intro ws _ hpos _ _; exact absurd hpos (lt_irrefl 0)
  | succ n ih =>
    intro ws hwsv _ hfuel hpro
    by_cases hg : (Date.addDays 7 ws).lt today
    case neg =>
      refine ⟨[], weeklyLoop_stop hg n, ?_, ?_, List.Pairwise.nil,
        Or.inl ⟨rfl, hg⟩⟩
      · rw [weekWindows_neg hg]
        exact List.Forall₂.nil
      · intro c hc
        exact absurd hc (List.not_mem_nil c)
    case pos =>
      have hws'v := Date.addDays_valid hwsv (7 : ℤ)
      have hordg : ws.ordinal + 7 < today.ordinal := by
        have h := (Date.lt_iff_ordinal_lt hws'v htoday).mp hg
        rwa [Date.addDays_ordinal hwsv (by norm_num)] at h
      have hw0 : ws ∈ weekWindows today (n + 1) ws := by
        rw [weekWindows_pos hg]
        exact List.mem_cons_self _ _
      obtain ⟨c0, hc0S, hc0iv, hc0real, t0, hc0t, hc0ge, hc0lt⟩ :=
        hpro ws hw0
      have hWwf : ∀ c ∈ get_asset_within S INTERVAL_DAY ws
          (Date.addDays 7 ws), wfMember c := by
        intro c hc
        obtain ⟨hcS, hciv, _⟩ := within_mem hc
        exact hwf c hcS hciv
      obtain ⟨s, hsfold, hinv, haggeq⟩ :=
        aggregate_ok INTERVAL_WEEK _ hWwf
      have hc0W : c0 ∈ get_asset_within S INTERVAL_DAY ws
          (Date.addDays 7 ws) := within_mem_of hc0S hc0iv hc0t hc0ge hc0lt
      have hc0R : c0 ∈ reals (get_asset_within S INTERVAL_DAY ws
          (Date.addDays 7 ws)) := by
        unfold reals
        exact List.mem_filter.mpr
          ⟨hc0W, by simp [Option.isSome_iff_ne_none, hc0real]⟩
      obtain ⟨hvol, hcase⟩ := hinv
      rcases hcase with ⟨hR, _⟩ | ⟨_, _, _, hopen, _⟩
      · exact absurd hR (List.ne_nil_of_mem hc0R)
      obtain ⟨cm, hcmR, tm, hcmt, hopeq, hoseq, hmin⟩ := hopen
      have hcmW := List.mem_of_mem_filter hcmR
      obtain ⟨hcmS, hcmiv, t', ht', hge', hlt'⟩ := within_mem hcmW
      have he : t' = tm := by
        rw [ht'] at hcmt
        injection hcmt
      rw [he] at ht' hge' hlt'
      have htmv : tm.Valid := hval cm hcmS tm ht'
      generalize hagg : (⟨s.open_price, s.high_price, s.low_price,
        s.close_price, if s.volume = 0 then none else some s.volume,
        s.open_stamp, INTERVAL_WEEK⟩ : Candle) = agg at haggeq
      have haggt : agg.open_time = some tm := by
        rw [← hagg]
        exact hoseq
      have haggiv : agg.interval = INTERVAL_WEEK := by
        rw [← hagg]
      have hfr : today.ordinal - (Date.addDays 7 ws).ordinal < (n : ℤ) := by
        rw [Date.addDays_ordinal hwsv (by norm_num)]
        push_cast at hfuel ⊢
        omega
      have hnpos : 0 < n := by
        by_contra hn0
        push_cast at hfuel
        omega
      have hpro' : ∀ w ∈ weekWindows today n (Date.addDays 7 ws),
          ∃ c ∈ S, c.interval = INTERVAL_DAY ∧ c.open_ ≠ none ∧
            ∃ t, c.open_time = some t ∧ w.le t ∧
              t.lt (Date.addDays 7 w) := by
        intro w hw
        apply hpro
        rw [weekWindows_pos hg]
        exact List.mem_cons_of_mem _ hw
      obtain ⟨rest, hrest, hF2, hmem, hpw, hlast⟩ :=
        ih (Date.addDays 7 ws) hws'v hnpos hfr hpro'
      have hwsle : ws.le (Date.addDays 7 ws) :=
        le_addDays hwsv (by norm_num)
      have htmlt : tm.lt today := date_lt_trans hlt' hg
      refine ⟨agg :: rest, weeklyLoop_step_ok hg haggeq hrest, ?_, ?_, ?_, ?_⟩
      · rw [weekWindows_pos hg]
        exact List.Forall₂.cons haggeq hF2
      · intro c hc
        rcases List.mem_cons.mp hc with rfl | hc
        · exact ⟨haggiv, tm, haggt, htmv, hge', htmlt⟩
        · obtain ⟨hciv, t, ht1, ht2, ht3, ht4⟩ := hmem c hc
          exact ⟨hciv, t, ht1, ht2, Date.le_trans_date hwsle ht3, ht4⟩
      · refine List.Pairwise.cons ?_ hpw
        intro b hb ta tb hta htb
        have hta' : tm = ta := by
          rw [haggt] at hta
          injection hta
        obtain ⟨_, t, ht1, _, ht3, _⟩ := hmem b hb
        have htb' : t = tb := by
          rw [ht1] at htb
          injection htb
        rw [← hta', ← htb']
        exact Date.lt_of_lt_of_le_date hlt' ht3
      · rcases hlast with ⟨hrnil, hstop⟩ | ⟨front, cK, tK, wsP, hsplit,
          hcKt, htKv, hwsPv, hwd, hord, hle1, hlt1, hstop, hfront⟩
        · subst hrnil
          refine Or.inr ⟨[], agg, tm, ws, rfl, haggt, htmv, hwsv, rfl,
            le_refl _, hge', hlt', hstop, ?_⟩
          intro x hx
          exact absurd hx (List.not_mem_nil x)
        · have hwd7 : (Date.addDays 7 ws).weekday = ws.weekday := by
            rw [weekday_addDays hwsv (by norm_num)]
            unfold Date.weekday
            omega
          have hordP7 : ws.ordinal + 7 ≤ wsP.ordinal := by
            have h := hord
            rwa [Date.addDays_ordinal hwsv (by norm_num)] at h
          refine Or.inr ⟨agg :: front, cK, tK, wsP, by simp [hsplit], hcKt,
            htKv, hwsPv, by rw [hwd, hwd7], by omega, hle1, hlt1, hstop, ?_⟩
          intro x hx
          rcases List.mem_cons.mp hx with rfl | hx
          · intro tx htx
            have htx' : tm = tx := by
              rw [haggt] at htx
              injection htx
            rw [← htx']
            rw [Date.lt_iff_ordinal_lt htmv hwsPv]
            have h1 := (Date.lt_iff_ordinal_lt htmv hws'v).mp hlt'
            rw [Date.addDays_ordinal hwsv (by norm_num)] at h1
            omega
          · exact hfront x hx

/-- The `while month_end < today` loop, characterized like the weekly
one.  The month start is a first-of-month `⟨M, 1⟩`; each window is
`[⟨M,1⟩, ⟨M, len M⟩)` — the month's last day is excluded, because the
query's `finish` bound is exclusive — and a non-empty batch ends with a
candle stamped in the final processed month `MP`, the loop stopping at
`⟨MP + 1, 1⟩`. -/
lemma monthlyLoop_spec (S : List Candle) (today : Date)
    (htoday : today.Valid)
    (hwf : ∀ c ∈ S, c.interval = INTERVAL_DAY → wfMember c)
    (hval : ∀ c ∈ S, ∀ t, c.open_time = some t → t.Valid) :
    ∀ (fuel : ℕ) (M : ℤ), 0 < fuel →
      today.ordinal - (⟨M, 1⟩ : Date).ordinal < (fuel : ℤ) →
      (∀ w ∈ monthWindows today fuel ⟨M, 1⟩, ∃ c ∈ S,
        c.interval = INTERVAL_DAY ∧ c.open_ ≠ none ∧
        ∃ t, c.open_time = some t ∧ w.le t ∧
          t.lt (Date.prevDay (Date.addMonths1 w))) →
      ∃ cs, monthlyLoop S today fuel ⟨M, 1⟩ = .ok cs ∧
        List.Forall₂ (fun w c =>
          aggregate_candles INTERVAL_MONTH
            (get_asset_within S INTERVAL_DAY w
              (Date.prevDay (Date.addMonths1 w))) = .ok c)
          (monthWindows today fuel ⟨M, 1⟩) cs ∧
        (∀ c ∈ cs, c.interval = INTERVAL_MONTH ∧
          ∃ t, c.open_time = some t ∧ t.Valid ∧
            (⟨M, 1⟩ : Date).le t ∧ t.lt today) ∧
        cs.Pairwise (fun a b => ∀ ta tb, a.open_time = some ta →
          b.open_time = some tb → ta.lt tb) ∧
        ((cs = [] ∧
            ¬(Date.prevDay (Date.addMonths1 ⟨M, 1⟩)).lt today) ∨
         (∃ front cK tK MP, cs = front ++ [cK] ∧
           cK.open_time = some tK ∧ tK.Valid ∧ M ≤ MP ∧
           tK.month = MP ∧
           ¬(Date.prevDay (Date.addMonths1 ⟨MP + 1, 1⟩)).lt today ∧
           (∀ x ∈ front, ∀ tx, x.open_time = some tx →
             tx.lt ⟨MP, 1⟩))) := by
  intro fuel
  induction fuel with
  | zero => intro M hpos _ _; exact absurd hpos (lt_irrefl 0)
  | succ n ih =>
    intro M _ hfuel hpro
    have hmsv : (⟨M, 1⟩ : Date).Valid := by
      rw [Date.valid_mk]
      have := (daysInMonth_bounds M).1
      omega
    have hmev : (⟨M, daysInMonth M⟩ : Date).Valid := by
      rw [Date.valid_mk]
      have := (daysInMonth_bounds M).1
      omega
    have hme : Date.prevDay (Date.addMonths1 ⟨M, 1⟩) =
        ⟨M, daysInMonth M⟩ := by
      rw [addMonths1_first, prevDay_first]
    have hmeord : (⟨M, daysInMonth M⟩ : Date).ordinal =
        (⟨M, 1⟩ : Date).ordinal + daysInMonth M - 1 := by
      rw [Date.ordinal_mk, Date.ordinal_mk]
      omega
    by_cases hg : (Date.prevDay (Date.addMonths1 ⟨M, 1⟩)).lt today
    case neg =>
      refine ⟨[], monthlyLoop_stop hg n, ?_, ?_, List.Pairwise.nil,
        Or.inl ⟨rfl, hg⟩⟩
      · rw [monthWindows_neg hg]
        exact List.Forall₂.nil
      · intro c hc
        exact absurd hc (List.not_mem_nil c)
    case pos =>
      have hordg : (⟨M, 1⟩ : Date).ordinal + daysInMonth M - 1 <
          today.ordinal := by
        rw [hme] at hg
        have h := (Date.lt_iff_ordinal_lt hmev htoday).mp hg
        omega
      have hw0 : (⟨M, 1⟩ : Date) ∈ monthWindows today (n + 1) ⟨M, 1⟩ := by
        rw [monthWindows_pos hg]
        exact List.mem_cons_self _ _
      obtain ⟨c0, hc0S, hc0iv, hc0real, t0, hc0t, hc0ge, hc0lt⟩ :=
        hpro _ hw0
      have hWwf : ∀ c ∈ get_asset_within S INTERVAL_DAY ⟨M, 1⟩
          (Date.prevDay (Date.addMonths1 ⟨M, 1⟩)), wfMember c := by
        intro c hc
        obtain ⟨hcS, hciv, _⟩ := within_mem hc
        exact hwf c hcS hciv
      obtain ⟨s, hsfold, hinv, haggeq⟩ :=
        aggregate_ok INTERVAL_MONTH _ hWwf
      have hc0W : c0 ∈ get_asset_within S INTERVAL_DAY ⟨M, 1⟩
          (Date.prevDay (Date.addMonths1 ⟨M, 1⟩)) :=
        within_mem_of hc0S hc0iv hc0t hc0ge hc0lt
      have hc0R : c0 ∈ reals (get_asset_within S INTERVAL_DAY ⟨M, 1⟩
          (Date.prevDay (Date.addMonths1 ⟨M, 1⟩))) := by
        unfold reals
        exact List.mem_filter.mpr
          ⟨hc0W, by simp [Option.isSome_iff_ne_none, hc0real]⟩
      obtain ⟨hvol, hcase⟩ := hinv
      rcases hcase with ⟨hR, _⟩ | ⟨_, _, _, hopen, _⟩
      · exact absurd hR (List.ne_nil_of_mem hc0R)
      obtain ⟨cm, hcmR, tm, hcmt, hopeq, hoseq, hmin⟩ := hopen
      have hcmW := List.mem_of_mem_filter hcmR
      obtain ⟨hcmS, hcmiv, t', ht', hge', hlt'⟩ := within_mem hcmW
      have he : t' = tm := by
        rw [ht'] at hcmt
        injection hcmt
      rw [he] at ht' hge' hlt'
      have htmv : tm.Valid := hval cm hcmS tm ht'
      generalize hagg : (⟨s.open_price, s.high_price, s.low_price,
        s.close_price, if s.volume = 0 then none else some s.volume,
        s.open_stamp, INTERVAL_MONTH⟩ : Candle) = agg at haggeq
      have haggt : agg.open_time = some tm := by
        rw [← hagg]
        exact hoseq
      have haggiv : agg.interval = INTERVAL_MONTH := by
        rw [← hagg]
      rw [hme] at hlt'
      have htmM : tm.month = M := month_window_stamp hge' hlt'
      have hdimb := daysInMonth_bounds M
      have hordsucc := Date.ordFirst_succ M
      have hfr : today.ordinal - (⟨M + 1, 1⟩ : Date).ordinal < (n : ℤ) := by
        push_cast at hfuel ⊢
        omega
      have hnpos : 0 < n := by
        by_contra hn0
        push_cast at hfuel
        omega
      have hpro' : ∀ w ∈ monthWindows today n ⟨M + 1, 1⟩,
          ∃ c ∈ S, c.interval = INTERVAL_DAY ∧ c.open_ ≠ none ∧
            ∃ t, c.open_time = some t ∧ w.le t ∧
              t.lt (Date.prevDay (Date.addMonths1 w)) := by
        intro w hw
        apply hpro
        rw [monthWindows_pos hg, addMonths1_first]
        exact List.mem_cons_of_mem _ hw
      obtain ⟨rest, hrest, hF2, hmem, hpw, hlast⟩ := ih (M + 1) hnpos hfr hpro'
      rw [← addMonths1_first] at hrest
      have hmsle : (⟨M, 1⟩ : Date).le ⟨M + 1, 1⟩ := Or.inl (by
        show M < M + 1
        omega)
      have htmlt : tm.lt today := date_lt_trans hlt' (hme ▸ hg)
      have htmlt1 : tm.lt ⟨M + 1, 1⟩ := Or.inl (by
        rw [htmM]
        show M < M + 1
        omega)
      refine ⟨agg :: rest, monthlyLoop_step_ok hg haggeq hrest, ?_, ?_, ?_, ?_⟩
      · rw [monthWindows_pos hg, addMonths1_first]
        exact List.Forall₂.cons haggeq hF2
      · intro c hc
        rcases List.mem_cons.mp hc with rfl | hc
        · exact ⟨haggiv, tm, haggt, htmv, hge', htmlt⟩
        · obtain ⟨hciv, t, ht1, ht2, ht3, ht4⟩ := hmem c hc
          exact ⟨hciv, t, ht1, ht2, Date.le_trans_date hmsle ht3, ht4⟩
      · refine List.Pairwise.cons ?_ hpw
        intro b hb ta tb hta htb
        have hta' : tm = ta := by
          rw [haggt] at hta
          injection hta
        obtain ⟨_, t, ht1, _, ht3, _⟩ := hmem b hb
        have htb' : t = tb := by
          rw [ht1] at htb
          injection htb
        rw [← hta', ← htb']
        exact Date.lt_of_lt_of_le_date htmlt1 ht3
      · rcases hlast with ⟨hrnil, hstop⟩ | ⟨front, cK, tK, MP, hsplit,
          hcKt, htKv, hMP, htKM, hstop, hfront⟩
        · subst hrnil
          refine Or.inr ⟨[], agg, tm, M, rfl, haggt, htmv, le_refl _, htmM,
            hstop, ?_⟩
          intro x hx
          exact absurd hx (List.not_mem_nil x)
        · refine Or.inr ⟨agg :: front, cK, tK, MP, by simp [hsplit], hcKt,
            htKv, by omega, htKM, hstop, ?_⟩
          intro x hx
          rcases List.mem_cons.mp hx with rfl | hx
          · intro tx htx
            have htx' : tm = tx := by
              rw [haggt] at htx
              injection htx
            rw [← htx']
            exact Or.inl (show tm.month < MP by omega)
          · exact hfront x hx

lemma date_le_lt_trans {a b c : Date} (h1 : a.le b) (h2 : b.lt c) :
    a.lt c := by
  unfold Date.le at h1
  unfold Date.lt at h2 ⊢
  omega

/-- The weekday of any date is in `[0, 7)`. -/
lemma weekday_bounds (t : Date) : 0 ≤ t.weekday ∧ t.weekday < 7 := by
  unfold Date.weekday
  omega

/-- What a successful `weekly_start` returns: a calendar-valid Monday;
and if a last weekly candle existed, the result lies strictly after its
stamp. -/
lemma weekly_start_cases {S : List Candle} {ws : Date}
    (hval : ∀ c ∈ S, ∀ t, c.open_time = some t → t.Valid)
    (h : weekly_start S = .ok (some ws)) :
    ws.Valid ∧ ws.weekday = 0 ∧
      (get_last_candle S INTERVAL_WEEK = none ∨
       ∃ lw T, get_last_candle S INTERVAL_WEEK = some lw ∧
         lw.open_time = some T ∧ T.lt ws) := by
  unfold weekly_start at h
  split at h
  case h_1 hlw =>
    split at h
    case h_1 hf => simp at h
    case h_2 f hf =>
      split at h
      case h_1 hft => simp at h
      case h_2 t hft =>
        have htv : t.Valid := hval f (get_first_candle_mem hf).1 t hft
        have hb := weekday_bounds t
        split at h
        case isTrue hwd =>
          split at h
          case h_1 hd => simp at h
          case h_2 f2 hd =>
            split at h
            case h_1 hf2t => simp at h
            case h_2 t2 hf2t =>
              simp only [Except.ok.injEq, Option.some.injEq] at h
              have hq : (Date.addDays (7 - t.weekday) t).Valid :=
                Date.addDays_valid htv _
              obtain ⟨_, _, hstamp⟩ := get_daily_candle_stamp hq hval hd
              rw [hf2t] at hstamp
              have h2 : t2 = Date.addDays (7 - t.weekday) t := by
                injection hstamp
              have hws : ws = Date.addDays (7 - t.weekday) t := by
                rw [← h, h2]
              subst hws
              refine ⟨hq, ?_, Or.inl hlw⟩
              rw [weekday_addDays htv (by omega)]
              omega
        case isFalse hwd =>
          push_neg at hwd
          simp only [Except.ok.injEq, Option.some.injEq] at h
          subst h
          exact ⟨htv, hwd, Or.inl hlw⟩
  case h_2 lw hlw =>
    split at h
    case h_1 hT => simp at h
    case h_2 T hT =>
      have hTv : T.Valid := hval lw (get_last_candle_spec hlw).1 T hT
      have hb := weekday_bounds T
      split at h
      case isTrue hwd =>
        simp only [Except.ok.injEq, Option.some.injEq] at h
        subst h
        refine ⟨Date.addDays_valid hTv _, ?_, Or.inr ⟨lw, T, hlw, hT, ?_⟩⟩
        · rw [weekday_addDays hTv (by omega)]
          omega
        · rw [Date.lt_iff_ordinal_lt hTv (Date.addDays_valid hTv _),
            Date.addDays_ordinal hTv (by omega)]
          omega
      case isFalse hwd =>
        push_neg at hwd
        simp only [Except.ok.injEq, Option.some.injEq] at h
        subst h
        refine ⟨Date.addDays_valid hTv _, ?_, Or.inr ⟨lw, T, hlw, hT, ?_⟩⟩
        · rw [weekday_addDays hTv (by norm_num)]
          omega
        · rw [Date.lt_iff_ordinal_lt hTv (Date.addDays_valid hTv _),
            Date.addDays_ordinal hTv (by norm_num)]
          omega

/-- What a successful `monthly_start` returns: a first-of-month; and if
a last monthly candle existed, the result lies strictly after its
stamp. -/
lemma monthly_start_cases {S : List Candle} {ms : Date}
    (hval : ∀ c ∈ S, ∀ t, c.open_time = some t → t.Valid)
    (h : monthly_start S = .ok (some ms)) :
    (∃ M, ms = ⟨M, 1⟩) ∧
      (get_last_candle S INTERVAL_MONTH = none ∨
       ∃ lm T, get_last_candle S INTERVAL_MONTH = some lm ∧
         lm.open_time = some T ∧ T.lt ms) := by
  unfold monthly_start at h
  split at h
  case h_1 hlm =>
    split at h
    case h_1 hf => simp at h
    case h_2 f hf =>
      split at h
      case h_1 hft => simp at h
      case h_2 t hft =>
        split at h
        case isTrue hwd =>
          split at h
          case h_1 hd => simp at h
          case h_2 f2 hd =>
            split at h
            case h_1 hf2t => simp at h
            case h_2 t2 hf2t =>
              simp only [Except.ok.injEq, Option.some.injEq] at h
              have hdt : Date.addMonths1 t.replaceDay1 =
                  (⟨t.month + 1, 1⟩ : Date) := by
                rw [show Date.replaceDay1 t = (⟨t.month, 1⟩ : Date) from rfl,
                  addMonths1_first]
              have hqv : (Date.addMonths1 t.replaceDay1).Valid := by
                rw [hdt, Date.valid_mk]
                have := (daysInMonth_bounds (t.month + 1)).1
                omega
              obtain ⟨_, _, hstamp⟩ := get_daily_candle_stamp hqv hval hd
              rw [hf2t] at hstamp
              have h2 : t2 = Date.addMonths1 t.replaceDay1 := by
                injection hstamp
              refine ⟨⟨t.month + 1, ?_⟩, Or.inl hlm⟩
              rw [← h, h2, hdt]
        case isFalse hwd =>
          push_neg at hwd
          simp only [Except.ok.injEq, Option.some.injEq] at h
          refine ⟨⟨t.month, ?_⟩, Or.inl hlm⟩
          rw [← h]
          cases t with
          | mk a b =>
            rw [Date.mk.injEq]
            exact ⟨rfl, hwd⟩
  case h_2 lm hlm =>
    split at h
    case h_1 hT => simp at h
    case h_2 T hT =>
      simp only [Except.ok.injEq, Option.some.injEq] at h
      have hdt : Date.addMonths1 T.replaceDay1 =
          (⟨T.month + 1, 1⟩ : Date) := by
        rw [show Date.replaceDay1 T = (⟨T.month, 1⟩ : Date) from rfl,
          addMonths1_first]
      refine ⟨⟨T.month + 1, by rw [← h, hdt]⟩,
        Or.inr ⟨lm, T, hlm, hT, ?_⟩⟩
      rw [← h, hdt]
      exact Or.inl (show T.month < T.month + 1 by omega)

/-- `weekly_start` when a last weekly candle exists whose stamp sits in
the Monday week `[wsP, wsP + 7)`: the next week start is `wsP + 7`,
whether or not the stamp is itself a Monday. -/
lemma weekly_start_next {S : List Candle} {cK : Candle} {tK wsP : Date}
    (hlast : get_last_candle S INTERVAL_WEEK = some cK)
    (ht : cK.open_time = some tK) (htv : tK.Valid) (hwsv : wsP.Valid)
    (hmon : wsP.weekday = 0) (h1 : wsP.le tK)
    (h2 : tK.lt (Date.addDays 7 wsP)) :
    weekly_start S = .ok (some (Date.addDays 7 wsP)) := by
  have hord1 : wsP.ordinal ≤ tK.ordinal :=
    (Date.le_iff_ordinal_le hwsv htv).mp h1
  have hord2 : tK.ordinal < wsP.ordinal + 7 := by
    have h := (Date.lt_iff_ordinal_lt htv (Date.addDays_valid hwsv 7)).mp h2
    rwa [Date.addDays_ordinal hwsv (by norm_num)] at h
  have hnm := Date.next_monday_eq hwsv htv hmon hord1 hord2
  unfold weekly_start
  rw [hlast]
  show (match cK.open_time with
    | none => Except.error ()
    | some T =>
      if T.weekday ≠ 0 then .ok (some (Date.addDays (7 - T.weekday) T))
      else .ok (some (Date.addDays 7 T))) = _
  rw [ht]
  show (if tK.weekday ≠ 0 then
      (Except.ok (some (Date.addDays (7 - tK.weekday) tK)) :
        Except Unit (Option Date))
    else .ok (some (Date.addDays 7 tK))) = _
  by_cases hwd : tK.weekday ≠ 0
  · rw [if_pos hwd, hnm.1]
  · rw [if_neg hwd]
    push_neg at hwd
    rw [hnm.2 hwd]

/-- `monthly_start` when a last monthly candle exists stamped in month
`MP`: the next month start is `⟨MP + 1, 1⟩`. -/
lemma monthly_start_next {S : List Candle} {cK : Candle} {tK : Date}
    {MP : ℤ} (hlast : get_last_candle S INTERVAL_MONTH = some cK)
    (ht : cK.open_time = some tK) (hM : tK.month = MP) :
    monthly_start S = .ok (some ⟨MP + 1, 1⟩) := by
  unfold monthly_start
  rw [hlast]
  show (match cK.open_time with
    | none => Except.error ()
    | some T => .ok (some (Date.addMonths1 T.replaceDay1))) = _
  rw [ht]
  show (Except.ok (some (Date.addMonths1 tK.replaceDay1)) :
    Except Unit (Option Date)) = _
  rw [show Date.replaceDay1 tK = (⟨tK.month, 1⟩ : Date) from rfl, hM,
    addMonths1_first]

/-- Folding `maxStep` over candles that all sit strictly below a stamp
keeps the accumulator strictly below that stamp. -/
lemma fold_max_top {tK : Date} :
    ∀ (L : List Candle) (acc : Option Candle),
      (∀ x ∈ L, tLtOpt x.open_time (some tK) = true) →
      (acc = none ∨ ∃ b, acc = some b ∧
        tLtOpt b.open_time (some tK) = true) →
      (L.foldl maxStep acc = none ∨ ∃ b, L.foldl maxStep acc = some b ∧
        tLtOpt b.open_time (some tK) = true) := by
  intro L
  induction L with
  | nil => intro acc _ hacc; exact hacc
  | cons c L ih =>
    intro acc hall hacc
    rw [List.foldl_cons]
    refine ih _ (fun x hx => hall x (List.mem_cons_of_mem _ hx)) ?_
    have hc := hall c (List.mem_cons_self _ _)
    rcases hacc with rfl | ⟨b, rfl, hb⟩
    · exact Or.inr ⟨c, rfl, hc⟩
    · rw [maxStep_some]
      by_cases hbc : tLtOpt b.open_time c.open_time = true
      · rw [if_pos hbc]
        exact Or.inr ⟨c, rfl, hc⟩
      · rw [if_neg hbc]
        exact Or.inr ⟨b, rfl, hb⟩

/-- When a batch ending in a candle stamped above everything else of its
interval is appended to the store, that candle becomes the last candle
of the interval. -/
lemma get_last_append_top {S front : List Candle} {cK : Candle}
    {tK : Date} {iv : ℤ}
    (hcKiv : cK.interval = iv) (ht : cK.open_time = some tK)
    (hS : ∀ x ∈ S, x.interval = iv → tLtOpt x.open_time (some tK) = true)
    (hfr : ∀ x ∈ front, x.interval = iv →
      tLtOpt x.open_time (some tK) = true) :
    get_last_candle (S ++ (front ++ [cK])) iv = some cK := by
  unfold get_last_candle
  rw [List.filter_append, List.filter_append]
  have hcKf : List.filter (fun c => decide (c.interval = iv)) [cK] =
      [cK] := by
    simp [hcKiv]
  rw [hcKf, ← List.append_assoc, List.foldl_append]
  have hbelow : ∀ x ∈ S.filter (fun c => decide (c.interval = iv)) ++
      front.filter (fun c => decide (c.interval = iv)),
      tLtOpt x.open_time (some tK) = true := by
    intro x hx
    rcases List.mem_append.mp hx with hx | hx
    · have hp := List.of_mem_filter hx
      exact hS x (List.mem_of_mem_filter hx) (of_decide_eq_true hp)
    · have hp := List.of_mem_filter hx
      exact hfr x (List.mem_of_mem_filter hx) (of_decide_eq_true hp)
  rcases fold_max_top _ none hbelow (Or.inl rfl) with hn | ⟨b, hb, hbt⟩
  · rw [hn]
    rfl
  · rw [hb, List.foldl_cons, List.foldl_nil, maxStep_some, ht, if_pos hbt]

/-- Inversion of `sync_asset_weekly`: either the start computation bailed
out, or the loop ran from the computed start. -/
lemma sync_weekly_inv {S : List Candle} {today : Date} {b : Bool} {n : ℕ}
    {ins : List Candle}
    (h : sync_asset_weekly S today = .ok (b, n, ins)) :
    (weekly_start S = .ok none ∧ b = false ∧ n = 0 ∧ ins = []) ∨
    (∃ ws, weekly_start S = .ok (some ws) ∧
      weeklyLoop S today ((today.ordinal - ws.ordinal).toNat + 1) ws =
        .ok ins ∧ b = true ∧ n = ins.length) := by
  unfold sync_asset_weekly at h
  split at h
  case h_1 => simp at h
  case h_2 hws =>
    simp only [Except.ok.injEq, Prod.mk.injEq] at h
    exact Or.inl ⟨hws, h.1.symm, h.2.1.symm, h.2.2.symm⟩
  case h_3 ws hws =>
    split at h
    case h_1 => simp at h
    case h_2 cs hlp =>
      simp only [Except.ok.injEq, Prod.mk.injEq] at h
      obtain ⟨hb, hn, hins⟩ := h
      subst hins
      exact Or.inr ⟨ws, hws, hlp, hb.symm, hn.symm⟩

/-- Inversion of `sync_asset_monthly`. -/
lemma sync_monthly_inv {S : List Candle} {today : Date} {b : Bool} {n : ℕ}
    {ins : List Candle}
    (h : sync_asset_monthly S today = .ok (b, n, ins)) :
    (monthly_start S = .ok none ∧ b = false ∧ n = 0 ∧ ins = []) ∨
    (∃ ms, monthly_start S = .ok (some ms) ∧
      monthlyLoop S today ((today.ordinal - ms.ordinal).toNat + 1) ms =
        .ok ins ∧ b = true ∧ n = ins.length) := by
  unfold sync_asset_monthly at h
  split at h
  case h_1 => simp at h
  case h_2 hms =>
    simp only [Except.ok.injEq, Prod.mk.injEq] at h
    exact Or.inl ⟨hms, h.1.symm, h.2.1.symm, h.2.2.symm⟩
  case h_3 ms hms =>
    split at h
    case h_1 => simp at h
    case h_2 cs hlp =>
      simp only [Except.ok.injEq, Prod.mk.injEq] at h
      obtain ⟨hb, hn, hins⟩ := h
      subst hins
      exact Or.inr ⟨ms, hms, hlp, hb.symm, hn.symm⟩

/-- A weekly sync whose start computation finds the last weekly candle
stamped inside the final already-covered Monday week inserts nothing
when the following week has not yet elapsed. -/
lemma sync_weekly_no_new {S2 : List Candle} {today : Date} {cK : Candle}
    {tK wsP : Date}
    (hlast : get_last_candle S2 INTERVAL_WEEK = some cK)
    (ht : cK.open_time = some tK) (htv : tK.Valid) (hwsv : wsP.Valid)
    (hmon : wsP.weekday = 0) (h1 : wsP.le tK)
    (h2 : tK.lt (Date.addDays 7 wsP))
    (hstop : ¬(Date.addDays 7 (Date.addDays 7 wsP)).lt today) :
    sync_asset_weekly S2 today = .ok (true, 0, []) := by
  unfold sync_asset_weekly
  rw [weekly_start_next hlast ht htv hwsv hmon h1 h2]
  show (match weeklyLoop S2 today _ (Date.addDays 7 wsP) with
    | .error e => Except.error e
    | .ok cs => .ok (true, cs.length, cs)) = _
  rw [weeklyLoop_stop hstop _]
  rfl

/-- A monthly sync whose start computation finds the last monthly candle
stamped in month `MP` inserts nothing when month `MP + 1` has not yet
elapsed. -/
lemma sync_monthly_no_new {S2 : List Candle} {today : Date} {cK : Candle}
    {tK : Date} {MP : ℤ}
    (hlast : get_last_candle S2 INTERVAL_MONTH = some cK)
    (ht : cK.open_time = some tK) (hM : tK.month = MP)
    (hstop : ¬(Date.prevDay (Date.addMonths1 ⟨MP + 1, 1⟩)).lt today) :
    sync_asset_monthly S2 today = .ok (true, 0, []) := by
  unfold sync_asset_monthly
  rw [monthly_start_next hlast ht hM]
  show (match monthlyLoop S2 today _ (⟨MP + 1, 1⟩ : Date) with
    | .error e => Except.error e
    | .ok cs => .ok (true, cs.length, cs)) = _
  rw [monthlyLoop_stop hstop _]
  rfl

/-- Appending candles of other intervals changes neither query behind
`weekly_start`. -/
lemma weekly_start_append_nil {X : List Candle}
    (hD : ∀ c ∈ X, c.interval ≠ INTERVAL_DAY)
    (hW : ∀ c ∈ X, c.interval ≠ INTERVAL_WEEK) (S : List Candle) :
    weekly_start (S ++ X) = weekly_start S := by
  unfold weekly_start
  rw [get_last_candle_append_nil hW, get_first_candle_append_nil hD]
  simp only [get_daily_candle_append_nil hD]

/-- Appending candles of other intervals changes neither query behind
`monthly_start`. -/
lemma monthly_start_append_nil {X : List Candle}
    (hD : ∀ c ∈ X, c.interval ≠ INTERVAL_DAY)
    (hM : ∀ c ∈ X, c.interval ≠ INTERVAL_MONTH) (S : List Candle) :
    monthly_start (S ++ X) = monthly_start S := by
  unfold monthly_start
  rw [get_last_candle_append_nil hM, get_first_candle_append_nil hD]
  simp only [get_daily_candle_append_nil hD]

/-- A weekly sync that starts at a week which has not yet elapsed
inserts nothing. -/
lemma sync_weekly_stop {S : List Candle} {today ws : Date}
    (hws : weekly_start S = .ok (some ws))
    (hstop : ¬(Date.addDays 7 ws).lt today) :
    sync_asset_weekly S today = .ok (true, 0, []) := by
  unfold sync_asset_weekly
  rw [hws]
  show (match weeklyLoop S today _ ws with
    | .error e => Except.error e
    | .ok cs => .ok (true, cs.length, cs)) = _
  rw [weeklyLoop_stop hstop _]
  rfl

/-- A weekly sync whose start computation bails out returns
`(False, 0)`. -/
lemma sync_weekly_none {S : List Candle} {today : Date}
    (hws : weekly_start S = .ok none) :
    sync_asset_weekly S today = .ok (false, 0, []) := by
  unfold sync_asset_weekly
  rw [hws]

/-- A monthly sync that starts at a month which has not yet elapsed
inserts nothing. -/
lemma sync_monthly_stop {S : List Candle} {today ms : Date}
    (hms : monthly_start S = .ok (some ms))
    (hstop : ¬(Date.prevDay (Date.addMonths1 ms)).lt today) :
    sync_asset_monthly S today = .ok (true, 0, []) := by
  unfold sync_asset_monthly
  rw [hms]
  show (match monthlyLoop S today _ ms with
    | .error e => Except.error e
    | .ok cs => .ok (true, cs.length, cs)) = _
  rw [monthlyLoop_stop hstop _]
  rfl

/-- A monthly sync whose start computation bails out returns
`(False, 0)`. -/
lemma sync_monthly_none {S : List Candle} {today : Date}
    (hms : monthly_start S = .ok none) :
    sync_asset_monthly S today = .ok (false, 0, []) := by
  unfold sync_asset_monthly
  rw [hms]

/-- Store well-formedness, as the daily pipeline maintains it: daily
candles have the filler shape (a present open comes with present low,
high, close and stamp), and every stored stamp is a calendar-valid
date. -/
def StoreWF (S : List Candle) : Prop :=
  ∀ c ∈ S, (c.interval = INTERVAL_DAY → wfMember c) ∧
    ∀ t, c.open_time = some t → t.Valid

instance (c : Candle) : Decidable (∀ t, c.open_time = some t → t.Valid) :=
  match hc : c.open_time with
  | none => isTrue (fun t ht => absurd ht (by simp))
  | some a =>
    if hv : a.Valid then
      isTrue (fun t ht => by
        have hat : a = t := by injection ht
        rwa [← hat])
    else isFalse (fun hall => hv (hall a rfl))

instance {p : Date → Prop} [∀ t, Decidable (p t)] :
    ∀ o : Option Date, Decidable (∃ t, o = some t ∧ p t)
  | none => isFalse (by rintro ⟨t, ht, _⟩; cases ht)
  | some a =>
    decidable_of_iff (p a)
      ⟨fun h => ⟨a, rfl, h⟩, fun ⟨t, ht, h⟩ => by
        have hat : a = t := by injection ht
        rwa [hat]⟩

lemma StoreWF_wf {S : List Candle} (h : StoreWF S) :
    ∀ c ∈ S, c.interval = INTERVAL_DAY → wfMember c :=
  fun c hc => (h c hc).1

lemma StoreWF_val {S : List Candle} (h : StoreWF S) :
    ∀ c ∈ S, ∀ t, c.open_time = some t → t.Valid :=
  fun c hc => (h c hc).2

lemma StoreWF_append {S X : List Candle} (hS : StoreWF S)
    (hX : StoreWF X) : StoreWF (S ++ X) := by
  intro c hc
  rcases List.mem_append.mp hc with hc | hc
  · exact hS c hc
  · exact hX c hc

/-- Open-time uniqueness per interval, read over all stored candles (the
claim as stated: "no two stored candles share the same open_time"). -/
def UniqueStamps (S : List Candle) (iv : ℤ) : Prop :=
  (S.filter (fun c => decide (c.interval = iv))).Pairwise
    (fun a b => a.open_time ≠ b.open_time)

/-- Open-time uniqueness per interval among candles with a present
stamp. -/
def UniqueStampsPresent (S : List Candle) (iv : ℤ) : Prop :=
  (S.filter (fun c => decide (c.interval = iv))).Pairwise
    (fun a b => a.open_time = none ∨ b.open_time = none ∨
      a.open_time ≠ b.open_time)

/-- One completed weekly sync, bundled: the inserted candles are
week-tagged with valid stamps before today, they pair off with the
elapsed Monday windows, and — the idempotence core — rerunning the
weekly sync after appending the batch plus any candles of other
intervals inserts nothing. -/
lemma weekly_sync_full (S : List Candle) (today : Date)
    (htoday : today.Valid) (hwfS : StoreWF S) {b : Bool} {n : ℕ}
    {insW : List Candle}
    (hrun : sync_asset_weekly S today = .ok (b, n, insW))
    (hpro : ∀ ws, weekly_start S = .ok (some ws) →
      ∀ w ∈ weekWindows today ((today.ordinal - ws.ordinal).toNat + 1) ws,
        ∃ c ∈ S, c.interval = INTERVAL_DAY ∧ c.open_ ≠ none ∧
          ∃ t, c.open_time = some t ∧ w.le t ∧ t.lt (Date.addDays 7 w)) :
    (∀ c ∈ insW, c.interval = INTERVAL_WEEK ∧
      ∃ t, c.open_time = some t ∧ t.Valid ∧ t.lt today) ∧
    (∀ ws, weekly_start S = .ok (some ws) →
      List.Forall₂ (fun w c => aggregate_candles INTERVAL_WEEK
          (get_asset_within S INTERVAL_DAY w (Date.addDays 7 w)) = .ok c)
        (weekWindows today ((today.ordinal - ws.ordinal).toNat + 1) ws)
        insW) ∧
    (∀ X : List Candle,
      (∀ c ∈ X, c.interval ≠ INTERVAL_DAY ∧ c.interval ≠ INTERVAL_WEEK) →
      ∃ b2, sync_asset_weekly (S ++ insW ++ X) today =
        .ok (b2, 0, [])) := by
  have hwf := StoreWF_wf hwfS
  have hval := StoreWF_val hwfS
  rcases sync_weekly_inv hrun with ⟨hws, _, _, hinsW⟩ |
    ⟨ws, hws, hloopW, _, _⟩
  · subst hinsW
    refine ⟨fun c hc => absurd hc (List.not_mem_nil c), ?_, ?_⟩
    · intro ws hws2
      rw [hws] at hws2
      exact absurd hws2 (by simp)
    · intro X hX
      refine ⟨false, ?_⟩
      simp only [List.append_nil]
      rw [sync_weekly_none]
      rw [weekly_start_append_nil (fun c hc => (hX c hc).1)
        (fun c hc => (hX c hc).2) S]
      exact hws
  · obtain ⟨hwsv, hmon, hdisj⟩ := weekly_start_cases hval hws
    obtain ⟨cs, hloop2, hF2, hmem, hpw, hlast⟩ :=
      weeklyLoop_spec S today htoday hwf hval _ ws hwsv (Nat.succ_pos _)
        (by omega) (hpro ws hws)
    rw [hloopW] at hloop2
    have hcs : insW = cs := by injection hloop2
    rw [← hcs] at hF2 hmem hpw hlast
    refine ⟨?_, ?_, ?_⟩
    · intro c hc
      obtain ⟨h1, t, h2, h3, _, h4⟩ := hmem c hc
      exact ⟨h1, t, h2, h3, h4⟩
    · intro ws2 hws2
      rw [hws] at hws2
      have e1 : (some ws : Option Date) = some ws2 := by injection hws2
      have e2 : ws = ws2 := by injection e1
      subst e2
      exact hF2
    · intro X hX
      have hXD : ∀ c ∈ X, c.interval ≠ INTERVAL_DAY :=
        fun c hc => (hX c hc).1
      have hXW : ∀ c ∈ X, c.interval ≠ INTERVAL_WEEK :=
        fun c hc => (hX c hc).2
      rcases hlast with ⟨hrnil, hstop⟩ | ⟨front, cK, tK, wsP, hsplit,
        hcKt, htKv, hwsPv, hwd, hord, hle1, hlt1, hstop, hfront⟩
      · subst hrnil
        refine ⟨true, ?_⟩
        simp only [List.append_nil]
        refine sync_weekly_stop ?_ hstop
        rw [weekly_start_append_nil hXD hXW S]
        exact hws
      · refine ⟨true, ?_⟩
        have hcKin : cK ∈ insW := by
          rw [hsplit]
          exact List.mem_append.mpr (Or.inr (List.mem_singleton.mpr rfl))
        have hcKiv : cK.interval = INTERVAL_WEEK := (hmem cK hcKin).1
        have hordPK : wsP.ordinal ≤ tK.ordinal :=
          (Date.le_iff_ordinal_le hwsPv htKv).mp hle1
        have hlast2 : get_last_candle (S ++ insW ++ X) INTERVAL_WEEK =
            some cK := by
          rw [get_last_candle_append_nil hXW, hsplit]
          refine get_last_append_top hcKiv hcKt ?_ ?_
          · intro x hxS hxiv
            cases hxt : x.open_time with
            | none => rfl
            | some ta =>
              have htav : ta.Valid := hval x hxS ta hxt
              rcases hdisj with hnone | ⟨lw, T, hlw, hT, hTlt⟩
              · exact absurd hxiv (get_last_candle_none hnone x hxS)
              · have hmax := (get_last_candle_spec hlw).2.2 x hxS hxiv
                rw [hT, hxt] at hmax
                simp only [tLtOpt, decide_eq_false_iff_not] at hmax
                have h1 : ta.lt ws :=
                  date_le_lt_trans (Date.le_of_not_lt hmax) hTlt
                have h2 : ta.lt tK := by
                  rw [Date.lt_iff_ordinal_lt htav htKv]
                  have h3 := (Date.lt_iff_ordinal_lt htav hwsv).mp h1
                  omega
                exact decide_eq_true h2
          · intro x hxF _
            have hxin : x ∈ insW := by
              rw [hsplit]
              exact List.mem_append.mpr (Or.inl hxF)
            obtain ⟨_, tx, hxt, htxv, _, _⟩ := hmem x hxin
            rw [hxt]
            have h1 : tx.lt wsP := hfront x hxF tx hxt
            exact decide_eq_true (Date.lt_of_lt_of_le_date h1 hle1)
        exact sync_weekly_no_new hlast2 hcKt htKv hwsPv
          (hwd.trans hmon) hle1 hlt1 hstop

/-- One completed monthly sync, bundled like `weekly_sync_full`:
month-tagged candles with valid stamps before today, pairing off with
the elapsed month windows, and a rerun over the store plus the batch
inserts nothing. -/
lemma monthly_sync_full (S1 : List Candle) (today : Date)
    (htoday : today.Valid) (hwfS1 : StoreWF S1) {b : Bool} {n : ℕ}
    {insM : List Candle}
    (hrun : sync_asset_monthly S1 today = .ok (b, n, insM))
    (hpro : ∀ ms, monthly_start S1 = .ok (some ms) →
      ∀ w ∈ monthWindows today ((today.ordinal - ms.ordinal).toNat + 1) ms,
        ∃ c ∈ S1, c.interval = INTERVAL_DAY ∧ c.open_ ≠ none ∧
          ∃ t, c.open_time = some t ∧ w.le t ∧
            t.lt (Date.prevDay (Date.addMonths1 w))) :
    (∀ c ∈ insM, c.interval = INTERVAL_MONTH ∧
      ∃ t, c.open_time = some t ∧ t.Valid ∧ t.lt today) ∧
    (∀ ms, monthly_start S1 = .ok (some ms) →
      List.Forall₂ (fun w c => aggregate_candles INTERVAL_MONTH
          (get_asset_within S1 INTERVAL_DAY w
            (Date.prevDay (Date.addMonths1 w))) = .ok c)
        (monthWindows today ((today.ordinal - ms.ordinal).toNat + 1) ms)
        insM) ∧
    (∃ b3, sync_asset_monthly (S1 ++ insM) today = .ok (b3, 0, [])) := by
  have hwf := StoreWF_wf hwfS1
  have hval := StoreWF_val hwfS1
  rcases sync_monthly_inv hrun with ⟨hms, _, _, hinsM⟩ |
    ⟨ms, hms, hloopM, _, _⟩
  · subst hinsM
    refine ⟨fun c hc => absurd hc (List.not_mem_nil c), ?_, false, ?_⟩
    · intro ms hms2
      rw [hms] at hms2
      exact absurd hms2 (by simp)
    · rw [List.append_nil]
      exact sync_monthly_none hms
  · obtain ⟨⟨M0, hmsM⟩, hdisj⟩ := monthly_start_cases hval hms
    subst hmsM
    obtain ⟨cs, hloop2, hF2, hmem, hpw, hlast⟩ :=
      monthlyLoop_spec S1 today htoday hwf hval _ M0 (Nat.succ_pos _)
        (by omega) (hpro _ hms)
    rw [hloopM] at hloop2
    have hcs : insM = cs := by injection hloop2
    rw [← hcs] at hF2 hmem hpw hlast
    refine ⟨?_, ?_, ?_⟩
    · intro c hc
      obtain ⟨h1, t, h2, h3, _, h4⟩ := hmem c hc
      exact ⟨h1, t, h2, h3, h4⟩
    · intro ms2 hms2
      rw [hms] at hms2
      have e1 : (some (⟨M0, 1⟩ : Date) : Option Date) = some ms2 := by
        injection hms2
      have e2 : (⟨M0, 1⟩ : Date) = ms2 := by injection e1
      subst e2
      exact hF2
    · rcases hlast with ⟨hrnil, hstop⟩ | ⟨front, cK, tK, MP, hsplit,
        hcKt, htKv, hMP, htKM, hstop, hfront⟩
      · subst hrnil
        refine ⟨true, ?_⟩
        rw [List.append_nil]
        exact sync_monthly_stop hms hstop
      · refine ⟨true, ?_⟩
        have hcKin : cK ∈ insM := by
          rw [hsplit]
          exact List.mem_append.mpr (Or.inr (List.mem_singleton.mpr rfl))
        have hcKiv : cK.interval = INTERVAL_MONTH := (hmem cK hcKin).1
        have hle2 : (⟨MP, 1⟩ : Date).le tK := Or.inr ⟨htKM.symm, htKv.1⟩
        have hle1 : (⟨M0, 1⟩ : Date).le (⟨MP, 1⟩ : Date) := by
          rcases lt_or_eq_of_le hMP with h | h
          · exact Or.inl h
          · exact Or.inr ⟨h, le_refl 1⟩
        have hlast2 : get_last_candle (S1 ++ insM) INTERVAL_MONTH =
            some cK := by
          rw [hsplit]
          refine get_last_append_top hcKiv hcKt ?_ ?_
          · intro x hxS hxiv
            cases hxt : x.open_time with
            | none => rfl
            | some ta =>
              rcases hdisj with hnone | ⟨lm, T, hlm, hT, hTlt⟩
              · exact absurd hxiv (get_last_candle_none hnone x hxS)
              · have hmax := (get_last_candle_spec hlm).2.2 x hxS hxiv
                rw [hT, hxt] at hmax
                simp only [tLtOpt, decide_eq_false_iff_not] at hmax
                have h1 : ta.lt (⟨M0, 1⟩ : Date) :=
                  date_le_lt_trans (Date.le_of_not_lt hmax) hTlt
                have h2 : ta.lt tK :=
                  Date.lt_of_lt_of_le_date
                    (Date.lt_of_lt_of_le_date h1 hle1) hle2
                exact decide_eq_true h2
          · intro x hxF _
            have hxin : x ∈ insM := by
              rw [hsplit]
              exact List.mem_append.mpr (Or.inl hxF)
            obtain ⟨_, tx, hxt, _, _, _⟩ := hmem x hxin
            rw [hxt]
            have h1 : tx.lt (⟨MP, 1⟩ : Date) := hfront x hxF tx hxt
            exact decide_eq_true (Date.lt_of_lt_of_le_date h1 hle2)
        exact sync_monthly_no_new hlast2 hcKt htKM hstop

/-- The candle `aggregate_candles` builds when every member was skipped:
the loop never ran, so the line 651-657 initial values flow through
(`open = close = 0`, the rest `None`; the zero volume becomes `None` at
lines 679-680). -/
def degenerateCandle (iv : ℤ) : Candle :=
  ⟨some 0, none, none, some 0, none, none, iv⟩

/-- When every member is skipped, the aggregation loop leaves the state
untouched. -/
lemma aggFold_all_skip :
    ∀ (cs : List Candle) (s : AggState), (∀ c ∈ cs, c.open_ = none) →
      aggFold s cs = .ok s := by
  intro cs
  induction cs with
  | nil => intro s _; rfl
  | cons c cs ih =>
    intro s hall
    unfold aggFold
    rw [aggStep_skip (hall c (by simp))]
    exact ih s (fun x hx => hall x (List.mem_cons_of_mem _ hx))

/-- A daily bar carrying volume `0`: present, but summing to zero. -/
def zeroVolumeBar : Candle :=
  ⟨some 1, some 2, some 1, some 2, some 0, some ⟨24240, 6⟩, 86400⟩

/-- Monday-Friday daily bars (Jan 6-10 2020, month index 24240 = 12*2020)
with highs [10,12,9,11,13] and lows [5,4,6,3,7]. -/
def monFriWeek : List Candle :=
  [⟨some 1, some 10, some 5, some 2, none, some ⟨24240, 6⟩, 86400⟩,
   ⟨some 2, some 12, some 4, some 3, none, some ⟨24240, 7⟩, 86400⟩,
   ⟨some 3, some 9, some 6, some 4, none, some ⟨24240, 8⟩, 86400⟩,
   ⟨some 4, some 11, some 3, some 5, none, some ⟨24240, 9⟩, 86400⟩,
   ⟨some 5, some 13, some 7, some 6, none, some ⟨24240, 10⟩, 86400⟩]

/-- A daily store with one market-open week (Mon Jan 6 - Sun Jan 12 2020)
followed by one all-filler week (Jan 13-19): fillers carry only a close
and a stamp, exactly as the daily syncer creates them. -/
def twoWeekStore : List Candle :=
  ((List.range 7).map (fun k =>
    (⟨some 1, some 2, some 1, some 1, none,
      some ⟨24240, (k : ℤ) + 6⟩, 86400⟩ : Candle))) ++
  ((List.range 7).map (fun k =>
    (⟨none, none, none, some 1, none,
      some ⟨24240, (k : ℤ) + 13⟩, 86400⟩ : Candle)))

/-- The weekly aggregate of the market-open week of `twoWeekStore`. -/
def firstWeekAgg : Candle :=
  ⟨some 1, some 2, some 1, some 1, none, some ⟨24240, 6⟩, 604800⟩

/-- Just the market-open week (Mon Jan 6 - Sun Jan 12 2020). -/
def oneWeekStore : List Candle :=
  (List.range 7).map (fun k =>
    (⟨some 1, some 2, some 1, some 1, none,
      some ⟨24240, (k : ℤ) + 6⟩, 86400⟩ : Candle))

/-- `twoWeekStore` followed by a second all-filler week (Jan 20-26). -/
def threeWeekStore : List Candle :=
  twoWeekStore ++ ((List.range 7).map (fun k =>
    (⟨none, none, none, some 1, none,
      some ⟨24240, (k : ℤ) + 20⟩, 86400⟩ : Candle)))

instance (S : List Candle) (iv : ℤ) : Decidable (UniqueStamps S iv) := by
  unfold UniqueStamps
  infer_instance

instance (S : List Candle) (iv : ℤ) :
    Decidable (UniqueStampsPresent S iv) := by
  unfold UniqueStampsPresent
  infer_instance

instance (c : Candle) : Decidable (wfMember c) := by
  unfold wfMember
  infer_instance

instance (S : List Candle) : Decidable (StoreWF S) := by
  unfold StoreWF
  infer_instance

end Agg

deriving instance DecidableEq for Except


/-- **C3 (counterexample).** The volume rule is "None if the sum is 0",
not "None if no member has volume": a single member that does carry a
volume — the float `0` — aggregates to an absent volume, although the
claimed sum of member volumes is the present value `0`. -/
theorem claim3_aggregate_fields_counterexample :
    Agg.zeroVolumeBar.volume = some 0 ∧
    Agg.aggregate_candles Agg.INTERVAL_WEEK [Agg.zeroVolumeBar] =
      .ok ⟨some 1, some 2, some 1, some 2, none, some ⟨24240, 6⟩,
           Agg.INTERVAL_WEEK⟩ := by
  refine ⟨rfl, ?_⟩
  have h1 : Agg.aggFold Agg.initAgg [Agg.zeroVolumeBar] =
      .ok ⟨some 1, some 2, 0 + 0, some 1, some ⟨24240, 6⟩, some 2,
           some ⟨24240, 6⟩⟩ := rfl
  unfold Agg.aggregate_candles
  rw [h1]
  simp only [bind, Except.bind, pure, Except.pure]
  norm_num

/-- **C3 (amended).** For a member collection whose market-open members
are well-formed and non-empty, `aggregate_candles` returns a candle
whose low/high are the minimum member low / maximum member high, whose
open and open_time come from a chronologically earliest member, whose
close comes from a chronologically latest member — members with an
absent open excluded throughout — and whose volume is the sum of the
present member volumes stored as `None` exactly when that sum is `0`
(in particular when no member carries a volume).  The Monday-Friday
example aggregates to high=13, low=3, open=Monday's open=1,
close=Friday's close=6. -/
theorem claim3_aggregate_fields_amended (iv : ℤ) (cs : List Agg.Candle)
    (hwf : ∀ c ∈ cs, Agg.wfMember c) (hne : Agg.reals cs ≠ []) :
    (∃ agg, Agg.aggregate_candles iv cs = .ok agg ∧
      agg.interval = iv ∧
      (∃ lv, agg.low = some lv ∧ (∃ c ∈ Agg.reals cs, c.low = some lv) ∧
        ∀ c ∈ Agg.reals cs, ∀ v, c.low = some v → lv ≤ v) ∧
      (∃ hv, agg.high = some hv ∧ (∃ c ∈ Agg.reals cs, c.high = some hv) ∧
        ∀ c ∈ Agg.reals cs, ∀ v, c.high = some v → v ≤ hv) ∧
      agg.volume = (if Agg.volSum (Agg.reals cs) = 0 then none
        else some (Agg.volSum (Agg.reals cs))) ∧
      (∃ c ∈ Agg.reals cs, ∃ t, c.open_time = some t ∧
        agg.open_ = c.open_ ∧ agg.open_time = some t ∧
        ∀ c2 ∈ Agg.reals cs, ∀ t2, c2.open_time = some t2 → t.le t2) ∧
      (∃ c ∈ Agg.reals cs, ∃ t, c.open_time = some t ∧ agg.close = c.close ∧
        ∀ c2 ∈ Agg.reals cs, ∀ t2, c2.open_time = some t2 → t2.le t)) ∧
    Agg.aggregate_candles Agg.INTERVAL_WEEK Agg.monFriWeek =
      .ok ⟨some 1, some 13, some 3, some 6, none, some ⟨24240, 6⟩,
           Agg.INTERVAL_WEEK⟩ := by
  constructor
  · obtain ⟨s, hs, hinv, heq⟩ := Agg.aggregate_ok iv cs hwf
    obtain ⟨hvol, hcase⟩ := hinv
    rcases hcase with ⟨hR, _⟩ | ⟨_, hlow, hhigh, hopen, hclose⟩
    · exact absurd hR hne
    refine ⟨_, heq, rfl, ?_, ?_, ?_, ?_, ?_⟩
    · exact hlow
    · exact hhigh
    · show (if s.volume = 0 then none else some s.volume) = _
      rw [hvol]
    · obtain ⟨c, hc, t, ht, h1, h2, h3⟩ := hopen
      exact ⟨c, hc, t, ht, h1.symm ▸ rfl, h2, h3⟩
    · obtain ⟨c, hc, t, ht, h1, _, h3⟩ := hclose
      exact ⟨c, hc, t, ht, h1.symm ▸ rfl, h3⟩
  · decide

/-- Witness for C3 (amended): the Monday-Friday member list itself has
well-formed, non-empty market-open members, and the theorem applies to
it. -/
theorem claim3_aggregate_fields_amended_witness :
    (∃ agg, Agg.aggregate_candles Agg.INTERVAL_WEEK Agg.monFriWeek =
        .ok agg ∧
      agg.interval = Agg.INTERVAL_WEEK ∧
      (∃ lv, agg.low = some lv ∧
        (∃ c ∈ Agg.reals Agg.monFriWeek, c.low = some lv) ∧
        ∀ c ∈ Agg.reals Agg.monFriWeek, ∀ v, c.low = some v → lv ≤ v) ∧
      (∃ hv, agg.high = some hv ∧
        (∃ c ∈ Agg.reals Agg.monFriWeek, c.high = some hv) ∧
        ∀ c ∈ Agg.reals Agg.monFriWeek, ∀ v, c.high = some v → v ≤ hv) ∧
      agg.volume = (if Agg.volSum (Agg.reals Agg.monFriWeek) = 0 then none
        else some (Agg.volSum (Agg.reals Agg.monFriWeek))) ∧
      (∃ c ∈ Agg.reals Agg.monFriWeek, ∃ t, c.open_time = some t ∧
        agg.open_ = c.open_ ∧ agg.open_time = some t ∧
        ∀ c2 ∈ Agg.reals Agg.monFriWeek, ∀ t2, c2.open_time = some t2 →
          t.le t2) ∧
      (∃ c ∈ Agg.reals Agg.monFriWeek, ∃ t, c.open_time = some t ∧
        agg.close = c.close ∧
        ∀ c2 ∈ Agg.reals Agg.monFriWeek, ∀ t2, c2.open_time = some t2 →
          t2.le t)) ∧
    Agg.aggregate_candles Agg.INTERVAL_WEEK Agg.monFriWeek =
      .ok ⟨some 1, some 13, some 3, some 6, none, some ⟨24240, 6⟩,
           Agg.INTERVAL_WEEK⟩ :=
  claim3_aggregate_fields_amended Agg.INTERVAL_WEEK Agg.monFriWeek
    (by decide) (by decide)

/-- **C10.** Whenever no member candle has a present open — an all-filler
or empty window — `aggregate_candles` returns the degenerate candle with
`low = high = open_time = volume = None` and `open = close = 0`; and
`sync_asset_weekly` does append and insert it: on the two-week store
(one market-open week, one all-filler week) the weekly sync inserts the
real week's aggregate followed by the degenerate candle. -/
theorem claim10_degenerate_aggregate :
    (∀ (iv : ℤ) (cs : List Agg.Candle), (∀ c ∈ cs, c.open_ = none) →
      Agg.aggregate_candles iv cs = .ok (Agg.degenerateCandle iv)) ∧
    Agg.sync_asset_weekly Agg.twoWeekStore ⟨24240, 21⟩ =
      .ok (true, 2, [Agg.firstWeekAgg,
        Agg.degenerateCandle Agg.INTERVAL_WEEK]) := by
  constructor
  · intro iv cs hall
    unfold Agg.aggregate_candles
    rw [Agg.aggFold_all_skip cs Agg.initAgg hall]
    rfl
  · decide

/-- Witness for C10: one filler-only member list, aggregated through the
first conjunct of the theorem. -/
theorem claim10_degenerate_aggregate_witness :
    Agg.aggregate_candles Agg.INTERVAL_WEEK
        [⟨none, none, none, some 1, none, some ⟨24240, 13⟩, 86400⟩] =
      .ok (Agg.degenerateCandle Agg.INTERVAL_WEEK) := by
  have h := claim10_degenerate_aggregate
  exact h.1 Agg.INTERVAL_WEEK _ (by decide)

/-- **C9 (amended).** Open-time uniqueness restricted to present stamps.
Daily half: one completed `sync_asset` call preserves pairwise-distinct
dates (the inserted batch has distinct dates, all strictly after every
stored date).  Weekly half: on a well-formed store, provided every
aggregated window holds a market-open daily bar, one `sync_asset_weekly`
call preserves pairwise-distinct present stamps among week-tagged
candles (the batch stamps strictly increase and start strictly after
every stored weekly stamp).  All-filler windows produce aggregates with
an absent stamp, for which no uniqueness holds — hence the
present-stamp restriction. -/
theorem claim9_open_time_uniqueness_amended :
    (∀ (S : List Daily.Candle) (now : ℤ) (f : ℕ → Daily.FetchOutcome)
        (b : Bool) (n : ℕ) (ins : List Daily.Candle),
      (∀ k es, f k = .ret (some es) →
        (es.filterMap Daily.Entry.pdate).Pairwise (· > ·) ∧
          ∀ d ∈ es.filterMap Daily.Entry.pdate, d ≤ Daily.dateOf now) →
      Daily.syncAsset (Daily.lastCandle S) now f = .result b n ins →
      (Daily.datesOf S).Nodup → (Daily.datesOf (S ++ ins)).Nodup) ∧
    (∀ (S : List Agg.Candle) (today : Agg.Date) (b : Bool) (n : ℕ)
        (insW : List Agg.Candle),
      today.Valid → Agg.StoreWF S →
      Agg.sync_asset_weekly S today = .ok (b, n, insW) →
      (∀ ws, Agg.weekly_start S = .ok (some ws) →
        ∀ w ∈ Agg.weekWindows today
            ((today.ordinal - ws.ordinal).toNat + 1) ws,
          ∃ c ∈ S, c.interval = Agg.INTERVAL_DAY ∧ c.open_ ≠ none ∧
            ∃ t, c.open_time = some t ∧ w.le t ∧
              t.lt (Agg.Date.addDays 7 w)) →
      Agg.UniqueStampsPresent S Agg.INTERVAL_WEEK →
      Agg.UniqueStampsPresent (S ++ insW) Agg.INTERVAL_WEEK) := by
  constructor
  · intro S now f b n ins hf hrun hnd
    cases b with
    | false =>
      obtain ⟨_, hins⟩ := Daily.syncAsset_false_empty hrun
      subst hins
      simpa using hnd
    | true =>
      obtain ⟨hnd2, hgt, _, _⟩ :=
        Daily.syncAsset_inserted_spec _ now f n ins hf hrun
      rw [Daily.datesOf_append, List.nodup_append]
      refine ⟨hnd, hnd2, ?_⟩
      intro z hz1 hz2
      cases hlc : Daily.lastCandle S with
      | none =>
        have hS := Daily.lastCandle_eq_none hlc
        subst hS
        simp [Daily.datesOf] at hz1
      | some lc =>
        obtain ⟨c, hc, hcz⟩ := List.mem_map.mp hz1
        obtain ⟨c2, hc2, hcz2⟩ := List.mem_map.mp hz2
        have h1 : c.date ≤ lc.date := Daily.lastCandle_max_date hlc c hc
        have h2 : lc.date < c2.date := hgt lc hlc c2 hc2
        omega
  · intro S today b n insW htoday hwfS hrun hpro hUW
    rcases Agg.sync_weekly_inv hrun with ⟨hws, _, _, hins⟩ |
      ⟨ws, hws, hloop, _, _⟩
    · subst hins
      unfold Agg.UniqueStampsPresent at hUW ⊢
      rwa [List.append_nil]
    · obtain ⟨hwsv, hmon, hdisj⟩ :=
        Agg.weekly_start_cases (Agg.StoreWF_val hwfS) hws
      obtain ⟨cs, hloop2, hF2, hmem, hpw, hlast⟩ :=
        Agg.weeklyLoop_spec S today htoday (Agg.StoreWF_wf hwfS)
          (Agg.StoreWF_val hwfS) _ ws hwsv (Nat.succ_pos _)
          (by omega) (hpro ws hws)
      rw [hloop] at hloop2
      have hcs : insW = cs := by injection hloop2
      rw [← hcs] at hmem hpw hlast
      unfold Agg.UniqueStampsPresent at hUW ⊢
      rw [List.filter_append]
      have hfins : insW.filter
          (fun c => decide (c.interval = Agg.INTERVAL_WEEK)) = insW :=
        List.filter_eq_self.mpr (fun c hc => decide_eq_true (hmem c hc).1)
      rw [hfins, List.pairwise_append]
      refine ⟨hUW, ?_, ?_⟩
      · refine List.Pairwise.imp ?_ hpw
        intro a b hab
        cases hao : a.open_time with
        | none => exact Or.inl rfl
        | some ta =>
          cases hbo : b.open_time with
          | none => exact Or.inr (Or.inl rfl)
          | some tb =>
            refine Or.inr (Or.inr ?_)
            intro he
            have hee : ta = tb := by injection he
            exact absurd (hee ▸ hab ta tb hao hbo) Agg.Date.not_lt_self
      · intro a ha b hb
        cases hao : a.open_time with
        | none => exact Or.inl rfl
        | some ta =>
          cases hbo : b.open_time with
          | none => exact Or.inr (Or.inl rfl)
          | some tb =>
            refine Or.inr (Or.inr ?_)
            have haS := List.mem_of_mem_filter ha
            have hap := List.of_mem_filter ha
            have haiv : a.interval = Agg.INTERVAL_WEEK :=
              of_decide_eq_true hap
            rcases hdisj with hnone | ⟨lw, T, hlw, hT, hTlt⟩
            · exact absurd haiv (Agg.get_last_candle_none hnone a haS)
            · have hmax := (Agg.get_last_candle_spec hlw).2.2 a haS haiv
              rw [hT, hao] at hmax
              simp only [Agg.tLtOpt, decide_eq_false_iff_not] at hmax
              have hta_le : ta.le T := Agg.Date.le_of_not_lt hmax
              have h1 : ta.lt ws := Agg.date_le_lt_trans hta_le hTlt
              obtain ⟨_, t2, hbt2, _, hge, _⟩ := hmem b hb
              have ht2b : t2 = tb := by
                rw [hbt2] at hbo
                injection hbo
              have h2 : ta.lt tb :=
                Agg.Date.lt_of_lt_of_le_date h1 (ht2b ▸ hge)
              intro he
              have hee : ta = tb := by injection he
              exact absurd (hee ▸ h2) Agg.Date.not_lt_self

/-- **C9 (counterexample).** One weekly sync over a store holding one
market-open week followed by two all-filler weeks (today: Tue Jan 28
2020) inserts, in a single batch, two identical degenerate weekly
candles with `open_time = None` — two stored candles of the same
interval sharing an open_time, against the claim. -/
theorem claim9_open_time_uniqueness_counterexample :
    Agg.sync_asset_weekly Agg.threeWeekStore ⟨24240, 28⟩ =
      .ok (true, 3, [Agg.firstWeekAgg,
        Agg.degenerateCandle Agg.INTERVAL_WEEK,
        Agg.degenerateCandle Agg.INTERVAL_WEEK]) ∧
    ¬Agg.UniqueStamps (Agg.threeWeekStore ++
      [Agg.firstWeekAgg, Agg.degenerateCandle Agg.INTERVAL_WEEK,
       Agg.degenerateCandle Agg.INTERVAL_WEEK]) Agg.INTERVAL_WEEK := by
  constructor
  · decide
  · decide

/-- Witness for C9 (amended): a daily sync appending a day-12 bar to a
day-10 store keeps dates distinct, and a weekly sync over one
market-open week keeps present weekly stamps distinct. -/
theorem claim9_open_time_uniqueness_amended_witness :
    (Daily.datesOf ([Daily.mkReal 1 2 1 1 10] ++
      [Daily.mkReal 5 5 5 5 12])).Nodup ∧
    Agg.UniqueStampsPresent (Agg.oneWeekStore ++ [Agg.firstWeekAgg])
      Agg.INTERVAL_WEEK := by
  have h := claim9_open_time_uniqueness_amended
  constructor
  · have hdec : Daily.syncDecision (some (Daily.mkReal 1 2 1 1 10))
        (86400 * 13 + 3600) = some .compact := by
      refine (Daily.syncDecision_compact_iff _ _).mpr ⟨_, rfl, ?_, ?_⟩ <;>
        norm_num [Daily.mkReal]
    refine h.1 [Daily.mkReal 1 2 1 1 10] (86400 * 13 + 3600)
      (fun _ => .ret (some [⟨some 12, .ok 5 5 5 5⟩])) true 1
      [Daily.mkReal 5 5 5 5 12] ?_ ?_ (by decide)
    · intro k es hes
      injection hes with hes
      injection hes with hes
      subst hes
      exact ⟨by decide, by decide⟩
    · rw [show Daily.lastCandle [Daily.mkReal 1 2 1 1 10] =
        some (Daily.mkReal 1 2 1 1 10) from rfl,
        Daily.syncAsset_of_decision_some hdec]
      rfl
  · refine h.2 Agg.oneWeekStore ⟨24240, 14⟩ true 1 [Agg.firstWeekAgg]
      (by decide) (by decide) (by decide) ?_ (by decide)
    intro ws hws
    have hws0 : Agg.weekly_start Agg.oneWeekStore =
        .ok (some ⟨24240, 6⟩) := by decide
    rw [hws0] at hws
    have h1 : (some (⟨24240, 6⟩ : Agg.Date) : Option Agg.Date) =
        some ws := by injection hws
    have h2 : (⟨24240, 6⟩ : Agg.Date) = ws := by injection h1
    subst h2
    decide

namespace Agg

/-- Daily bars for every day Jan 1 - Feb 4 2020 (month indexes 24240 and
24241); the first trading day, Wed Jan 1, is not a Monday, so the weekly
start aligns forward to Mon Jan 6. -/
def janStore : List Candle :=
  ((List.range 31).map (fun k =>
    (⟨some 1, some 2, some 1, some 1, none,
      some ⟨24240, (k : ℤ) + 1⟩, 86400⟩ : Candle))) ++
  ((List.range 4).map (fun k =>
    (⟨some 1, some 2, some 1, some 1, none,
      some ⟨24241, (k : ℤ) + 1⟩, 86400⟩ : Candle)))

/-- The weekly aggregate of the week starting Jan `d` 2020 in
`janStore`. -/
def janWeekly (d : ℤ) : Candle :=
  ⟨some 1, some 2, some 1, some 1, none, some ⟨24240, d⟩, 604800⟩

/-- The four weekly candles the first weekly sync over `janStore`
inserts (weeks of Jan 6, 13, 20, 27; today Wed Feb 5 2020). -/
def janWeeklies : List Candle :=
  [janWeekly 6, janWeekly 13, janWeekly 20, janWeekly 27]

/-- The single monthly candle the first monthly sync inserts (January,
aggregated over Jan 1-30: the query excludes the month's last day). -/
def janMonthly : Candle :=
  ⟨some 1, some 2, some 1, some 1, none, some ⟨24240, 1⟩, 2592000⟩

end Agg

/-- **C5 (counterexample).** Idempotence fails on all-filler weeks: over
a store with one market-open week and one filler week (today Tue Jan 21
2020), the first weekly sync inserts the real aggregate and a degenerate
candle, and the second run — with no new daily data — inserts another
degenerate candle instead of zero: the degenerate candle's `open_time`
is `None`, so `get_last_candle(interval=week)` never advances past the
real week. -/
theorem claim5_aggregation_idempotent_counterexample :
    Agg.sync_asset_weekly Agg.twoWeekStore ⟨24240, 21⟩ =
      .ok (true, 2, [Agg.firstWeekAgg,
        Agg.degenerateCandle Agg.INTERVAL_WEEK]) ∧
    Agg.sync_asset_weekly (Agg.twoWeekStore ++
        [Agg.firstWeekAgg, Agg.degenerateCandle Agg.INTERVAL_WEEK])
        ⟨24240, 21⟩ =
      .ok (true, 1, [Agg.degenerateCandle Agg.INTERVAL_WEEK]) :=
  ⟨by decide, by decide⟩

/-- **C5 (amended).** On a well-formed store, provided every aggregated
window holds at least one market-open daily bar, aggregation is
idempotent: after one weekly and one monthly sync, rerunning both over
the grown store inserts zero weekly and zero monthly candles; and each
run only ever aggregates windows whose end has already elapsed before
today (the inserted batches pair off exactly with the elapsed windows).
Without the market-open proviso an aggregated all-filler window yields a
candle with `open_time = None`, the next run's
`get_last_candle(interval=week|month)` does not see it, and the same
window is aggregated and inserted again — see the counterexample. -/
theorem claim5_aggregation_idempotent_amended
    (S : List Agg.Candle) (today : Agg.Date) (htoday : today.Valid)
    (hwfS : Agg.StoreWF S) (bw bm : Bool) (nw nm : ℕ)
    (insW insM : List Agg.Candle)
    (hrunW : Agg.sync_asset_weekly S today = .ok (bw, nw, insW))
    (hrunM : Agg.sync_asset_monthly (S ++ insW) today = .ok (bm, nm, insM))
    (hproW : ∀ ws, Agg.weekly_start S = .ok (some ws) →
      ∀ w ∈ Agg.weekWindows today
          ((today.ordinal - ws.ordinal).toNat + 1) ws,
        ∃ c ∈ S, c.interval = Agg.INTERVAL_DAY ∧ c.open_ ≠ none ∧
          ∃ t, c.open_time = some t ∧ w.le t ∧
            t.lt (Agg.Date.addDays 7 w))
    (hproM : ∀ ms, Agg.monthly_start (S ++ insW) = .ok (some ms) →
      ∀ w ∈ Agg.monthWindows today
          ((today.ordinal - ms.ordinal).toNat + 1) ms,
        ∃ c ∈ S ++ insW, c.interval = Agg.INTERVAL_DAY ∧ c.open_ ≠ none ∧
          ∃ t, c.open_time = some t ∧ w.le t ∧
            t.lt (Agg.Date.prevDay (Agg.Date.addMonths1 w))) :
    (∃ b2, Agg.sync_asset_weekly (S ++ insW ++ insM) today =
      .ok (b2, 0, [])) ∧
    (∃ b3, Agg.sync_asset_monthly (S ++ insW ++ insM) today =
      .ok (b3, 0, [])) ∧
    (∀ ws, Agg.weekly_start S = .ok (some ws) →
      List.Forall₂ (fun w c => Agg.aggregate_candles Agg.INTERVAL_WEEK
          (Agg.get_asset_within S Agg.INTERVAL_DAY w
            (Agg.Date.addDays 7 w)) = .ok c)
        (Agg.weekWindows today ((today.ordinal - ws.ordinal).toNat + 1) ws)
        insW ∧
      ∀ w ∈ Agg.weekWindows today
          ((today.ordinal - ws.ordinal).toNat + 1) ws,
        (Agg.Date.addDays 7 w).lt today) ∧
    (∀ ms, Agg.monthly_start (S ++ insW) = .ok (some ms) →
      List.Forall₂ (fun w c => Agg.aggregate_candles Agg.INTERVAL_MONTH
          (Agg.get_asset_within (S ++ insW) Agg.INTERVAL_DAY w
            (Agg.Date.prevDay (Agg.Date.addMonths1 w))) = .ok c)
        (Agg.monthWindows today ((today.ordinal - ms.ordinal).toNat + 1) ms)
        insM ∧
      ∀ w ∈ Agg.monthWindows today
          ((today.ordinal - ms.ordinal).toNat + 1) ms,
        (Agg.Date.prevDay (Agg.Date.addMonths1 w)).lt today) := by
  obtain ⟨hWmem, hWpair, hWsecond⟩ :=
    Agg.weekly_sync_full S today htoday hwfS hrunW hproW
  have hwfS1 : Agg.StoreWF (S ++ insW) := by
    refine Agg.StoreWF_append hwfS ?_
    intro c hc
    obtain ⟨hiv, t, ht, htv, _⟩ := hWmem c hc
    constructor
    · intro hd
      rw [hiv] at hd
      exact absurd hd (by norm_num [Agg.INTERVAL_WEEK, Agg.INTERVAL_DAY])
    · intro t2 ht2
      rw [ht] at ht2
      have he : t = t2 := by injection ht2
      rwa [← he]
  obtain ⟨hMmem, hMpair, hMsecond⟩ :=
    Agg.monthly_sync_full (S ++ insW) today htoday hwfS1 hrunM hproM
  refine ⟨?_, hMsecond, ?_, ?_⟩
  · refine hWsecond insM ?_
    intro c hc
    have hiv := (hMmem c hc).1
    constructor
    · rw [hiv]
      norm_num [Agg.INTERVAL_MONTH, Agg.INTERVAL_DAY]
    · rw [hiv]
      norm_num [Agg.INTERVAL_MONTH, Agg.INTERVAL_WEEK]
  · intro ws hws
    exact ⟨hWpair ws hws,
      fun w hw => Agg.weekWindows_elapsed today _ ws w hw⟩
  · intro ms hms
    exact ⟨hMpair ms hms,
      fun w hw => Agg.monthWindows_elapsed today _ ms w hw⟩

/-- Witness for C5 (amended): the January 2020 store with a market-open
bar on every calendar day, today Wed Feb 5 2020.  The first runs insert
four weekly candles and one monthly candle; rerunning both syncs over
the grown store inserts nothing. -/
theorem claim5_aggregation_idempotent_amended_witness :
    (∃ b2, Agg.sync_asset_weekly
        (Agg.janStore ++ Agg.janWeeklies ++ [Agg.janMonthly]) ⟨24241, 5⟩ =
      .ok (b2, 0, [])) ∧
    (∃ b3, Agg.sync_asset_monthly
        (Agg.janStore ++ Agg.janWeeklies ++ [Agg.janMonthly]) ⟨24241, 5⟩ =
      .ok (b3, 0, [])) ∧
    (∀ ws, Agg.weekly_start Agg.janStore = .ok (some ws) →
      List.Forall₂ (fun w c => Agg.aggregate_candles Agg.INTERVAL_WEEK
          (Agg.get_asset_within Agg.janStore Agg.INTERVAL_DAY w
            (Agg.Date.addDays 7 w)) = .ok c)
        (Agg.weekWindows ⟨24241, 5⟩
          (((⟨24241, 5⟩ : Agg.Date).ordinal - ws.ordinal).toNat + 1) ws)
        Agg.janWeeklies ∧
      ∀ w ∈ Agg.weekWindows ⟨24241, 5⟩
          (((⟨24241, 5⟩ : Agg.Date).ordinal - ws.ordinal).toNat + 1) ws,
        (Agg.Date.addDays 7 w).lt ⟨24241, 5⟩) ∧
    (∀ ms, Agg.monthly_start (Agg.janStore ++ Agg.janWeeklies) =
        .ok (some ms) →
      List.Forall₂ (fun w c => Agg.aggregate_candles Agg.INTERVAL_MONTH
          (Agg.get_asset_within (Agg.janStore ++ Agg.janWeeklies)
            Agg.INTERVAL_DAY w
            (Agg.Date.prevDay (Agg.Date.addMonths1 w))) = .ok c)
        (Agg.monthWindows ⟨24241, 5⟩
          (((⟨24241, 5⟩ : Agg.Date).ordinal - ms.ordinal).toNat + 1) ms)
        [Agg.janMonthly] ∧
      ∀ w ∈ Agg.monthWindows ⟨24241, 5⟩
          (((⟨24241, 5⟩ : Agg.Date).ordinal - ms.ordinal).toNat + 1) ms,
        (Agg.Date.prevDay (Agg.Date.addMonths1 w)).lt ⟨24241, 5⟩) := by
  refine claim5_aggregation_idempotent_amended Agg.janStore ⟨24241, 5⟩
    (by decide) (by decide) true true 4 1 Agg.janWeeklies [Agg.janMonthly]
    (by decide) (by decide) ?_ ?_
  · intro ws hws
    have h0 : Agg.weekly_start Agg.janStore = .ok (some ⟨24240, 6⟩) := by
      decide
    rw [h0] at hws
    have e1 : (some (⟨24240, 6⟩ : Agg.Date) : Option Agg.Date) =
        some ws := by injection hws
    have e2 : (⟨24240, 6⟩ : Agg.Date) = ws := by injection e1
    subst e2
    decide
  · intro ms hms
    have h0 : Agg.monthly_start (Agg.janStore ++ Agg.janWeeklies) =
        .ok (some ⟨24240, 1⟩) := by decide
    rw [h0] at hms
    have e1 : (some (⟨24240, 1⟩ : Agg.Date) : Option Agg.Date) =
        some ms := by injection hms
    have e2 : (⟨24240, 1⟩ : Agg.Date) = ms := by injection e1
    subst e2
    decide
